import Mathlib

/-!
# go-slugify: a shallow embedding of `slugify.go`

The development follows the Go source file `slugify.go`.

* Go strings are byte sequences; they are modelled as lists of byte values
  (`GoString`).  Text written in this file is turned into bytes with `B`.
* The Go standard library and the transliteration library are not part of the
  repository.  The parts `slugify.go` calls are modelled in the first half of
  the file, each definition naming the library function it stands for:
  `utf8.DecodeRuneInString`, `utf8.AppendRune`, `unicode.IsSpace`,
  `strings.Fields`, `strings.Join`, `strings.ToLower`, `regexp.QuoteMeta`,
  `fmt.Sprintf`, `regexp.MustCompile`, `Regexp.ReplaceAllString`.
  Data tables of those libraries that cannot be written down here (the
  transliteration table, the Unicode case and letter tables beyond ASCII) are
  fields of `Deps`.
* `MustCompile` covers the two pattern shapes `initialize` builds: one negated
  bracket expression, and a literal followed by a `2 or more` repetition of its
  last character.  Bracket bodies may hold literal characters, escaped
  punctuation, the escapes a f n r t v, ranges and the classes d D s S w W.
  Any other pattern yields `none`, which is also the model of the panic
  `MustCompile` raises for a pattern Go rejects.
* A panic is modelled by the result `none`.  Where the result `none` of `MustCompile`
  has to be told apart, `patternError` answers `true` only for a pattern on which the
  parser of Go returns an error.
-/

namespace Slugify

/-! ## Go strings, UTF-8 -/

/-- A Go string: an immutable sequence of bytes. -/
abbrev GoString := List Nat

/-- The constant `utf8.RuneError` (U+FFFD). -/
def RuneError : Nat := 0xFFFD

/-- The function `utf8.AppendRune` on an empty buffer: the UTF-8 encoding of a rune. -/
def encodeRune (r : Nat) : GoString :=
  if r < 0x80 then [r]
  else if r < 0x800 then [0xC0 + r / 0x40, 0x80 + r % 0x40]
  else if 0x10FFFF < r ∨ (0xD800 ≤ r ∧ r ≤ 0xDFFF) then [0xEF, 0xBF, 0xBD]
  else if r < 0x10000 then [0xE0 + r / 0x1000, 0x80 + (r / 0x40) % 0x40, 0x80 + r % 0x40]
  else [0xF0 + r / 0x40000, 0x80 + (r / 0x1000) % 0x40, 0x80 + (r / 0x40) % 0x40, 0x80 + r % 0x40]

/-- Whether a number is a Unicode scalar value, the code point of a character (no
surrogate, at most U+10FFFF): what `utf8.ValidRune` tests. -/
def validRune (r : Nat) : Bool := r < 0xD800 || (0xDFFF < r && r ≤ 0x10FFFF)

/-- Bytes of a text literal (its UTF-8 encoding). -/
def B (s : String) : GoString := s.toList.flatMap (fun c => encodeRune c.toNat)

/-- A continuation byte 0x80..0xBF. -/
def isCont (b : Nat) : Bool := 0x80 ≤ b && b ≤ 0xBF

/-- Lower bound of the second byte after the first byte `p0` (table `acceptRanges`). -/
def acceptLo (p0 : Nat) : Nat := if p0 = 0xE0 then 0xA0 else if p0 = 0xF0 then 0x90 else 0x80

/-- Upper bound of the second byte after the first byte `p0` (table `acceptRanges`). -/
def acceptHi (p0 : Nat) : Nat := if p0 = 0xED then 0x9F else if p0 = 0xF4 then 0x8F else 0xBF

/-- The function `utf8.DecodeRuneInString`: the first rune of the string and its width in
bytes.  Every malformed or truncated encoding gives `(RuneError, 1)`. -/
def decodeRune : GoString → Nat × Nat
  | [] => (RuneError, 0)
  | p0 :: t =>
    if p0 < 0x80 then (p0, 1)
    else if p0 < 0xC2 ∨ 0xF5 ≤ p0 then (RuneError, 1)
    else
      match t with
      | [] => (RuneError, 1)
      | b1 :: t1 =>
        if b1 < acceptLo p0 ∨ acceptHi p0 < b1 then (RuneError, 1)
        else if p0 < 0xE0 then ((p0 % 0x20) * 0x40 + b1 % 0x40, 2)
        else
          match t1 with
          | [] => (RuneError, 1)
          | b2 :: t2 =>
            if !isCont b2 then (RuneError, 1)
            else if p0 < 0xF0 then ((p0 % 0x10) * 0x1000 + (b1 % 0x40) * 0x40 + b2 % 0x40, 3)
            else
              match t2 with
              | [] => (RuneError, 1)
              | b3 :: _ =>
                if !isCont b3 then (RuneError, 1)
                else ((p0 % 0x08) * 0x40000 + (b1 % 0x40) * 0x1000 + (b2 % 0x40) * 0x40
                  + b3 % 0x40, 4)

/-- A decoded rune together with the bytes it was decoded from. -/
abbrev Chunk := Nat × GoString

/-- Decoding loop: the first argument counts bytes still belonging to the rune decoded last. -/
def runesFrom : Nat → GoString → List Chunk
  | _, [] => []
  | 0, b :: t =>
    ((decodeRune (b :: t)).1, (b :: t).take (decodeRune (b :: t)).2)
      :: runesFrom ((decodeRune (b :: t)).2 - 1) t
  | k + 1, _ :: t => runesFrom k t

/-- The runes of a string in order, as a Go `range` loop over the string yields them:
each with the bytes it covers; a byte that starts no valid encoding is a rune
`RuneError` of width 1. -/
def runes (s : GoString) : List Chunk := runesFrom 0 s

/-- The check `checkUTF8` of `regexp/syntax`: no byte decodes to a width-1 `RuneError`. -/
def validUTF8 (s : GoString) : Bool :=
  (runes s).all (fun c => !(c.1 = RuneError && c.2.length = 1))

/-! ## ASCII character classes -/

def isUpper (b : Nat) : Bool := 0x41 ≤ b && b ≤ 0x5A
def isLower (b : Nat) : Bool := 0x61 ≤ b && b ≤ 0x7A
def isDigit (b : Nat) : Bool := 0x30 ≤ b && b ≤ 0x39
def isAlnum (b : Nat) : Bool := isDigit b || isUpper b || isLower b

/-- The function `unicode.IsSpace`. -/
def isSpace (r : Nat) : Bool :=
  (0x09 ≤ r && r ≤ 0x0D) || r = 0x20 || r = 0x85 || r = 0xA0 || r = 0x1680
    || (0x2000 ≤ r && r ≤ 0x200A) || r = 0x2028 || r = 0x2029 || r = 0x202F
    || r = 0x205F || r = 0x3000

/-! ## External collaborators -/

/-- What the program takes from libraries whose data cannot be written out here. -/
structure Deps where
  /-- The function `unidecode.Unidecode` of `github.com/mozillazg/go-unidecode`. -/
  unidecode : GoString → GoString
  /-- The function `unicode.ToLower` on runes from 0x80 upwards. -/
  toLower : Nat → Nat
  /-- The test `unicode.IsLetter(r) || unicode.IsDigit(r)` on runes from 0x80 upwards. -/
  isLetterOrDigit : Nat → Bool

/-- The function `unicode.ToLower`. -/
def runeToLower (d : Deps) (r : Nat) : Nat :=
  if r < 0x80 then (if isUpper r then r + 0x20 else r) else d.toLower r

/-! ## Package strings -/

/-- Loop of `strings.FieldsFunc`: `cur` is the field being read (empty: none open). -/
def fieldsLoop (f : Nat → Bool) : List Chunk → GoString → List GoString
  | [], cur => if cur = [] then [] else [cur]
  | c :: cs, cur =>
    if f c.1 then (if cur = [] then fieldsLoop f cs [] else cur :: fieldsLoop f cs [])
    else fieldsLoop f cs (cur ++ c.2)

/-- The function `strings.Fields`: the maximal pieces of the string free of white space
(`unicode.IsSpace`), in order; no piece is empty. -/
def Fields (s : GoString) : List GoString := fieldsLoop isSpace (runes s) []

/-- The function `strings.Join`. -/
def Join (elems : List GoString) (sep : GoString) : GoString := sep.intercalate elems

/-- The function `strings.ToLower`: every rune mapped by `unicode.ToLower` and encoded
again; a byte that is no valid encoding comes out as the encoding of `RuneError`. -/
def ToLower (d : Deps) (s : GoString) : GoString :=
  (runes s).flatMap (fun c => encodeRune (runeToLower d c.1))

/-! ## Package fmt -/

/-- Bytes that start flags, a width, a precision or an operand index after a percent sign. -/
def isFormatModifier (c : Nat) : Bool :=
  c = 0x23 || c = 0x2B || c = 0x2D || c = 0x20 || c = 0x2E || c = 0x2A || c = 0x5B || isDigit c

/-- The function `fmt.Sprintf` for a format with at most one string operand `arg`
(`none` once it is used up).  Covered: plain text, a doubled percent sign, the verb `s`
taking the operand, and any plain ASCII verb met when no operand is left, which Go prints
as `%!c(MISSING)`.  Everything else is outside this model (`none`). -/
def Sprintf : GoString → Option GoString → Option GoString
  | [], none => some []
  | [], some _ => none
  | [0x25], _ => none
  | 0x25 :: c :: rest, arg =>
    if c = 0x25 then (Sprintf rest arg).map (fun r => 0x25 :: r)
    else if c = 0x73 ∧ arg.isSome then (Sprintf rest none).map (fun r => arg.getD [] ++ r)
    else if arg.isNone ∧ c < 0x80 ∧ !isFormatModifier c then
      (Sprintf rest none).map (fun r => [0x25, 0x21, c] ++ B "(MISSING)" ++ r)
    else none
  | b :: rest, arg => (Sprintf rest arg).map (fun r => b :: r)

/-! ## Package regexp -/

/-- The bytes `regexp.QuoteMeta` escapes: the characters \ . + * ? ( ) | [ ] { } ^ $ . -/
def isSpecial (b : Nat) : Bool :=
  b = 0x5C || b = 0x2E || b = 0x2B || b = 0x2A || b = 0x3F || b = 0x28 || b = 0x29
    || b = 0x7C || b = 0x5B || b = 0x5D || b = 0x7B || b = 0x7D || b = 0x5E || b = 0x24

/-- The function `regexp.QuoteMeta`: a backslash before every special byte. -/
def QuoteMeta (s : GoString) : GoString :=
  s.flatMap (fun b => if isSpecial b then [0x5C, b] else [b])

/-- One entry of a bracket expression. -/
inductive ClassItem where
  /-- A single character (`lo = hi`) or a range `lo-hi`. -/
  | range (lo hi : Nat)
  /-- One of the classes written backslash d, D, s, S, w, W; `c` is the letter. -/
  | perl (c : Nat)
  deriving DecidableEq, Repr

/-- Membership of a rune in an entry of a bracket expression. -/
def ClassItem.contains : ClassItem → Nat → Bool
  | .range lo hi, r => lo ≤ r && r ≤ hi
  | .perl c, r =>
    if c = 0x64 then isDigit r
    else if c = 0x44 then !isDigit r
    else if c = 0x73 then (r = 0x09 || r = 0x0A || r = 0x0C || r = 0x0D || r = 0x20)
    else if c = 0x53 then !(r = 0x09 || r = 0x0A || r = 0x0C || r = 0x0D || r = 0x20)
    else if c = 0x77 then (isAlnum r || r = 0x5F)
    else !(isAlnum r || r = 0x5F)

/-- A compiled pattern, for the two shapes of pattern the program builds. -/
inductive Regexp where
  /-- A negated bracket expression: one rune that is in none of the entries. -/
  | notIn (items : List ClassItem)
  /-- The literal runes `lits` followed by two or more times the rune `last`. -/
  | dup (lits : List Nat) (last : Nat)
  deriving DecidableEq, Repr

/-- The letters of the classes d D s S w W. -/
def isPerlClassLetter (c : Nat) : Bool :=
  c = 0x64 || c = 0x44 || c = 0x73 || c = 0x53 || c = 0x77 || c = 0x57

/-- The parser's `parseClassChar`: one literal or escaped character of a bracket
expression and the runes after it.  Escapes covered: backslash before ASCII punctuation,
and the control escapes a f n r t v. -/
def parseClassChar : List Nat → Option (Nat × List Nat)
  | [] => none
  | [0x5C] => none
  | 0x5C :: c :: t =>
    if c < 0x80 ∧ !isAlnum c then some (c, t)
    else if c = 0x61 then some (0x07, t)
    else if c = 0x66 then some (0x0C, t)
    else if c = 0x6E then some (0x0A, t)
    else if c = 0x72 then some (0x0D, t)
    else if c = 0x74 then some (0x09, t)
    else if c = 0x76 then some (0x0B, t)
    else none
  | c :: t => some (c, t)

/-- The parser's `parseClass` loop over the runes after the opening `[^`.  `first` is true
before the first entry, where a closing bracket is a literal.  The closing bracket has
to be the last rune of the pattern. -/
def parseClassLoop : Nat → Bool → List Nat → Option (List ClassItem)
  | 0, _, _ => none
  | _ + 1, _, [] => none
  | n + 1, first, c :: t1 =>
    if c = 0x5D ∧ !first then (if t1 = [] then some [] else none)
    else if c = 0x5B ∧ t1.head? = some 0x3A then none
    else if c = 0x5C ∧ (t1.head? = some 0x70 ∨ t1.head? = some 0x50) then none
    else if c = 0x5C ∧ (t1.head?.map isPerlClassLetter = some true) then
      (parseClassLoop n false t1.tail).map (fun r => ClassItem.perl (t1.headD 0) :: r)
    else
      match parseClassChar (c :: t1) with
      | none => none
      | some (lo, t2) =>
        match t2 with
        | 0x2D :: c2 :: t3 =>
          if c2 ≠ 0x5D then
            match parseClassChar (c2 :: t3) with
            | none => none
            | some (hi, t4) =>
              if hi < lo then none
              else (parseClassLoop n false t4).map (fun r => ClassItem.range lo hi :: r)
          else (parseClassLoop n false t2).map (fun r => ClassItem.range lo lo :: r)
        | _ => (parseClassLoop n false t2).map (fun r => ClassItem.range lo lo :: r)

/-- Literal characters of a pattern up to the first opening brace: the literals and the
runes from the brace on. -/
def parseLits : List Nat → Option (List Nat × List Nat)
  | [] => some ([], [])
  | [0x5C] => none
  | 0x5C :: c :: t =>
    if c < 0x80 ∧ !isAlnum c then (parseLits t).map (fun p => (c :: p.1, p.2)) else none
  | c :: t =>
    if c = 0x7B then some ([], c :: t)
    else if isSpecial c then none
    else (parseLits t).map (fun p => (c :: p.1, p.2))

/-- The parser of `regexp/syntax` on the runes of a pattern, for the two shapes of pattern
covered by this model. -/
def parsePattern : List Nat → Option Regexp
  | 0x5B :: 0x5E :: body => (parseClassLoop (body.length + 1) true body).map Regexp.notIn
  | rs =>
    match parseLits rs with
    | some (lits, rest) =>
      if rest = [0x7B, 0x32, 0x2C, 0x7D] then
        match lits.getLast? with
        | some last => some (Regexp.dup lits.dropLast last)
        | none => none
      else none
    | none => none

/-- The function `regexp.MustCompile` on the patterns covered by this model; `none` is the
panic for a rejected pattern and the answer for a pattern outside the model
(`patternError` answers `true` only for the former). -/
def MustCompile (pattern : GoString) : Option Regexp :=
  if !validUTF8 pattern then none
  else parsePattern ((runes pattern).map (fun c => c.1))

/-- Whether the parser's `parseClassChar` returns an error on the runes at hand: the
pattern has ended (missing closing bracket), a backslash ends the pattern (trailing
backslash), or a backslash stands before a letter, a digit or a character beyond ASCII
that starts no escape (invalid escape).  The escapes of `x` and of the digits 0 to 7 are
outside this model and count as no error here. -/
def classCharError : List Nat → Bool
  | [] => true
  | [0x5C] => true
  | 0x5C :: c :: _ =>
    !(decide (c < 0x80) && !isAlnum c)
      && !(c = 0x61 || c = 0x66 || c = 0x6E || c = 0x72 || c = 0x74 || c = 0x76)
      && !(c = 0x78) && !(decide (0x30 ≤ c) && decide (c ≤ 0x37))
  | _ => false

/-- Whether the parser's `parseClass` loop returns an error: the loop of `parseClassLoop`
with the same steps, answering `true` where the parser of `regexp/syntax` fails (the
pattern ends before the closing bracket, `parseClassChar` fails, a range runs backwards)
and `false` where the bracket expression closes or where the pattern leaves this model. -/
def classLoopError : Nat → Bool → List Nat → Bool
  | 0, _, _ => false
  | _ + 1, _, [] => true
  | n + 1, first, c :: t1 =>
    if c = 0x5D ∧ !first then false
    else if c = 0x5B ∧ t1.head? = some 0x3A then false
    else if c = 0x5C ∧ (t1.head? = some 0x70 ∨ t1.head? = some 0x50) then false
    else if c = 0x5C ∧ (t1.head?.map isPerlClassLetter = some true) then
      classLoopError n false t1.tail
    else
      match parseClassChar (c :: t1) with
      | none => classCharError (c :: t1)
      | some (lo, t2) =>
        match t2 with
        | 0x2D :: c2 :: t3 =>
          if c2 ≠ 0x5D then
            match parseClassChar (c2 :: t3) with
            | none => classCharError (c2 :: t3)
            | some (hi, t4) =>
              if hi < lo then true else classLoopError n false t4
          else classLoopError n false t2
        | _ => classLoopError n false t2

/-- Whether `regexp.MustCompile` panics on the pattern, as far as this model follows the
parser: the pattern is no valid UTF-8, or it starts a negated bracket expression in which
`classLoopError` finds an error.  The answer `false` says nothing. -/
def patternError (pattern : GoString) : Bool :=
  !validUTF8 pattern ||
    match (runes pattern).map (fun c => c.1) with
    | 0x5B :: 0x5E :: body => classLoopError (body.length + 1) true body
    | _ => false

/-- A rune that may be part of a name after a dollar sign in a replacement template. -/
def isNameRune (d : Deps) (r : Nat) : Bool :=
  if r < 0x80 then (isAlnum r || r = 0x5F) else d.isLetterOrDigit r

/-- The helper `extract` of `regexp`: the name at the start of the text after a dollar sign
(plain or in braces), and how many bytes it takes. -/
def extract (d : Deps) (str : GoString) : Option (GoString × Nat) :=
  let brace : Bool := str.head? = some 0x7B
  let body := if brace then str.tail else str
  let name := ((runes body).takeWhile (fun c => isNameRune d c.1)).flatMap (fun c => c.2)
  if name = [] then none
  else if brace then
    (if (body.drop name.length).head? = some 0x7D then some (name, name.length + 2) else none)
  else some (name, name.length)

/-- Loop of `Regexp.expand` for a pattern without groups: the template with `$$` giving a
dollar sign, `$0` and `${0}` giving the matched text `m`, any other name giving nothing,
and a dollar sign that starts no name left as it is.  The first argument counts template
bytes already consumed. -/
def expandFrom (d : Deps) (m : GoString) : Nat → GoString → GoString
  | _, [] => []
  | k + 1, _ :: t => expandFrom d m k t
  | 0, b :: t =>
    if b ≠ 0x24 then b :: expandFrom d m 0 t
    else if t.head? = some 0x24 then 0x24 :: expandFrom d m 1 t
    else
      match extract d t with
      | none => 0x24 :: expandFrom d m 0 t
      | some (name, used) => (if name = [0x30] then m else []) ++ expandFrom d m used t

/-- The replacement text for one match `m` under the template `repl`. -/
def expand (d : Deps) (repl m : GoString) : GoString := expandFrom d m 0 repl

/-- Length in runes of the match of `lits last{2,}` at the start of the rune sequence. -/
def matchDup (lits : List Nat) (last : Nat) (cs : List Chunk) : Option Nat :=
  if (cs.map (fun c => c.1)).take lits.length = lits then
    (if 2 ≤ (((cs.map (fun c => c.1)).drop lits.length).takeWhile (fun r => r = last)).length
     then some (lits.length
       + (((cs.map (fun c => c.1)).drop lits.length).takeWhile (fun r => r = last)).length)
     else none)
  else none

/-- Left-to-right replacement of the matches of `lits last{2,}`; the first argument counts
runes still belonging to the match replaced last. -/
def replaceDupFrom (d : Deps) (lits : List Nat) (last : Nat) (repl : GoString) :
    Nat → List Chunk → GoString
  | _, [] => []
  | k + 1, _ :: cs => replaceDupFrom d lits last repl k cs
  | 0, c :: cs =>
    match matchDup lits last (c :: cs) with
    | some n =>
      expand d repl (((c :: cs).take n).flatMap (fun x => x.2))
        ++ replaceDupFrom d lits last repl (n - 1) cs
    | none => c.2 ++ replaceDupFrom d lits last repl 0 cs

/-- The method `Regexp.ReplaceAllString`: every match, found left to right without
overlap, is replaced by the expansion of the template `repl`. -/
def Regexp.ReplaceAllString (d : Deps) (re : Regexp) (src repl : GoString) : GoString :=
  match re with
  | .notIn items =>
    (runes src).flatMap
      (fun c => if items.any (fun i => i.contains c.1) then c.2 else expand d repl c.2)
  | .dup lits last => replaceDupFrom d lits last repl 0 (runes src)

/-! ## slugify.go -/

def defaultWordSeparator : GoString := B "-"
def defaultInvalidCharReplacement : GoString := B "-"
def defaultAllowedSet : GoString := B "a-zA-Z0-9"

/-- The struct `Slugifier`.  A nil pointer is `none`; the zero value is `{}`. -/
structure Slugifier where
  skipToLower : Bool := false
  wordSeparator : Option GoString := none
  invalidCharReplacement : Option GoString := none
  allowedSet : Option GoString := none
  reInValidChar : Option Regexp := none
  reDupSeparatorChar : Option Regexp := none
  initialized : Bool := false
  deriving DecidableEq, Repr

namespace Slugifier

/-- The method `ToLower`. -/
def ToLower (s : Slugifier) (toLower : Bool) : Slugifier :=
  { s with skipToLower := !toLower }

/-- The method `WordSeparator`. -/
def WordSeparator (s : Slugifier) (wordSeparator : GoString) : Slugifier :=
  { s with
    wordSeparator := some wordSeparator
    reInValidChar := none
    reDupSeparatorChar := none
    initialized := false }

/-- The method `AllowedSet`. -/
def AllowedSet (s : Slugifier) (allowedSet : GoString) : Slugifier :=
  { s with
    allowedSet := some allowedSet
    reInValidChar := none
    reDupSeparatorChar := none
    initialized := false }

/-- The method `InvalidChar`. -/
def InvalidChar (s : Slugifier) (invalidCharReplacement : GoString) : Slugifier :=
  { s with invalidCharReplacement := some invalidCharReplacement }

/-- The method `initialize`.  The first component is `none` when a `MustCompile` panics;
the second is the receiver as the call leaves it. -/
def init (s : Slugifier) : Option Unit × Slugifier :=
  let s1 := if s.invalidCharReplacement = none then s.InvalidChar defaultInvalidCharReplacement
    else s
  let s2 := if s1.wordSeparator = none then
    { s1 with wordSeparator := some defaultWordSeparator } else s1
  let s3 := if s2.allowedSet = none then { s2 with allowedSet := some defaultAllowedSet } else s2
  let separatorForRe := QuoteMeta (s3.wordSeparator.getD [])
  match (Sprintf (B "[^%s" ++ s3.allowedSet.getD [] ++ B "]") (some separatorForRe)).bind
      MustCompile with
  | none => (none, s3)
  | some re =>
    let s4 := { s3 with reInValidChar := some re }
    if separatorForRe ≠ [] then
      match (Sprintf (B "%s\x7b2,\x7d") (some separatorForRe)).bind MustCompile with
      | none => (none, s4)
      | some re2 => (some (), { s4 with reDupSeparatorChar := some re2, initialized := true })
    else (some (), { s4 with reDupSeparatorChar := none, initialized := true })

/-- The method `Slugify`.  The first component is the returned string, `none` when the
call panics; the second is the receiver after the call. -/
def Slugify (d : Deps) (s : Slugifier) (txt : GoString) : Option GoString × Slugifier :=
  match (if !s.initialized then s.init else (some (), s)) with
  | (none, s1) => (none, s1)
  | (some _, s1) =>
    match s1.wordSeparator, s1.invalidCharReplacement, s1.reInValidChar with
    | some ws, some icr, some re =>
      let txt := d.unidecode txt
      let txt := Join (Fields txt) ws
      let txt := re.ReplaceAllString d txt icr
      let txt := match s1.reDupSeparatorChar with
        | some re2 => re2.ReplaceAllString d txt ws
        | none => txt
      let txt := txt.dropWhile (fun b => encodeRune b = ws || encodeRune b = icr)
      let txt := txt.rdropWhile (fun b => encodeRune b = ws || encodeRune b = icr)
      let txt := if !s1.skipToLower then Slugify.ToLower d txt else txt
      (some txt, s1)
    | _, _, _ => (none, s1)

end Slugifier

/-- The function `NewSlugifier`. -/
def NewSlugifier : Slugifier :=
  (({} : Slugifier).InvalidChar defaultInvalidCharReplacement).WordSeparator defaultWordSeparator

/-- The function `Version`. -/
def Version : GoString := B "1.0.0"

/-! ## Calls on a Slugifier -/

/-- A call of one of the exported methods. -/
inductive Call where
  | ToLower (toLower : Bool)
  | WordSeparator (wordSeparator : GoString)
  | AllowedSet (allowedSet : GoString)
  | InvalidChar (invalidCharReplacement : GoString)
  | Slugify (txt : GoString)
  deriving DecidableEq, Repr

/-- A call that is one of the four setters. -/
def Call.isSetter : Call → Bool
  | .Slugify _ => false
  | _ => true

/-- The receiver after one call (a panic of `Slugify` being recovered by the caller). -/
def Slugifier.step (d : Deps) (s : Slugifier) : Call → Slugifier
  | .ToLower b => s.ToLower b
  | .WordSeparator w => s.WordSeparator w
  | .AllowedSet a => s.AllowedSet a
  | .InvalidChar r => s.InvalidChar r
  | .Slugify x => (s.Slugify d x).2

/-- The receiver after a sequence of calls. -/
def Slugifier.run (d : Deps) (s : Slugifier) (calls : List Call) : Slugifier :=
  calls.foldl (Slugifier.step d) s

/-- A fresh Slugifier (zero value) on which the knobs that have a value are set through
the setters. -/
def configured (skipToLower : Bool) (ws icr as : Option GoString) : Slugifier :=
  let s0 := ({} : Slugifier).ToLower (!skipToLower)
  let s1 := match ws with
    | some w => s0.WordSeparator w
    | none => s0
  let s2 := match icr with
    | some r => s1.InvalidChar r
    | none => s1
  match as with
  | some a => s2.AllowedSet a
  | none => s2

/-- The invalid-character pattern `initialize` compiles for a separator and an allowed set. -/
def compileInvalid (ws as : GoString) : Option Regexp :=
  (Sprintf (B "[^%s" ++ as ++ B "]") (some (QuoteMeta ws))).bind MustCompile

/-- The duplicate-separator pattern `initialize` compiles: `some none` for the empty
separator (no pattern), `none` for a panic. -/
def compileDup (ws : GoString) : Option (Option Regexp) :=
  if QuoteMeta ws ≠ [] then
    ((Sprintf (B "%s\x7b2,\x7d") (some (QuoteMeta ws))).bind MustCompile).map some
  else some none

/-- Whether `initialize` panics for a separator and an allowed set, as far as this model
follows the two patterns it builds. -/
def initError (ws as : GoString) : Bool :=
  (match Sprintf (B "[^%s" ++ as ++ B "]") (some (QuoteMeta ws)) with
    | some p => patternError p
    | none => false)
  || (decide (QuoteMeta ws ≠ []) &&
      match Sprintf (B "%s\x7b2,\x7d") (some (QuoteMeta ws)) with
      | some p => patternError p
      | none => false)

/-- The statements of `Slugify` after the call of `initialize`, on given field values. -/
def passes (d : Deps) (skipToLower : Bool) (ws icr : GoString) (re : Regexp)
    (re2 : Option Regexp) (txt : GoString) : GoString :=
  let txt := d.unidecode txt
  let txt := Join (Fields txt) ws
  let txt := re.ReplaceAllString d txt icr
  let txt := match re2 with
    | some re2 => re2.ReplaceAllString d txt ws
    | none => txt
  let txt := txt.dropWhile (fun b => encodeRune b = ws || encodeRune b = icr)
  let txt := txt.rdropWhile (fun b => encodeRune b = ws || encodeRune b = icr)
  if !skipToLower then ToLower d txt else txt

/-- What `Slugify` returns as a function of the four knob values. -/
def slugOf (d : Deps) (skipToLower : Bool) (ws icr as : GoString) (txt : GoString) :
    Option GoString :=
  match compileInvalid ws as, compileDup ws with
  | some re, some re2 => some (passes d skipToLower ws icr re re2 txt)
  | _, _ => none

/-- The matchers are those of the current knob values whenever `initialized` is set. -/
def Slugifier.Ready (s : Slugifier) : Prop :=
  s.initialized = true →
    ∃ ws icr as re, s.wordSeparator = some ws ∧ s.invalidCharReplacement = some icr
      ∧ s.allowedSet = some as ∧ compileInvalid ws as = some re
      ∧ s.reInValidChar = some re ∧ compileDup ws = some s.reDupSeparatorChar

/-- The value a sequence of calls leaves in the case-fold knob (`acc` before the calls). -/
def lastToLower (acc : Option Bool) : List Call → Option Bool
  | [] => acc
  | .ToLower b :: cs => lastToLower (some b) cs
  | _ :: cs => lastToLower acc cs

/-- The value the last `WordSeparator` call of a sequence sets, if any. -/
def lastWordSeparator (acc : Option GoString) : List Call → Option GoString
  | [] => acc
  | .WordSeparator w :: cs => lastWordSeparator (some w) cs
  | _ :: cs => lastWordSeparator acc cs

/-- The value the last `InvalidChar` call of a sequence sets, if any. -/
def lastInvalidChar (acc : Option GoString) : List Call → Option GoString
  | [] => acc
  | .InvalidChar r :: cs => lastInvalidChar (some r) cs
  | _ :: cs => lastInvalidChar acc cs

/-- The value the last `AllowedSet` call of a sequence sets, if any. -/
def lastAllowedSet (acc : Option GoString) : List Call → Option GoString
  | [] => acc
  | .AllowedSet a :: cs => lastAllowedSet (some a) cs
  | _ :: cs => lastAllowedSet acc cs

/-- A zero value on which all four knobs are set explicitly. -/
def explicit (toLower : Bool) (ws icr as : GoString) : Slugifier :=
  (((({} : Slugifier).ToLower toLower).WordSeparator ws).InvalidChar icr).AllowedSet as

/-- Collaborators for the worked examples: the transliterator drops every byte that is
not ASCII, the tables beyond ASCII are trivial. -/
def asciiDeps : Deps :=
  { unidecode := fun s => s.filter (fun b => b < 0x80)
    toLower := fun r => r
    isLetterOrDigit := fun _ => false }

/-- Collaborators for the examples on ASCII text, after the transliteration library:
`unidecode.Unidecode` copies a character below `unicode.MaxASCII` (U+007F) and looks every
other character up in its tables, where DEL (U+007F) has the empty entry.  Bytes beyond
ASCII are dropped here, the tables beyond ASCII are trivial. -/
def libDeps : Deps :=
  { unidecode := fun s => s.filter (fun b => b < 0x7F)
    toLower := fun r => r
    isLetterOrDigit := fun _ => false }

/-- A run of two or more bytes `c` reduced to one `c`, everything else kept: what the
duplicate-separator pass does when the separator is the single ASCII byte `c`. -/
def collapseRuns (c : Nat) : GoString → GoString
  | [] => []
  | [a] => [a]
  | a :: b :: t =>
    if a = c ∧ b = c then collapseRuns c (b :: t) else a :: collapseRuns c (b :: t)

/-- Reading loop of `alnumRuns`: `cur` is the run being read. -/
def alnumRunsFrom : GoString → GoString → List GoString
  | [], cur => if cur = [] then [] else [cur]
  | b :: t, cur =>
    if isAlnum b then alnumRunsFrom t (cur ++ [b])
    else if cur = [] then alnumRunsFrom t [] else cur :: alnumRunsFrom t []

/-- Reference definition (claim C1): the maximal non-empty runs of ASCII letters and
digits of a text, in order; every other byte is a delimiter. -/
def alnumRuns (t : GoString) : List GoString := alnumRunsFrom t []

/-- Lower case of one ASCII byte. -/
def lowerByte (b : Nat) : Nat := if isUpper b then b + 0x20 else b

/-- Reference definition (claim C1): the runs of letters and digits of the transliterated
text, each in lower case, joined by one `-`. -/
def referenceSlug (t : GoString) : GoString :=
  Join ((alnumRuns t).map (fun w => w.map lowerByte)) (B "-")

/-- The entries of the invalid-character pattern compiled for the default separator and
the default allowed set (`[^-a-zA-Z0-9]`). -/
def defaultClass : List ClassItem :=
  [.range 0x2D 0x2D, .range 0x61 0x7A, .range 0x41 0x5A, .range 0x30 0x39]

/-- Collaborators for the examples with input beyond ASCII: the transliterator gives for
the input of the tests, `北京kožušček`, the text `Bei Jing kozuscek` that the tests fix, and
for the input of the package documentation the same followed by `,abc`; any other input
loses its bytes beyond ASCII. -/
def docDeps : Deps :=
  { unidecode := fun s =>
      if s = B "北京kožušček,abc" then B "Bei Jing kozuscek,abc"
      else if s = B "北京kožušček" then B "Bei Jing kozuscek"
      else s.filter (fun b => b < 0x80)
    toLower := fun r => r
    isLetterOrDigit := fun _ => false }

/-- The first trimming loop of `Slugify` with its index expression: at most `n` tests of
the loop condition; `none` when `n` tests do not end the loop or when `txt[0]` is read
out of range. -/
def trimLeftLoop (ws icr : GoString) : Nat → GoString → Option GoString
  | 0, _ => none
  | n + 1, txt =>
    if 0 < txt.length then
      match txt[0]? with
      | none => none
      | some b =>
        if encodeRune b = ws ∨ encodeRune b = icr then trimLeftLoop ws icr n (txt.drop 1)
        else some txt
    else some txt

/-- The second trimming loop of `Slugify` with its index expression: at most `n` tests of
the loop condition; `none` when `n` tests do not end the loop or when `txt[len(txt)-1]` is
read out of range. -/
def trimRightLoop (ws icr : GoString) : Nat → GoString → Option GoString
  | 0, _ => none
  | n + 1, txt =>
    if 0 < txt.length then
      match txt[txt.length - 1]? with
      | none => none
      | some b =>
        if encodeRune b = ws ∨ encodeRune b = icr then
          trimRightLoop ws icr n (txt.take (txt.length - 1))
        else some txt
    else some txt

/-- Reference definition (claim C17): the text without its white space. -/
def removeSpace (t : GoString) : GoString :=
  ((runes t).filter (fun c => !isSpace c.1)).flatMap (fun c => c.2)

/-- Reference definition (claim C17): every character that is not an ASCII letter or digit
replaced by one `-`. -/
def dashOthers (s : GoString) : GoString :=
  (runes s).flatMap (fun c => if isAlnum c.1 then c.2 else [0x2D])

/-- Reference definition (claim C17): all leading and trailing `-` stripped. -/
def stripDashes (s : GoString) : GoString :=
  (s.dropWhile (fun b => decide (b = 0x2D))).rdropWhile (fun b => decide (b = 0x2D))

/-- Reference definition (claim C17): white space removed, other characters than ASCII
letters and digits replaced by `-`, edge `-` stripped, lower case. -/
def referenceNoSeparator (t : GoString) : GoString :=
  (stripDashes (dashOthers (removeSpace t))).map lowerByte

/-- Reference definition (claim C18): the ASCII letters and digits of the text in their
order, lower case. -/
def referenceLettersDigits (t : GoString) : GoString :=
  (t.filter isAlnum).map lowerByte

/-- The entries of the invalid-character pattern compiled for the empty separator and the
default allowed set (`[^a-zA-Z0-9]`). -/
def lettersDigitsClass : List ClassItem :=
  [.range 0x61 0x7A, .range 0x41 0x5A, .range 0x30 0x39]

/-! # Theorems -/

/-! ## The receiver and its matchers -/

theorem init_spec (s : Slugifier) :
    (s.init.1 = none → s.init.2.initialized = s.initialized) ∧
    s.init.2.skipToLower = s.skipToLower ∧
    s.init.2.wordSeparator = some (s.wordSeparator.getD defaultWordSeparator) ∧
    s.init.2.invalidCharReplacement
      = some (s.invalidCharReplacement.getD defaultInvalidCharReplacement) ∧
    s.init.2.allowedSet = some (s.allowedSet.getD defaultAllowedSet) ∧
    (∀ u, s.init.1 = some u →
      s.init.2.initialized = true ∧
      (∃ re, compileInvalid (s.wordSeparator.getD defaultWordSeparator)
              (s.allowedSet.getD defaultAllowedSet) = some re
            ∧ s.init.2.reInValidChar = some re) ∧
      compileDup (s.wordSeparator.getD defaultWordSeparator)
        = some s.init.2.reDupSeparatorChar) ∧
    (s.init.1 = none →
      compileInvalid (s.wordSeparator.getD defaultWordSeparator)
          (s.allowedSet.getD defaultAllowedSet) = none
      ∨ compileDup (s.wordSeparator.getD defaultWordSeparator) = none) := by
  rcases s with ⟨skip, ws, icr, as, re1, re2, ini⟩
  cases ws <;> cases icr <;> cases as <;>
    simp only [Slugifier.init, Slugifier.InvalidChar, compileInvalid, compileDup,
      Option.getD, if_true, if_false, reduceCtorEq] <;>
    (split <;> [skip; split_ifs <;> [split; skip]]) <;> simp_all

/-- The Slugifier of `NewSlugifier()` is the zero value after the two setter calls of its
body, so that every statement about call sequences on a zero value covers it. -/
theorem newSlugifier_eq_run (d : Deps) :
    NewSlugifier = ({} : Slugifier).run d
      [Call.InvalidChar defaultInvalidCharReplacement, Call.WordSeparator defaultWordSeparator] :=
  rfl

theorem ready_zero : ({} : Slugifier).Ready := by
  intro h; simp at h

theorem slugify_state (d : Deps) (s : Slugifier) (x : GoString) :
    (s.Slugify d x).2 = if s.initialized then s else s.init.2 := by
  unfold Slugifier.Slugify
  cases hi : s.initialized
  · rcases hinit : s.init with ⟨_ | u, s1⟩
    · simp
    · simp only [Bool.not_false, if_true, Bool.false_eq_true, if_false]
      split <;> rfl
  · simp only [Bool.not_true, Bool.false_eq_true, if_false, if_true]
    split <;> rfl

theorem ready_step (d : Deps) (s : Slugifier) (c : Call) (h : s.Ready) : (s.step d c).Ready := by
  cases c with
  | ToLower b => exact h
  | WordSeparator w => intro hi; simp [Slugifier.step, Slugifier.WordSeparator] at hi
  | AllowedSet a => intro hi; simp [Slugifier.step, Slugifier.AllowedSet] at hi
  | InvalidChar r =>
    intro hi
    obtain ⟨ws, icr, as, re, h1, _, h3, h4, h5, h6⟩ := h hi
    exact ⟨ws, r, as, re, h1, rfl, h3, h4, h5, h6⟩
  | Slugify x =>
    simp only [Slugifier.step, slugify_state]
    cases hi : s.initialized
    · simp only [Bool.false_eq_true, if_false]
      intro hi2
      obtain ⟨h0, -, hw, hr, ha, hok, -⟩ := init_spec s
      cases hres : s.init.1 with
      | none => rw [h0 hres, hi] at hi2; simp at hi2
      | some u =>
        obtain ⟨-, ⟨re, hre, hre2⟩, hdup⟩ := hok u hres
        exact ⟨_, _, _, re, hw, hr, ha, hre, hre2, hdup⟩
    · simpa using h

theorem ready_run (d : Deps) (calls : List Call) (s : Slugifier) (h : s.Ready) :
    (s.run d calls).Ready := by
  induction calls generalizing s with
  | nil => exact h
  | cons c cs ih => exact ih _ (ready_step d s c h)

/-- On a receiver whose matchers are current, `Slugify` returns what the knob values
determine, a knob never set counting as its default. -/
theorem slugify_eq_slugOf (d : Deps) (s : Slugifier) (h : s.Ready) (x : GoString) :
    (s.Slugify d x).1 = slugOf d s.skipToLower (s.wordSeparator.getD defaultWordSeparator)
      (s.invalidCharReplacement.getD defaultInvalidCharReplacement)
      (s.allowedSet.getD defaultAllowedSet) x := by
  cases hi : s.initialized
  · obtain ⟨-, hsk, hw, hr, ha, hok, hbad⟩ := init_spec s
    rcases hinit : s.init with ⟨_ | u, s1⟩
    · have hb := hbad (by rw [hinit])
      have hl : (s.Slugify d x).1 = none := by
        simp [Slugifier.Slugify, hi, hinit]
      rw [hl]
      unfold slugOf
      rcases hb with hb | hb
      · rw [hb]
      · rw [hb]; split <;> simp_all
    · obtain ⟨-, ⟨re, hre, hre1⟩, hdup⟩ := hok u (by rw [hinit])
      rw [hinit] at hsk hw hr hre1 hdup
      simp only at hsk hw hr hre1 hdup
      simp only [Slugifier.Slugify, hi, hinit, Bool.not_false, if_true, hw, hr, hre1]
      simp only [slugOf, hre, hdup, passes, hsk]
  · obtain ⟨ws, icr, as, re, h1, h2, h3, h4, h5, h6⟩ := h hi
    simp only [Slugifier.Slugify, hi, Bool.not_true, Bool.false_eq_true, if_false, h1, h2, h5]
    simp only [slugOf, h3, Option.getD, h4, h6, passes]

theorem ready_configured (sk : Bool) (ws icr as : Option GoString) :
    (configured sk ws icr as).Ready := by
  intro h
  cases ws <;> cases icr <;> cases as <;>
    simp [configured, Slugifier.ToLower, Slugifier.WordSeparator, Slugifier.InvalidChar,
      Slugifier.AllowedSet] at h

theorem configured_knobs (sk : Bool) (ws icr as : Option GoString) :
    (configured sk ws icr as).skipToLower = sk ∧ (configured sk ws icr as).wordSeparator = ws
    ∧ (configured sk ws icr as).invalidCharReplacement = icr
    ∧ (configured sk ws icr as).allowedSet = as := by
  cases ws <;> cases icr <;> cases as <;>
    simp [configured, Slugifier.ToLower, Slugifier.WordSeparator, Slugifier.InvalidChar,
      Slugifier.AllowedSet]

theorem ready_explicit (l : Bool) (ws icr as : GoString) : (explicit l ws icr as).Ready := by
  intro h
  simp [explicit, Slugifier.ToLower, Slugifier.WordSeparator, Slugifier.InvalidChar,
    Slugifier.AllowedSet] at h

theorem step_knobs (d : Deps) (s : Slugifier) (c : Call) (b : Option Bool)
    (w r a : Option GoString)
    (hb : b.getD true = !s.skipToLower)
    (hw : w.getD defaultWordSeparator = s.wordSeparator.getD defaultWordSeparator)
    (hr : r.getD defaultInvalidCharReplacement
      = s.invalidCharReplacement.getD defaultInvalidCharReplacement)
    (ha : a.getD defaultAllowedSet = s.allowedSet.getD defaultAllowedSet) :
    (lastToLower b [c]).getD true = !(s.step d c).skipToLower
    ∧ (lastWordSeparator w [c]).getD defaultWordSeparator
        = (s.step d c).wordSeparator.getD defaultWordSeparator
    ∧ (lastInvalidChar r [c]).getD defaultInvalidCharReplacement
        = (s.step d c).invalidCharReplacement.getD defaultInvalidCharReplacement
    ∧ (lastAllowedSet a [c]).getD defaultAllowedSet
        = (s.step d c).allowedSet.getD defaultAllowedSet := by
  cases c with
  | Slugify x =>
    simp only [lastToLower, lastWordSeparator, lastInvalidChar, lastAllowedSet,
      Slugifier.step, slugify_state]
    obtain ⟨-, h1, h2, h3, h4, -, -⟩ := init_spec s
    cases s.initialized
    · simp only [Bool.false_eq_true, if_false, h1, h2, h3, h4, Option.getD_some]
      exact ⟨hb, hw, hr, ha⟩
    · exact ⟨hb, hw, hr, ha⟩
  | _ =>
    simp only [lastToLower, lastWordSeparator, lastInvalidChar, lastAllowedSet,
      Slugifier.step, Slugifier.ToLower, Slugifier.WordSeparator, Slugifier.InvalidChar,
      Slugifier.AllowedSet, Option.getD_some, Bool.not_not]
    simp [hb, hw, hr, ha]

theorem lastToLower_cons (b : Option Bool) (c : Call) (cs : List Call) :
    lastToLower b (c :: cs) = lastToLower (lastToLower b [c]) cs := by
  cases c <;> rfl

theorem lastWordSeparator_cons (b : Option GoString) (c : Call) (cs : List Call) :
    lastWordSeparator b (c :: cs) = lastWordSeparator (lastWordSeparator b [c]) cs := by
  cases c <;> rfl

theorem lastInvalidChar_cons (b : Option GoString) (c : Call) (cs : List Call) :
    lastInvalidChar b (c :: cs) = lastInvalidChar (lastInvalidChar b [c]) cs := by
  cases c <;> rfl

theorem lastAllowedSet_cons (b : Option GoString) (c : Call) (cs : List Call) :
    lastAllowedSet b (c :: cs) = lastAllowedSet (lastAllowedSet b [c]) cs := by
  cases c <;> rfl

theorem run_knobs (d : Deps) (calls : List Call) (s : Slugifier) (b : Option Bool)
    (w r a : Option GoString)
    (hb : b.getD true = !s.skipToLower)
    (hw : w.getD defaultWordSeparator = s.wordSeparator.getD defaultWordSeparator)
    (hr : r.getD defaultInvalidCharReplacement
      = s.invalidCharReplacement.getD defaultInvalidCharReplacement)
    (ha : a.getD defaultAllowedSet = s.allowedSet.getD defaultAllowedSet) :
    (lastToLower b calls).getD true = !(s.run d calls).skipToLower
    ∧ (lastWordSeparator w calls).getD defaultWordSeparator
        = (s.run d calls).wordSeparator.getD defaultWordSeparator
    ∧ (lastInvalidChar r calls).getD defaultInvalidCharReplacement
        = (s.run d calls).invalidCharReplacement.getD defaultInvalidCharReplacement
    ∧ (lastAllowedSet a calls).getD defaultAllowedSet
        = (s.run d calls).allowedSet.getD defaultAllowedSet := by
  induction calls generalizing s b w r a with
  | nil => exact ⟨hb, hw, hr, ha⟩
  | cons c cs ih =>
    obtain ⟨h1, h2, h3, h4⟩ := step_knobs d s c b w r a hb hw hr ha
    rw [lastToLower_cons, lastWordSeparator_cons, lastInvalidChar_cons, lastAllowedSet_cons]
    exact ih (s.step d c) _ _ _ _ h1 h2 h3 h4

/-! ## C8, C9: the knobs alone decide the result -/

/-- C8: after any sequence of setter calls and `Slugify` calls on a zero value, the next
`Slugify` returns what a fresh Slugifier returns on which the knobs holding a value are set
to the same values; no matcher of an earlier call is used. -/
theorem slugify_depends_only_on_knobs (d : Deps) (calls : List Call) (x : GoString) :
    ((({} : Slugifier).run d calls).Slugify d x).1
      = ((configured (({} : Slugifier).run d calls).skipToLower
            (({} : Slugifier).run d calls).wordSeparator
            (({} : Slugifier).run d calls).invalidCharReplacement
            (({} : Slugifier).run d calls).allowedSet).Slugify d x).1 := by
  rw [slugify_eq_slugOf d _ (ready_run d calls _ ready_zero),
    slugify_eq_slugOf d _ (ready_configured _ _ _ _)]
  obtain ⟨h1, h2, h3, h4⟩ := configured_knobs (({} : Slugifier).run d calls).skipToLower
    (({} : Slugifier).run d calls).wordSeparator
    (({} : Slugifier).run d calls).invalidCharReplacement
    (({} : Slugifier).run d calls).allowedSet
  rw [h1, h2, h3, h4]

/-- C9: the zero value, `NewSlugifier()` and a Slugifier with all four knobs set to the
defaults return the same for every input; and after any sequence of calls on a zero
value, `Slugify` returns what a Slugifier returns on which every knob is set explicitly,
to the value set last or, for a knob never set, to its default. -/
theorem defaults_applied_lazily (d : Deps) (x : GoString) :
    (({} : Slugifier).Slugify d x).1 = (NewSlugifier.Slugify d x).1
    ∧ (NewSlugifier.Slugify d x).1
        = ((explicit true (B "-") (B "-") (B "a-zA-Z0-9")).Slugify d x).1
    ∧ ∀ calls : List Call,
        ((({} : Slugifier).run d calls).Slugify d x).1
          = ((explicit ((lastToLower none calls).getD true)
              ((lastWordSeparator none calls).getD (B "-"))
              ((lastInvalidChar none calls).getD (B "-"))
              ((lastAllowedSet none calls).getD (B "a-zA-Z0-9"))).Slugify d x).1 := by
  have hnew : NewSlugifier.Ready := by
    intro h; simp [NewSlugifier, Slugifier.WordSeparator, Slugifier.InvalidChar] at h
  refine ⟨?_, ?_, ?_⟩
  · rw [slugify_eq_slugOf d _ ready_zero, slugify_eq_slugOf d _ hnew]; rfl
  · rw [slugify_eq_slugOf d _ hnew, slugify_eq_slugOf d _ (ready_explicit _ _ _ _)]; rfl
  · intro calls
    obtain ⟨h1, h2, h3, h4⟩ := run_knobs d calls ({} : Slugifier) none none none none
      rfl rfl rfl rfl
    have h2' : (lastWordSeparator none calls).getD (B "-")
        = ((({} : Slugifier).run d calls).wordSeparator.getD defaultWordSeparator) := h2
    have h3' : (lastInvalidChar none calls).getD (B "-")
        = ((({} : Slugifier).run d calls).invalidCharReplacement.getD
            defaultInvalidCharReplacement) := h3
    have h4' : (lastAllowedSet none calls).getD (B "a-zA-Z0-9")
        = ((({} : Slugifier).run d calls).allowedSet.getD defaultAllowedSet) := h4
    rw [h1, h2', h3', h4', slugify_eq_slugOf d _ (ready_run d calls _ ready_zero),
      slugify_eq_slugOf d _ (ready_explicit _ _ _ _)]
    simp [explicit, Slugifier.ToLower, Slugifier.WordSeparator, Slugifier.InvalidChar,
      Slugifier.AllowedSet]

/-! ## UTF-8 decoding -/

theorem decodeRune_ascii (b : Nat) (t : GoString) (hb : b < 0x80) :
    decodeRune (b :: t) = (b, 1) := by
  simp [decodeRune, hb]

theorem decodeRune_width (b : Nat) (t : GoString) :
    1 ≤ (decodeRune (b :: t)).2 ∧ (decodeRune (b :: t)).2 ≤ (b :: t).length := by
  simp only [decodeRune]
  repeat' split
  all_goals simp

theorem decodeRune_high (b : Nat) (t : GoString) (hb : 0x80 ≤ b) :
    0x80 ≤ (decodeRune (b :: t)).1 ∧
      ∀ x ∈ (b :: t).take (decodeRune (b :: t)).2, 0x80 ≤ x := by
  simp only [decodeRune]
  repeat' split
  all_goals simp only [RuneError, List.take_succ_cons, List.take_zero, List.mem_cons,
    List.mem_singleton, List.not_mem_nil, or_false, forall_eq_or_imp, forall_eq]
  all_goals try simp only [acceptLo, acceptHi, isCont, Bool.not_eq_true', Bool.and_eq_false_iff,
    decide_eq_false_iff_not, not_or, not_lt, not_le, Bool.not_eq_false, Bool.and_eq_true,
    decide_eq_true_eq] at *
  all_goals (try split_ifs at *) <;> omega

theorem runes_nil : runes [] = [] := rfl

theorem runesFrom_drop (k : Nat) (t : GoString) : runesFrom k t = runes (t.drop k) := by
  induction t generalizing k with
  | nil => simp [runesFrom, runes]
  | cons b t ih =>
    cases k with
    | zero => rfl
    | succ k => simp only [runesFrom, List.drop_succ_cons, ih]

theorem runes_cons (b : Nat) (t : GoString) :
    runes (b :: t) = ((decodeRune (b :: t)).1, (b :: t).take (decodeRune (b :: t)).2)
      :: runes ((b :: t).drop (decodeRune (b :: t)).2) := by
  have hw := (decodeRune_width b t).1
  obtain ⟨w, hw2⟩ : ∃ w, (decodeRune (b :: t)).2 = w + 1 :=
    ⟨_, (Nat.sub_add_cancel hw).symm⟩
  rw [runes, runesFrom, runesFrom_drop, hw2]
  rfl

theorem runes_cons_ascii (b : Nat) (t : GoString) (hb : b < 0x80) :
    runes (b :: t) = (b, [b]) :: runes t := by
  rw [runes_cons, decodeRune_ascii b t hb]
  rfl

theorem runes_ascii (s : GoString) (h : ∀ b ∈ s, b < 0x80) :
    runes s = s.map (fun b => (b, [b])) := by
  induction s with
  | nil => rfl
  | cons b t ih =>
    rw [runes_cons_ascii b t (h b (List.mem_cons_self _ _)),
      ih (fun x hx => h x (List.mem_cons_of_mem _ hx))]
    rfl

/-- Induction along the decoding of a string: an ASCII byte is a rune of its own; any
other rune is at least 0x80 and covers bytes that are all at least 0x80. -/
theorem runes_induction {P : GoString → Prop} (hnil : P [])
    (hascii : ∀ b t, b < 0x80 → P t → P (b :: t))
    (hhigh : ∀ r bs rest, 0x80 ≤ r → bs ≠ [] → (∀ x ∈ bs, 0x80 ≤ x) →
      runes (bs ++ rest) = (r, bs) :: runes rest → P rest → P (bs ++ rest)) :
    ∀ s, P s := by
  suffices h : ∀ n, ∀ s : GoString, s.length = n → P s from fun s => h _ s rfl
  intro n
  induction n using Nat.strong_induction_on with
  | _ n ih =>
    intro s hn
    cases s with
    | nil => exact hnil
    | cons b t =>
      by_cases hb : b < 0x80
      · exact hascii b t hb (ih t.length (by simp [← hn]) t rfl)
      · have hw := decodeRune_width b t
        have hh := decodeRune_high b t (by omega)
        have hsplit : (b :: t).take (decodeRune (b :: t)).2
            ++ (b :: t).drop (decodeRune (b :: t)).2 = b :: t := List.take_append_drop _ _
        rw [← hsplit]
        apply hhigh (decodeRune (b :: t)).1 _ _ hh.1 _ hh.2
        · rw [hsplit]; exact runes_cons b t
        · apply ih _ _ _ rfl
          rw [← hn, List.length_drop]
          have := hw.1
          simp only [List.length_cons] at *
          omega
        · intro h0
          have := congrArg List.length h0
          rw [List.length_take] at this
          have h1 := hw.1
          have h2 := hw.2
          simp only [List.length_nil] at this
          omega

theorem runes_flatMap (s : GoString) : (runes s).flatMap (fun c => c.2) = s := by
  induction s using runes_induction with
  | hnil => rfl
  | hascii b t hb ih => rw [runes_cons_ascii b t hb]; simp [List.flatMap_cons, ih]
  | hhigh r bs rest _ _ _ hr ih => rw [hr]; simp [List.flatMap_cons, ih]

/-- Every rune of a string is either an ASCII byte standing for itself, or at least 0x80
and made of bytes that are all at least 0x80. -/
theorem runes_mem (s : GoString) :
    ∀ c ∈ runes s, c.2 ≠ [] ∧
      ((c.1 < 0x80 ∧ c.2 = [c.1]) ∨ (0x80 ≤ c.1 ∧ ∀ b ∈ c.2, 0x80 ≤ b)) := by
  induction s using runes_induction with
  | hnil => intro c hc; simp [runes_nil] at hc
  | hascii b t hb ih =>
    intro c hc
    rw [runes_cons_ascii b t hb, List.mem_cons] at hc
    rcases hc with rfl | hc
    · exact ⟨by simp, Or.inl ⟨hb, rfl⟩⟩
    · exact ih c hc
  | hhigh r bs rest hr hne hbs hrunes ih =>
    intro c hc
    rw [hrunes, List.mem_cons] at hc
    rcases hc with rfl | hc
    · exact ⟨hne, Or.inr ⟨hr, hbs⟩⟩
    · exact ih c hc

/-! ## UTF-8 encoding, lower case -/

theorem encodeRune_ne_nil (r : Nat) : encodeRune r ≠ [] := by
  unfold encodeRune; split_ifs <;> simp

theorem encodeRune_bytes (r : Nat) :
    ∀ b ∈ encodeRune r, (r < 0x80 ∧ b = r) ∨ 0x80 ≤ b := by
  intro b hb
  unfold encodeRune at hb
  split_ifs at hb <;> simp at hb <;> omega

theorem encodeRune_eq_singleton (b c : Nat) : encodeRune b = [c] ↔ (b = c ∧ c < 0x80) := by
  unfold encodeRune
  split_ifs <;> simp <;> omega

/-! ## Encoding and decoding of characters beyond ASCII -/

theorem decodeRune_two (c : Nat) (h1 : ¬ c < 0x80) (h2 : c < 0x800) (t : GoString) :
    decodeRune ([0xC0 + c / 0x40, 0x80 + c % 0x40] ++ t) = (c, 2) := by
  simp only [List.cons_append, List.nil_append, decodeRune]
  repeat' split
  all_goals simp only [acceptLo, acceptHi, isCont, Bool.not_eq_true', Bool.and_eq_false_iff,
      decide_eq_false_iff_not, not_or, not_lt, not_le, Bool.not_eq_false, Bool.and_eq_true,
      decide_eq_true_eq, Prod.mk.injEq, RuneError, and_true, OfNat.ofNat_ne_one,
      and_false] at *
  all_goals (try split_ifs at *)
  all_goals omega

theorem decodeRune_three (c : Nat) (h1 : ¬ c < 0x800) (h2 : c < 0x10000)
    (h3 : ¬ (0xD800 ≤ c ∧ c ≤ 0xDFFF)) (t : GoString) :
    decodeRune ([0xE0 + c / 0x1000, 0x80 + (c / 0x40) % 0x40, 0x80 + c % 0x40] ++ t)
      = (c, 3) := by
  simp only [List.cons_append, List.nil_append, decodeRune]
  repeat' split
  all_goals simp only [acceptLo, acceptHi, isCont, Bool.not_eq_true', Bool.and_eq_false_iff,
      decide_eq_false_iff_not, not_or, not_lt, not_le, Bool.not_eq_false, Bool.and_eq_true,
      decide_eq_true_eq, Prod.mk.injEq, RuneError, and_true, OfNat.ofNat_ne_one,
      and_false] at *
  all_goals (try split_ifs at *)
  all_goals omega

set_option maxHeartbeats 1000000 in
theorem decodeRune_four (c : Nat) (h1 : ¬ c < 0x10000) (h2 : c ≤ 0x10FFFF) (t : GoString) :
    decodeRune ([0xF0 + c / 0x40000, 0x80 + (c / 0x1000) % 0x40, 0x80 + (c / 0x40) % 0x40,
      0x80 + c % 0x40] ++ t) = (c, 4) := by
  simp only [List.cons_append, List.nil_append, decodeRune]
  repeat' split
  all_goals simp only [acceptLo, acceptHi, isCont, Bool.not_eq_true', Bool.and_eq_false_iff,
      decide_eq_false_iff_not, not_or, not_lt, not_le, Bool.not_eq_false, Bool.and_eq_true,
      decide_eq_true_eq, Prod.mk.injEq, RuneError, and_true, OfNat.ofNat_ne_one,
      and_false] at *
  all_goals (try split_ifs at *)
  all_goals omega

/-- Decoding the encoding of a character gives the character back, whatever follows. -/
theorem decodeRune_encodeRune (c : Nat) (hv : validRune c = true) (t : GoString) :
    decodeRune (encodeRune c ++ t) = (c, (encodeRune c).length) := by
  simp only [validRune, Bool.or_eq_true, Bool.and_eq_true, decide_eq_true_eq] at hv
  unfold encodeRune
  split_ifs with h1 h2 h3 h4
  · simp [decodeRune, h1]
  · exact decodeRune_two c h1 h2 t
  · omega
  · exact decodeRune_three c h2 h4 (fun h => h3 (Or.inr h)) t
  · exact decodeRune_four c h4 (by omega) t

/-- Bytes that follow a string and start with no continuation byte do not change how the
first rune of the string is decoded. -/
theorem decodeRune_append (b : Nat) (t s : GoString)
    (hs : ∀ x, s.head? = some x → isCont x = false) :
    decodeRune (b :: (t ++ s)) = decodeRune (b :: t) := by
  cases s with
  | nil => rw [List.append_nil]
  | cons s0 s1 =>
    have h0 : isCont s0 = false := hs s0 rfl
    simp only [isCont, Bool.and_eq_false_iff, decide_eq_false_iff_not, not_le] at h0
    match t with
    | [] =>
      simp only [List.nil_append, decodeRune]
      repeat' split
      all_goals simp only [acceptLo, acceptHi, isCont, Bool.not_eq_true',
        Bool.and_eq_false_iff, decide_eq_false_iff_not, not_or, not_lt, not_le,
        Bool.not_eq_false, Bool.and_eq_true, decide_eq_true_eq, Prod.mk.injEq, RuneError,
        and_true, OfNat.ofNat_ne_one, and_false] at *
      all_goals (try split_ifs at *)
      all_goals omega
    | [t0] =>
      simp only [List.cons_append, List.nil_append, decodeRune]
      repeat' split
      all_goals simp only [acceptLo, acceptHi, isCont, Bool.not_eq_true',
        Bool.and_eq_false_iff, decide_eq_false_iff_not, not_or, not_lt, not_le,
        Bool.not_eq_false, Bool.and_eq_true, decide_eq_true_eq, Prod.mk.injEq, RuneError,
        and_true, OfNat.ofNat_ne_one, and_false] at *
      all_goals (try split_ifs at *)
      all_goals omega
    | [t0, t1] =>
      simp only [List.cons_append, List.nil_append, decodeRune]
      repeat' split
      all_goals simp only [acceptLo, acceptHi, isCont, Bool.not_eq_true',
        Bool.and_eq_false_iff, decide_eq_false_iff_not, not_or, not_lt, not_le,
        Bool.not_eq_false, Bool.and_eq_true, decide_eq_true_eq, Prod.mk.injEq, RuneError,
        and_true, OfNat.ofNat_ne_one, and_false] at *
      all_goals (try split_ifs at *)
      all_goals omega
    | t0 :: t1 :: t2 :: t3 =>
      simp only [List.cons_append, decodeRune]

theorem isCont_head_encodeRune (c : Nat) :
    ∀ x, (encodeRune c).head? = some x → isCont x = false := by
  intro x hx
  unfold encodeRune at hx
  simp only [isCont, Bool.and_eq_false_iff, decide_eq_false_iff_not, not_le]
  split_ifs at hx <;> simp only [List.head?_cons, Option.some.injEq] at hx <;> omega

/-- A string followed by bytes that start with no continuation byte is decoded piece by
piece. -/
theorem runes_append (p s : GoString) (hs : ∀ x, s.head? = some x → isCont x = false) :
    runes (p ++ s) = runes p ++ runes s := by
  suffices h : ∀ n, ∀ p : GoString, p.length = n → runes (p ++ s) = runes p ++ runes s from
    h _ p rfl
  intro n
  induction n using Nat.strong_induction_on with
  | _ n ih =>
    intro p hn
    cases p with
    | nil => rfl
    | cons b t =>
      have hw := decodeRune_width b t
      rw [List.cons_append, runes_cons, runes_cons b t, decodeRune_append b t s hs,
        List.cons_append]
      have hlen : ((b :: t).drop (decodeRune (b :: t)).2).length < n := by
        rw [← hn, List.length_drop]
        have := hw.1
        simp only [List.length_cons] at *
        omega
      rw [← ih _ hlen _ rfl, ← List.cons_append, List.take_append_of_le_length hw.2,
        List.drop_append_of_le_length hw.2]

theorem runes_encodeRune (c : Nat) (hv : validRune c = true) (t : GoString) :
    runes (encodeRune c ++ t) = (c, encodeRune c) :: runes t := by
  obtain ⟨b, e, he⟩ := List.exists_cons_of_ne_nil (encodeRune_ne_nil c)
  have h := decodeRune_encodeRune c hv t
  rw [he] at h ⊢
  rw [List.cons_append] at h ⊢
  rw [runes_cons, h]
  simp

/-- Two adjacent copies of the encoding of a character in a string are two adjacent runes
of the string. -/
theorem runes_of_double (c : Nat) (hv : validRune c = true) (s : GoString)
    (h : encodeRune c ++ encodeRune c <:+: s) :
    ∃ A B, runes s = A ++ (c, encodeRune c) :: (c, encodeRune c) :: B := by
  obtain ⟨p, q, rfl⟩ := h
  refine ⟨runes p, runes q, ?_⟩
  rw [List.append_assoc, List.append_assoc, runes_append p _ ?_, runes_encodeRune c hv,
    runes_encodeRune c hv]
  intro x hx
  apply isCont_head_encodeRune c x
  obtain ⟨b, e, he⟩ := List.exists_cons_of_ne_nil (encodeRune_ne_nil c)
  rw [he] at hx ⊢
  simpa using hx

theorem encodeRune_two (b b1 : Nat) (h1 : 0xC2 ≤ b) (h2 : b < 0xE0)
    (h3 : acceptLo b ≤ b1) (h4 : b1 ≤ acceptHi b) :
    validRune ((b % 0x20) * 0x40 + b1 % 0x40) = true
      ∧ encodeRune ((b % 0x20) * 0x40 + b1 % 0x40) = [b, b1] := by
  simp only [acceptLo, acceptHi] at h3 h4
  constructor
  · simp only [validRune, Bool.or_eq_true, Bool.and_eq_true, decide_eq_true_eq]; omega
  · unfold encodeRune
    split_ifs at h3 h4 ⊢
    all_goals first
      | omega
      | (simp only [List.cons.injEq, and_true]; omega)

theorem encodeRune_three (b b1 b2 : Nat) (h1 : 0xE0 ≤ b) (h2 : b < 0xF0)
    (h3 : acceptLo b ≤ b1) (h4 : b1 ≤ acceptHi b) (h5 : 0x80 ≤ b2) (h6 : b2 ≤ 0xBF) :
    validRune ((b % 0x10) * 0x1000 + (b1 % 0x40) * 0x40 + b2 % 0x40) = true
      ∧ encodeRune ((b % 0x10) * 0x1000 + (b1 % 0x40) * 0x40 + b2 % 0x40) = [b, b1, b2] := by
  simp only [acceptLo, acceptHi] at h3 h4
  constructor
  · simp only [validRune, Bool.or_eq_true, Bool.and_eq_true, decide_eq_true_eq]
    split_ifs at h3 h4 <;> omega
  · unfold encodeRune
    split_ifs at h3 h4 ⊢
    all_goals first
      | omega
      | (simp only [List.cons.injEq, and_true]; omega)

theorem encodeRune_four (b b1 b2 b3 : Nat) (h1 : 0xF0 ≤ b) (h2 : b < 0xF5)
    (h3 : acceptLo b ≤ b1) (h4 : b1 ≤ acceptHi b) (h5 : 0x80 ≤ b2) (h6 : b2 ≤ 0xBF)
    (h7 : 0x80 ≤ b3) (h8 : b3 ≤ 0xBF) :
    validRune ((b % 0x08) * 0x40000 + (b1 % 0x40) * 0x1000 + (b2 % 0x40) * 0x40 + b3 % 0x40)
        = true
      ∧ encodeRune ((b % 0x08) * 0x40000 + (b1 % 0x40) * 0x1000 + (b2 % 0x40) * 0x40
          + b3 % 0x40) = [b, b1, b2, b3] := by
  simp only [acceptLo, acceptHi] at h3 h4
  constructor
  · simp only [validRune, Bool.or_eq_true, Bool.and_eq_true, decide_eq_true_eq]
    split_ifs at h3 h4 <;> omega
  · unfold encodeRune
    split_ifs at h3 h4 ⊢
    all_goals first
      | omega
      | (simp only [List.cons.injEq, and_true]; omega)

theorem decodeRune_roundtrip_aux (b : Nat) (t : GoString) :
    ∀ r w, decodeRune (b :: t) = (r, w) → r ≠ RuneError →
      validRune r = true ∧ encodeRune r = (b :: t).take w := by
  simp only [decodeRune]
  repeat' split
  all_goals intro r w hd hr
  all_goals simp only [Prod.mk.injEq] at hd
  all_goals obtain ⟨hd1, hd2⟩ := hd
  all_goals subst hd1 hd2
  all_goals try exact absurd rfl hr
  all_goals simp only [not_or, not_lt, not_le, isCont, Bool.not_eq_true', Bool.not_eq_false,
      Bool.and_eq_true, decide_eq_true_eq, Bool.not_eq_true, List.take_succ_cons,
      List.take_zero] at *
  · refine ⟨?_, ?_⟩
    · simp only [validRune, Bool.or_eq_true, decide_eq_true_eq]; omega
    · simp only [encodeRune]; rw [if_pos (by assumption)]
  · exact encodeRune_two _ _ (by omega) (by omega) (by omega) (by omega)
  · exact encodeRune_three _ _ _ (by omega) (by omega) (by omega) (by omega) (by omega)
      (by omega)
  · exact encodeRune_four _ _ _ _ (by omega) (by omega) (by omega) (by omega) (by omega)
      (by omega) (by omega) (by omega)

/-! ## Lower case -/

theorem runeToLower_ascii (d : Deps) (r : Nat) (hr : r < 0x80) :
    runeToLower d r < 0x80 ∧ isUpper (runeToLower d r) = false
      ∧ (isUpper r = false → runeToLower d r = r)
      ∧ (isLower (runeToLower d r) = false → runeToLower d r = r) := by
  simp only [runeToLower, hr, if_true]
  by_cases hu : isUpper r = true
  · simp only [hu, if_true]
    refine ⟨?_, ?_, fun h => by simp at h, fun h => ?_⟩ <;>
      simp only [isUpper, isLower, Bool.and_eq_true, decide_eq_true_eq, Bool.and_eq_false_iff,
        decide_eq_false_iff_not] at * <;> omega
  · simp only [hu, if_false]
    simp only [Bool.not_eq_true] at hu
    simp [hu, hr]

theorem ToLower_nil (d : Deps) : ToLower d [] = [] := rfl

theorem ToLower_no_upper (d : Deps) (htab : ∀ r, 0x80 ≤ r → isUpper (d.toLower r) = false)
    (s : GoString) : ∀ b ∈ ToLower d s, isUpper b = false := by
  intro b hb
  simp only [ToLower, List.mem_flatMap] at hb
  obtain ⟨c, -, hb⟩ := hb
  rcases encodeRune_bytes _ b hb with ⟨h1, rfl⟩ | h2
  · by_cases hc : c.1 < 0x80
    · exact (runeToLower_ascii d c.1 hc).2.1
    · simp only [runeToLower, hc, if_false]
      exact htab _ (by omega)
  · simp only [isUpper, Bool.and_eq_false_iff, decide_eq_false_iff_not]
    omega

/-! ## C5, C6 -/

theorem passes_nil (d : Deps) (hu : d.unidecode [] = []) (sk : Bool) (ws icr : GoString)
    (re : Regexp) (re2 : Option Regexp) : passes d sk ws icr re re2 [] = [] := by
  have h1 : ∀ (r : Regexp) (repl : GoString), r.ReplaceAllString d [] repl = [] := by
    intro r repl; cases r <;> rfl
  simp only [passes, hu, Fields, runes_nil, fieldsLoop, if_true, Join, List.intercalate,
    List.intersperse, List.flatten, h1]
  cases re2 <;> cases sk <;> simp [h1, ToLower_nil]

/-- C5: for every configuration reached by calls on a zero value for which `Slugify`
returns, the empty input gives the empty string, the transliterator mapping the empty
string to itself. -/
theorem slugify_empty (d : Deps) (calls : List Call) (out : GoString)
    (hu : d.unidecode [] = [])
    (hout : ((({} : Slugifier).run d calls).Slugify d []).1 = some out) : out = [] := by
  rw [slugify_eq_slugOf d _ (ready_run d calls _ ready_zero)] at hout
  unfold slugOf at hout
  split at hout
  · rw [passes_nil d hu] at hout
    exact (Option.some.inj hout).symm
  · exact absurd hout (by simp)

/-- C5 at work: empty separator and empty replacement, empty input. -/
theorem slugify_empty_witness :
    asciiDeps.unidecode [] = []
    ∧ ((({} : Slugifier).run asciiDeps
        [Call.WordSeparator (B ""), Call.InvalidChar (B "")]).Slugify asciiDeps []).1 = some []
    ∧ ([] : GoString) = [] :=
  ⟨rfl, by decide,
    slugify_empty asciiDeps [Call.WordSeparator (B ""), Call.InvalidChar (B "")] [] rfl
      (by decide)⟩

/-- C6: with case folding enabled, whatever the other knobs are, no byte of the returned
string is an uppercase ASCII letter (the table of `unicode.ToLower` giving no uppercase
ASCII letter for a rune beyond ASCII). -/
theorem case_fold_no_uppercase (d : Deps) (calls : List Call) (x out : GoString)
    (htab : ∀ r, 0x80 ≤ r → isUpper (d.toLower r) = false)
    (hfold : (({} : Slugifier).run d calls).skipToLower = false)
    (hout : ((({} : Slugifier).run d calls).Slugify d x).1 = some out) :
    ∀ b ∈ out, isUpper b = false := by
  rw [slugify_eq_slugOf d _ (ready_run d calls _ ready_zero), hfold] at hout
  unfold slugOf at hout
  split at hout
  · simp only [passes, Bool.not_false, if_true] at hout
    rw [← Option.some.inj hout]
    exact ToLower_no_upper d htab _
  · exact absurd hout (by simp)

theorem asciiDeps_table : ∀ r, 0x80 ≤ r → isUpper (asciiDeps.toLower r) = false := by
  intro r hr
  simp only [asciiDeps, isUpper, Bool.and_eq_false_iff, decide_eq_false_iff_not]
  omega

/-- C6 at work: separator `A`, allowed set `A-Z`, replacement `Q`, input `Hi THERE you`. -/
theorem case_fold_no_uppercase_witness :
    (({} : Slugifier).run asciiDeps [Call.WordSeparator (B "A"), Call.AllowedSet (B "A-Z"),
        Call.InvalidChar (B "Q")]).skipToLower = false
    ∧ ((({} : Slugifier).run asciiDeps [Call.WordSeparator (B "A"), Call.AllowedSet (B "A-Z"),
        Call.InvalidChar (B "Q")]).Slugify asciiDeps (B "Hi THERE you")).1 = some (B "hqathere")
    ∧ ∀ b ∈ B "hqathere", isUpper b = false :=
  ⟨rfl, by decide,
    case_fold_no_uppercase asciiDeps [Call.WordSeparator (B "A"), Call.AllowedSet (B "A-Z"),
        Call.InvalidChar (B "Q")] (B "Hi THERE you") (B "hqathere") asciiDeps_table rfl
      (by decide)⟩

/-! ## Edge trimming -/

theorem prefix_singleton_iff (c : Nat) (l : GoString) : [c] <+: l ↔ l.head? = some c := by
  cases l with
  | nil => simp
  | cons a t => simp [List.cons_prefix_cons, eq_comm]

theorem suffix_singleton_iff (c : Nat) (l : GoString) : [c] <:+ l ↔ l.getLast? = some c := by
  rw [List.getLast?_eq_some_iff]
  constructor
  · rintro ⟨t, rfl⟩; exact ⟨t, rfl⟩
  · rintro ⟨t, rfl⟩; exact ⟨t, rfl⟩

theorem trim_head (p : Nat → Bool) (l : GoString) (b : Nat)
    (h : ((l.dropWhile p).rdropWhile p).head? = some b) : p b = false := by
  have hpre : (l.dropWhile p).rdropWhile p <+: l.dropWhile p := List.rdropWhile_prefix p _
  obtain ⟨t, ht⟩ := hpre
  have h2 := List.head?_dropWhile_not p l
  rw [← ht] at h2
  cases hT : (l.dropWhile p).rdropWhile p with
  | nil => rw [hT] at h; simp at h
  | cons a T =>
    rw [hT] at h h2
    simp only [List.head?_cons, Option.some.injEq] at h
    subst h
    simpa using h2

theorem trim_getLast (p : Nat → Bool) (l : GoString) (b : Nat)
    (h : ((l.dropWhile p).rdropWhile p).getLast? = some b) : p b = false := by
  have hne : (l.dropWhile p).rdropWhile p ≠ [] := by
    intro h0; rw [h0] at h; simp at h
  have := List.rdropWhile_last_not p (l.dropWhile p) hne
  rw [List.getLast?_eq_getLast _ hne] at h
  rw [Option.some.inj h] at this
  simpa using this

theorem ToLower_cons (d : Deps) (b : Nat) (t : GoString) :
    ToLower d (b :: t) = encodeRune (runeToLower d (decodeRune (b :: t)).1)
      ++ ToLower d ((b :: t).drop (decodeRune (b :: t)).2) := by
  simp only [ToLower, runes_cons b t, List.flatMap_cons]

theorem ToLower_head (d : Deps) (c : Nat) (hc : c < 0x80) (hl : isLower c = false)
    (htab : ∀ r, 0x80 ≤ r → 0x80 ≤ d.toLower r ∨ isLower (d.toLower r) = true)
    (T : GoString) (h : (ToLower d T).head? = some c) : T.head? = some c := by
  cases T with
  | nil => simp [ToLower_nil] at h
  | cons b t =>
    rw [ToLower_cons] at h
    obtain ⟨e, es, he⟩ := List.exists_cons_of_ne_nil
      (encodeRune_ne_nil (runeToLower d (decodeRune (b :: t)).1))
    rw [he] at h
    simp only [List.cons_append, List.head?_cons, Option.some.injEq] at h
    subst h
    have hmem : e ∈ encodeRune (runeToLower d (decodeRune (b :: t)).1) := by
      rw [he]; exact List.mem_cons_self _ _
    rcases encodeRune_bytes _ e hmem with ⟨-, h6⟩ | h6
    · by_cases hb : b < 0x80
      · rw [decodeRune_ascii b t hb] at h6
        rw [h6] at hl
        rw [h6, (runeToLower_ascii d b hb).2.2.2 hl]; rfl
      · exfalso
        have hr := (decodeRune_high b t (by omega)).1
        simp only [runeToLower] at h6
        rw [if_neg (by omega)] at h6
        rcases htab _ hr with h7 | h7
        · omega
        · rw [← h6, hl] at h7; simp at h7
    · omega

theorem ToLower_getLast (d : Deps) (c : Nat) (hc : c < 0x80) (hl : isLower c = false)
    (htab : ∀ r, 0x80 ≤ r → 0x80 ≤ d.toLower r ∨ isLower (d.toLower r) = true)
    (T : GoString) (h : (ToLower d T).getLast? = some c) : T.getLast? = some c := by
  rcases List.eq_nil_or_concat (runes T) with h0 | ⟨cs, cl, h0⟩
  · simp [ToLower, h0] at h
  · have hT := runes_flatMap T
    have hwf := runes_mem T cl (by rw [h0]; simp)
    rw [List.concat_eq_append] at h0
    rw [h0, List.flatMap_append] at hT
    simp only [List.flatMap_cons, List.flatMap_nil, List.append_nil] at hT
    simp only [ToLower, h0, List.flatMap_append, List.flatMap_cons, List.flatMap_nil,
      List.append_nil] at h
    rw [List.getLast?_append_of_ne_nil _ (encodeRune_ne_nil _)] at h
    have hmem : c ∈ encodeRune (runeToLower d cl.1) := List.mem_of_getLast?_eq_some h
    rcases encodeRune_bytes _ c hmem with ⟨-, h6⟩ | h6
    · rcases hwf.2 with ⟨h8, h9⟩ | ⟨h8, -⟩
      · rw [h6] at hl
        rw [← hT, h9, List.getLast?_concat, h6, (runeToLower_ascii d cl.1 h8).2.2.2 hl]
      · exfalso
        simp only [runeToLower] at h6
        rw [if_neg (by omega)] at h6
        rcases htab _ h8 with h7 | h7
        · omega
        · rw [← h6, hl] at h7; simp at h7
    · omega

theorem trimmed_edges (p : Nat → Bool) (l : GoString) (c : Nat) (hp : p c = true) :
    ((l.dropWhile p).rdropWhile p).head? ≠ some c
      ∧ ((l.dropWhile p).rdropWhile p).getLast? ≠ some c := by
  constructor
  · intro h
    exact Bool.noConfusion (hp.symm.trans (trim_head p l c h))
  · intro h
    exact Bool.noConfusion (hp.symm.trans (trim_getLast p l c h))

/-! ## C2: the edges of the result -/

theorem asciiDeps_lower :
    ∀ r, 0x80 ≤ r → 0x80 ≤ asciiDeps.toLower r ∨ isLower (asciiDeps.toLower r) = true :=
  fun _ hr => Or.inl hr

/-- C2 (as stated, refuted): with the two-character separator `ab` the input `ab` comes out
as `ab`; with the one-character separator and replacement `é` the input `!` comes out as
`é`; with the separator `a` and case folding the input `A` comes out as `a`: each result
starts and ends with the configured separator. -/
theorem edge_separator_counterexample :
    ((NewSlugifier.WordSeparator (B "ab")).Slugify asciiDeps (B "ab")).1 = some (B "ab")
    ∧ B "ab" <+: B "ab" ∧ B "ab" <:+ B "ab"
    ∧ (((NewSlugifier.WordSeparator (B "é")).InvalidChar (B "é")).Slugify asciiDeps (B "!")).1
        = some (B "é")
    ∧ B "é" <+: B "é" ∧ B "é" <:+ B "é"
    ∧ ((NewSlugifier.WordSeparator (B "a")).Slugify asciiDeps (B "A")).1 = some (B "a")
    ∧ B "a" <+: B "a" ∧ B "a" <:+ B "a" :=
  ⟨by decide, List.prefix_refl _, List.suffix_refl _, by decide, List.prefix_refl _,
    List.suffix_refl _, by decide, List.prefix_refl _, List.suffix_refl _⟩

/-- C2 (amended): for every configuration reached by calls on a zero value for which
`Slugify` returns, if the separator or the replacement is one ASCII character `c`, and
either case folding is disabled or `c` is not a lowercase letter (`unicode.ToLower` mapping
runes beyond ASCII beyond ASCII or to lowercase letters), the result neither starts nor
ends with `c`. -/
theorem no_edge_separator (d : Deps) (calls : List Call) (x out : GoString) (c : Nat)
    (hc : c < 0x80)
    (hknob : (({} : Slugifier).run d calls).wordSeparator.getD defaultWordSeparator = [c]
      ∨ (({} : Slugifier).run d calls).invalidCharReplacement.getD
          defaultInvalidCharReplacement = [c])
    (hfold : (({} : Slugifier).run d calls).skipToLower = true
      ∨ (isLower c = false
          ∧ ∀ r, 0x80 ≤ r → 0x80 ≤ d.toLower r ∨ isLower (d.toLower r) = true))
    (hout : ((({} : Slugifier).run d calls).Slugify d x).1 = some out) :
    ¬ [c] <+: out ∧ ¬ [c] <:+ out := by
  rw [slugify_eq_slugOf d _ (ready_run d calls _ ready_zero)] at hout
  generalize ({} : Slugifier).run d calls = s at hknob hfold hout
  unfold slugOf at hout
  split at hout
  case h_2 => exact absurd hout (by simp)
  next re re2 _ _ =>
  simp only [passes, Option.some.injEq] at hout
  have hcc : encodeRune c = [c] := (encodeRune_eq_singleton c c).2 ⟨rfl, hc⟩
  have hp : (fun b => decide (encodeRune b = s.wordSeparator.getD defaultWordSeparator)
      || decide (encodeRune b = s.invalidCharReplacement.getD
          defaultInvalidCharReplacement)) c = true := by
    rcases hknob with h | h <;> simp [h, hcc]
  have hedges := fun l => trimmed_edges
    (fun b => decide (encodeRune b = s.wordSeparator.getD defaultWordSeparator)
      || decide (encodeRune b = s.invalidCharReplacement.getD
          defaultInvalidCharReplacement)) l c hp
  rw [prefix_singleton_iff, suffix_singleton_iff]
  cases hsk : s.skipToLower
  · rw [hsk] at hout
    simp only [Bool.not_false, if_true] at hout
    subst hout
    rcases hfold with h | ⟨hl, htab⟩
    · rw [hsk] at h; simp at h
    · exact ⟨fun h => (hedges _).1 (ToLower_head d c hc hl htab _ h),
        fun h => (hedges _).2 (ToLower_getLast d c hc hl htab _ h)⟩
  · rw [hsk] at hout
    simp only [Bool.not_true, Bool.false_eq_true, if_false] at hout
    subst hout
    exact hedges _

/-- C2 (amended) at work: the zero value, `c` the default separator `-`. -/
theorem no_edge_separator_witness :
    (45 < 0x80)
    ∧ ((({} : Slugifier).run asciiDeps []).wordSeparator.getD defaultWordSeparator = [45]
      ∨ (({} : Slugifier).run asciiDeps []).invalidCharReplacement.getD
          defaultInvalidCharReplacement = [45])
    ∧ ((({} : Slugifier).run asciiDeps []).Slugify asciiDeps (B "--Hello, World!--")).1
        = some (B "hello-world")
    ∧ (¬ [45] <+: B "hello-world" ∧ ¬ [45] <:+ B "hello-world") :=
  ⟨by decide, Or.inl (by decide), by decide,
    no_edge_separator asciiDeps [] (B "--Hello, World!--") (B "hello-world") 45 (by decide)
      (Or.inl (by decide)) (Or.inr ⟨by decide, asciiDeps_lower⟩) (by decide)⟩

/-! ## The duplicate-separator pass for a one-byte separator -/

theorem validUTF8_ascii (s : GoString) (h : ∀ b ∈ s, b < 0x80) : validUTF8 s = true := by
  rw [validUTF8, runes_ascii s h, List.all_eq_true]
  intro c hc
  obtain ⟨b, hb, rfl⟩ := List.mem_map.1 hc
  have := h b hb
  simp [RuneError]
  omega

theorem runes_map_fst_ascii (s : GoString) (h : ∀ b ∈ s, b < 0x80) :
    (runes s).map (fun c => c.1) = s := by
  rw [runes_ascii s h, List.map_map]
  exact List.map_id _

theorem MustCompile_ascii (p : GoString) (h : ∀ b ∈ p, b < 0x80) :
    MustCompile p = parsePattern p := by
  simp only [MustCompile, validUTF8_ascii p h, runes_map_fst_ascii p h, Bool.not_true,
    Bool.false_eq_true, if_false]

theorem sprintf_dup (q : GoString) :
    Sprintf (B "%s\x7b2,\x7d") (some q) = some (q ++ [0x7B, 0x32, 0x2C, 0x7D]) := by
  rfl

theorem compileDup_single (c : Nat) (hc : c < 0x80) :
    compileDup [c] = some (some (Regexp.dup [] c)) := by
  have hq : QuoteMeta [c] = if isSpecial c then [0x5C, c] else [c] := by
    simp [QuoteMeta]
  have hne : QuoteMeta [c] ≠ [] := by rw [hq]; split_ifs <;> simp
  simp only [compileDup, hne, ne_eq, not_false_eq_true, if_true, sprintf_dup, Option.bind_some]
  rw [hq]
  by_cases hs : isSpecial c = true
  · have hasc : ∀ b ∈ [0x5C, c, 0x7B, 0x32, 0x2C, 0x7D], b < 0x80 := by
      intro b hb; simp at hb; omega
    have hal : isAlnum c = false := by
      simp only [isSpecial, Bool.or_eq_true, decide_eq_true_eq] at hs
      rcases hs with ((((((((((((h | h) | h) | h) | h) | h) | h) | h) | h) | h) | h) | h) | h) | h
        <;> subst h <;> rfl
    simp only [hs, if_true, List.cons_append, List.nil_append, Option.some_bind]
    rw [MustCompile_ascii _ hasc]
    simp [parsePattern, parseLits, hc, hal]
  · have hasc : ∀ b ∈ [c, 0x7B, 0x32, 0x2C, 0x7D], b < 0x80 := by
      intro b hb; simp at hb; omega
    simp only [Bool.not_eq_true] at hs
    have h1 : c ≠ 0x5B := by rintro rfl; simp [isSpecial] at hs
    have h2 : c ≠ 0x5C := by rintro rfl; simp [isSpecial] at hs
    have h3 : c ≠ 0x7B := by rintro rfl; simp [isSpecial] at hs
    simp only [hs, Bool.false_eq_true, if_false, List.cons_append, List.nil_append,
      Option.some_bind]
    rw [MustCompile_ascii _ hasc]
    simp [parsePattern, parseLits, h1, h2, h3, hs]

theorem expand_single (d : Deps) (c : Nat) (m : GoString) : expand d [c] m = [c] := by
  simp only [expand, expandFrom]
  split_ifs with h1 h2
  · rfl
  · simp at h2
  · simp only [not_not] at h1
    simp [extract, runes_nil, h1, expandFrom]

theorem expand_nil (d : Deps) (m : GoString) : expand d [] m = [] := rfl

theorem replaceDupFrom_skip (d : Deps) (lits : List Nat) (last : Nat) (repl : GoString)
    (k : Nat) (cs : List Chunk) :
    replaceDupFrom d lits last repl k cs = replaceDupFrom d lits last repl 0 (cs.drop k) := by
  induction cs generalizing k with
  | nil => cases k <;> simp [replaceDupFrom]
  | cons a cs ih =>
    cases k with
    | zero => rfl
    | succ k => simp only [replaceDupFrom, List.drop_succ_cons, ih k]

theorem runes_drop_ascii (j : Nat) (s : GoString) (h : ∀ b ∈ s.take j, b < 0x80) :
    (runes s).drop j = runes (s.drop j) := by
  induction j generalizing s with
  | zero => rfl
  | succ j ih =>
    cases s with
    | nil => rfl
    | cons b t =>
      have hb : b < 0x80 := h b (by simp)
      rw [runes_cons_ascii b t hb, List.drop_succ_cons, List.drop_succ_cons]
      exact ih t (fun x hx => h x (by simp [hx]))

theorem first_rune_ne (b c : Nat) (t : GoString) (hc : c < 0x80) (hbc : b ≠ c) :
    (decodeRune (b :: t)).1 ≠ c := by
  by_cases hb : b < 0x80
  · rw [decodeRune_ascii b t hb]; exact hbc
  · have := (decodeRune_high b t (by omega)).1
    omega

theorem takeWhile_runes (c : Nat) (hc : c < 0x80) (s : GoString) :
    ((runes s).map (fun x => x.1)).takeWhile (fun r => decide (r = c))
      = s.takeWhile (fun r => decide (r = c)) := by
  induction s with
  | nil => rfl
  | cons b t ih =>
    by_cases hbc : b = c
    · subst hbc
      rw [runes_cons_ascii b t hc]
      simp only [List.map_cons, List.takeWhile_cons, decide_True, if_true, ih]
    · rw [runes_cons]
      simp [List.takeWhile_cons, hbc, first_rune_ne b c t hc hbc]

theorem collapseRuns_cons_ne (c a : Nat) (l : GoString) (h : a ≠ c) :
    collapseRuns c (a :: l) = a :: collapseRuns c l := by
  cases l with
  | nil => rfl
  | cons b t => simp [collapseRuns, h]

theorem collapseRuns_append_not_mem (c : Nat) (bs r : GoString) (h : c ∉ bs) :
    collapseRuns c (bs ++ r) = bs ++ collapseRuns c r := by
  induction bs with
  | nil => rfl
  | cons a bs ih =>
    simp only [List.mem_cons, not_or] at h
    rw [List.cons_append, collapseRuns_cons_ne c a _ (Ne.symm h.1), ih h.2]
    rfl

theorem collapseRuns_replicate (c : Nat) (n : Nat) (r : GoString) (h : r.head? ≠ some c) :
    collapseRuns c (List.replicate (n + 1) c ++ r) = c :: collapseRuns c r := by
  induction n with
  | zero =>
    cases r with
    | nil => rfl
    | cons a r =>
      have : a ≠ c := by intro h0; subst h0; simp at h
      simp [collapseRuns, this]
  | succ n ih =>
    rw [List.replicate_succ, List.cons_append, List.replicate_succ, List.cons_append,
      collapseRuns]
    simp only [and_self, if_true]
    rw [← List.cons_append, ← List.replicate_succ]
    exact ih

theorem drop_length_takeWhile (p : Nat → Bool) (l : GoString) :
    l.drop (l.takeWhile p).length = l.dropWhile p := by
  induction l with
  | nil => rfl
  | cons a l ih =>
    by_cases h : p a = true
    · simp [List.takeWhile_cons, List.dropWhile_cons, h, ih]
    · simp [List.takeWhile_cons, List.dropWhile_cons, h]

theorem take_length_takeWhile (p : Nat → Bool) (l : GoString) :
    l.take (l.takeWhile p).length = l.takeWhile p := by
  induction l with
  | nil => rfl
  | cons a l ih =>
    by_cases h : p a = true
    · simp [List.takeWhile_cons, h, ih]
    · simp [List.takeWhile_cons, h]

theorem takeWhile_eq_replicate (c : Nat) (t : GoString) :
    t.takeWhile (fun r => decide (r = c))
      = List.replicate (t.takeWhile (fun r => decide (r = c))).length c := by
  rw [List.eq_replicate_iff]
  refine ⟨rfl, fun b hb => ?_⟩
  simpa using List.mem_takeWhile_imp hb

/-- For a separator that is one ASCII byte `c` the duplicate-separator pass is
`collapseRuns c`, on every text. -/
theorem replaceDup_single (d : Deps) (c : Nat) (hc : c < 0x80) (s : GoString) :
    replaceDupFrom d [] c [c] 0 (runes s) = collapseRuns c s := by
  suffices h : ∀ n, ∀ s : GoString, s.length = n →
      replaceDupFrom d [] c [c] 0 (runes s) = collapseRuns c s from h _ s rfl
  intro n
  induction n using Nat.strong_induction_on with
  | _ n ih =>
    intro s hn
    cases s with
    | nil => rfl
    | cons b t =>
      by_cases hbc : b = c
      · subst hbc
        have htw := takeWhile_runes b hc t
        have hrep := takeWhile_eq_replicate b t
        have hsplit : t = List.replicate (t.takeWhile (fun r => decide (r = b))).length b
            ++ t.dropWhile (fun r => decide (r = b)) := by
          rw [← hrep]; exact (List.takeWhile_append_dropWhile _ _).symm
        have hdrop : t.drop (t.takeWhile (fun r => decide (r = b))).length
            = t.dropWhile (fun r => decide (r = b)) := drop_length_takeWhile _ t
        have hhead : (t.dropWhile (fun r => decide (r = b))).head? ≠ some b := by
          have := List.head?_dropWhile_not (fun r => decide (r = b)) t
          intro h0
          rw [h0] at this
          simp at this
        have hcol : collapseRuns b (b :: t) = b :: collapseRuns b
            (t.dropWhile (fun r => decide (r = b))) := by
          conv_lhs => rw [hsplit]
          rw [← List.cons_append, ← List.replicate_succ]
          exact collapseRuns_replicate b _ _ hhead
        have hlen : (t.dropWhile (fun r => decide (r = b))).length < n := by
          rw [← hn]
          have := (List.dropWhile_suffix (fun r => decide (r = b)) (l := t)).length_le
          simp only [List.length_cons]
          omega
        have hIH := ih _ hlen _ rfl
        rw [hcol, runes_cons_ascii b t hc, replaceDupFrom]
        simp only [matchDup, List.length_nil, List.take_zero, if_true, List.drop_zero,
          List.map_cons, List.takeWhile_cons, decide_True, htw, List.length_cons, zero_add]
        by_cases h2 : 2 ≤ (t.takeWhile (fun r => decide (r = b))).length + 1
        · simp only [h2, if_true, expand_single, Nat.add_sub_cancel]
          rw [replaceDupFrom_skip, runes_drop_ascii, hdrop, hIH]
          · rfl
          · intro x hx
            have hx2 : x ∈ t.takeWhile (fun r => decide (r = b)) := by
              rw [take_length_takeWhile] at hx; exact hx
            have := List.mem_takeWhile_imp hx2
            simp only [decide_eq_true_eq] at this
            omega
        · simp only [h2, if_false]
          have h0 : (t.takeWhile (fun r => decide (r = b))).length = 0 := by omega
          have ht : t.dropWhile (fun r => decide (r = b)) = t := by
            rw [← hdrop, h0]; rfl
          rw [ht] at hIH
          rw [hIH, ht]
          rfl
      · have hw := decodeRune_width b t
        have hsplit : (b :: t).take (decodeRune (b :: t)).2
            ++ (b :: t).drop (decodeRune (b :: t)).2 = b :: t := List.take_append_drop _ _
        have hnot : c ∉ (b :: t).take (decodeRune (b :: t)).2 := by
          intro hmem
          by_cases hb : b < 0x80
          · rw [decodeRune_ascii b t hb] at hmem
            simp at hmem
            exact hbc hmem.symm
          · have := (decodeRune_high b t (by omega)).2 c hmem
            omega
        have hlen : ((b :: t).drop (decodeRune (b :: t)).2).length < n := by
          rw [← hn, List.length_drop]
          have := hw.1
          simp only [List.length_cons] at *
          omega
        have hIH := ih _ hlen _ rfl
        conv_rhs => rw [← hsplit]
        rw [collapseRuns_append_not_mem c _ _ hnot, runes_cons, replaceDupFrom]
        simp only [matchDup, List.length_nil, List.take_zero, if_true, List.drop_zero,
          List.map_cons, List.takeWhile_cons, first_rune_ne b c t hc hbc, decide_False,
          List.length_nil, Bool.false_eq_true, if_false]
        rw [hIH]
        simp

theorem collapseRuns_head (c : Nat) (s : GoString) : (collapseRuns c s).head? = s.head? := by
  induction s using collapseRuns.induct c with
  | case1 => rfl
  | case2 a => rfl
  | case3 a b t h ih =>
    rw [collapseRuns, if_pos h, ih]
    simp [h.1, h.2]
  | case4 a b t h ih =>
    rw [collapseRuns, if_neg h]
    rfl

theorem double_infix_cons (c a : Nat) (l : GoString) :
    [c, c] <:+: a :: l ↔ (a = c ∧ l.head? = some c) ∨ [c, c] <:+: l := by
  rw [List.infix_cons_iff]
  cases l with
  | nil => simp
  | cons b l => simp [List.cons_prefix_cons, eq_comm]

theorem collapseRuns_no_double (c : Nat) (s : GoString) : ¬ [c, c] <:+: collapseRuns c s := by
  induction s using collapseRuns.induct c with
  | case1 => simp [collapseRuns]
  | case2 a =>
    rw [collapseRuns, double_infix_cons]
    simp
  | case3 a b t h ih => rw [collapseRuns, if_pos h]; exact ih
  | case4 a b t h ih =>
    rw [collapseRuns, if_neg h, double_infix_cons, collapseRuns_head]
    rintro (⟨h1, h2⟩ | h3)
    · simp only [List.head?_cons, Option.some.injEq] at h2
      exact h ⟨h1, h2⟩
    · exact ih h3

theorem double_infix_append_not_mem (c : Nat) (e l : GoString) (h : c ∉ e)
    (hi : [c, c] <:+: e ++ l) : [c, c] <:+: l := by
  induction e with
  | nil => exact hi
  | cons a e ih =>
    simp only [List.mem_cons, not_or] at h
    rw [List.cons_append, double_infix_cons] at hi
    rcases hi with ⟨h1, -⟩ | h2
    · exact absurd h1.symm h.1
    · exact ih h.2 h2

theorem ToLower_cons_ascii (d : Deps) (b : Nat) (t : GoString) (hb : b < 0x80) :
    ToLower d (b :: t) = runeToLower d b :: ToLower d t := by
  rw [ToLower_cons, decodeRune_ascii b t hb]
  have := (runeToLower_ascii d b hb).1
  simp only [encodeRune, this, if_true]
  rfl

theorem ToLower_double (d : Deps) (c : Nat) (hc : c < 0x80) (hl : isLower c = false)
    (htab : ∀ r, 0x80 ≤ r → 0x80 ≤ d.toLower r ∨ isLower (d.toLower r) = true)
    (T : GoString) : [c, c] <:+: ToLower d T → [c, c] <:+: T := by
  induction T using runes_induction with
  | hnil => simp [ToLower_nil]
  | hascii b t hb ih =>
    rw [ToLower_cons_ascii d b t hb, double_infix_cons, double_infix_cons]
    rintro (⟨h1, h2⟩ | h3)
    · left
      refine ⟨?_, ToLower_head d c hc hl htab t h2⟩
      rw [← h1] at hl
      rw [← h1, (runeToLower_ascii d b hb).2.2.2 hl]
    · exact Or.inr (ih h3)
  | hhigh r bs rest hr hne hbs hrunes ih =>
    intro h
    have hE : ToLower d (bs ++ rest) = encodeRune (d.toLower r) ++ ToLower d rest := by
      simp only [ToLower, hrunes, List.flatMap_cons, runeToLower]
      rw [if_neg (by omega)]
    rw [hE] at h
    have hnot : c ∉ encodeRune (d.toLower r) := by
      intro hmem
      rcases encodeRune_bytes _ c hmem with ⟨h5, h6⟩ | h6
      · rcases htab r hr with h7 | h7
        · omega
        · rw [← h6, hl] at h7; simp at h7
      · omega
    have := ih (double_infix_append_not_mem c _ _ hnot h)
    exact this.trans (List.suffix_append bs rest).isInfix

/-! ## The duplicate-separator pass for a separator of one character -/

theorem expandFrom_no_dollar (d : Deps) (m repl : GoString) (h : (0x24 : Nat) ∉ repl) :
    expandFrom d m 0 repl = repl := by
  induction repl with
  | nil => rfl
  | cons b t ih =>
    simp only [List.mem_cons, not_or] at h
    rw [expandFrom, if_pos (Ne.symm h.1), ih h.2]

theorem expand_encodeRune (d : Deps) (c : Nat) (m : GoString) :
    expand d (encodeRune c) m = encodeRune c := by
  by_cases hc : c < 0x80
  · have : encodeRune c = [c] := (encodeRune_eq_singleton c c).2 ⟨rfl, hc⟩
    rw [this, expand_single]
  · apply expandFrom_no_dollar
    intro hmem
    rcases encodeRune_bytes c _ hmem with ⟨h1, _⟩ | h1 <;> omega

/-- Induction along the decoding of a string, one rune at a time. -/
theorem runes_rec {P : GoString → Prop} (hnil : P [])
    (hcons : ∀ b t, P ((b :: t).drop (decodeRune (b :: t)).2) → P (b :: t)) : ∀ s, P s := by
  suffices h : ∀ n, ∀ s : GoString, s.length = n → P s from fun s => h _ s rfl
  intro n
  induction n using Nat.strong_induction_on with
  | _ n ih =>
    intro s hn
    cases s with
    | nil => exact hnil
    | cons b t =>
      apply hcons
      apply ih _ _ _ rfl
      rw [← hn, List.length_drop]
      have := (decodeRune_width b t).1
      simp only [List.length_cons] at *
      omega

/-- Every rune of a string other than `RuneError` is a character standing in the string
as its own encoding; a rune whose first byte is a continuation byte is that byte alone. -/
theorem runes_chunk (s : GoString) :
    ∀ ch ∈ runes s, ch.2 ≠ [] ∧
      (ch.1 ≠ RuneError → validRune ch.1 = true ∧ ch.2 = encodeRune ch.1)
      ∧ (∀ b, ch.2.head? = some b → isCont b = true → ch.1 = RuneError ∧ ch.2 = [b]) := by
  induction s using runes_rec with
  | hnil => intro ch hch; simp [runes_nil] at hch
  | hcons b t ih =>
    intro ch hch
    rw [runes_cons, List.mem_cons] at hch
    rcases hch with rfl | hch
    · refine ⟨?_, fun hne => ?_, fun x hx hcont => ?_⟩
      · have := (decodeRune_width b t).1
        intro h0
        have := congrArg List.length h0
        simp only [List.length_take, List.length_cons, List.length_nil] at this
        omega
      · have := decodeRune_roundtrip_aux b t _ _ rfl hne
        exact ⟨this.1, this.2.symm⟩
      · have hw := (decodeRune_width b t).1
        obtain ⟨w, hw2⟩ : ∃ w, (decodeRune (b :: t)).2 = w + 1 :=
          ⟨_, (Nat.sub_add_cancel hw).symm⟩
        simp only [hw2, List.take_succ_cons, List.head?_cons, Option.some.injEq] at hx
        subst hx
        simp only [isCont, Bool.and_eq_true, decide_eq_true_eq] at hcont
        have hd : decodeRune (b :: t) = (RuneError, 1) := by
          simp only [decodeRune]
          rw [if_neg (by omega), if_pos (by omega)]
        rw [hd]
        exact ⟨rfl, rfl⟩
    · exact ih ch hch

theorem wf_tail (x : Chunk) (xs : List Chunk)
    (h : runes ((x :: xs).flatMap (fun ch => ch.2)) = x :: xs) :
    runes (xs.flatMap (fun ch => ch.2)) = xs := by
  rw [List.flatMap_cons] at h
  cases hb : x.2 ++ xs.flatMap (fun ch => ch.2) with
  | nil => rw [hb, runes_nil] at h; exact absurd h (by simp)
  | cons b t =>
    rw [hb, runes_cons] at h
    obtain ⟨h1, h2⟩ := List.cons.inj h
    have hx2 : x.2 = (b :: t).take (decodeRune (b :: t)).2 := by rw [← h1]
    have h3 : (b :: t).take (decodeRune (b :: t)).2 ++ (b :: t).drop (decodeRune (b :: t)).2
        = x.2 ++ xs.flatMap (fun ch => ch.2) := by rw [List.take_append_drop, hb]
    rw [← hx2] at h3
    rw [← List.append_cancel_left h3]
    exact h2

theorem wf_drop (k : Nat) (L : List Chunk)
    (h : runes (L.flatMap (fun ch => ch.2)) = L) :
    runes ((L.drop k).flatMap (fun ch => ch.2)) = L.drop k := by
  induction k generalizing L with
  | zero => exact h
  | succ k ih =>
    cases L with
    | nil => exact h
    | cons x xs => exact ih xs (wf_tail x xs h)

theorem wf_mem (L : List Chunk) (h : runes (L.flatMap (fun ch => ch.2)) = L) :
    ∀ ch ∈ L, ch.2 ≠ [] ∧
      (ch.1 ≠ RuneError → validRune ch.1 = true ∧ ch.2 = encodeRune ch.1)
      ∧ (∀ b, ch.2.head? = some b → isCont b = true → ch.1 = RuneError ∧ ch.2 = [b]) := by
  intro ch hch
  rw [← h] at hch
  exact runes_chunk _ ch hch


theorem runes_chunk_append (x : Chunk) (hx : x.1 ≠ RuneError)
    (hxv : x.1 ≠ RuneError → validRune x.1 = true ∧ x.2 = encodeRune x.1) (Y : GoString) :
    runes (x.2 ++ Y) = x :: runes Y := by
  obtain ⟨h1, h2⟩ := hxv hx
  rw [h2, runes_encodeRune x.1 h1, ← h2]

theorem run_length_facts (c : Nat) (x : Chunk) (xs : List Chunk) :
    (1 ≤ (((x :: xs).map (fun ch => ch.1)).takeWhile (fun r => decide (r = c))).length
        → x.1 = c)
    ∧ (x.1 = c → xs.head?.map (fun ch => ch.1) = some c →
        2 ≤ (((x :: xs).map (fun ch => ch.1)).takeWhile (fun r => decide (r = c))).length) := by
  constructor
  · intro h
    by_contra hne
    simp [List.takeWhile_cons, hne] at h
  · intro h1 h2
    cases xs with
    | nil => simp at h2
    | cons z zs =>
      simp only [List.head?_cons, Option.map_some', Option.some.injEq] at h2
      simp [List.takeWhile_cons, h1, h2]


theorem isCont_head_encodeRune_append (c : Nat) (rest : GoString) :
    ∀ y, (encodeRune c ++ rest).head? = some y → isCont y = false := by
  intro y hy
  apply isCont_head_encodeRune c y
  obtain ⟨b, e, he⟩ := List.exists_cons_of_ne_nil (encodeRune_ne_nil c)
  rw [he] at hy ⊢
  simpa using hy

/-- The duplicate-separator pass for a separator that is one character `c`, seen on the
runes of the text: the result is again decoded piece by piece, and no two adjacent runes
of it are `c`. -/
theorem replaceDup_chunks (d : Deps) (c : Nat) (hv : validRune c = true) :
    ∀ n, ∀ L : List Chunk, L.length = n → runes (L.flatMap (fun ch => ch.2)) = L →
      ∃ OC : List Chunk,
        replaceDupFrom d [] c (encodeRune c) 0 L = OC.flatMap (fun ch => ch.2)
        ∧ runes (OC.flatMap (fun ch => ch.2)) = OC
        ∧ OC.Chain' (fun x y => ¬ (x.1 = c ∧ y.1 = c))
        ∧ OC.head?.map (fun ch => ch.1) = L.head?.map (fun ch => ch.1)
        ∧ ((c ≠ RuneError ∨ L.head?.map (fun ch => ch.1) ≠ some c) →
            ∃ kb s s', L.flatMap (fun ch => ch.2) = kb ++ s
              ∧ OC.flatMap (fun ch => ch.2) = kb ++ s'
              ∧ (∀ b ∈ kb, isCont b = true)
              ∧ (∀ y, s.head? = some y → isCont y = false)
              ∧ (∀ y, s'.head? = some y → isCont y = false)) := by
  intro n
  induction n using Nat.strong_induction_on with
  | _ n ih =>
    intro L hn hwf
    cases L with
    | nil =>
      exact ⟨[], rfl, rfl, List.chain'_nil, rfl,
        fun _ => ⟨[], [], [], rfl, rfl, by simp, by simp, by simp⟩⟩
    | cons x xs =>
      have hxs := wf_tail x xs hwf
      obtain ⟨hx0, hxv, hxc⟩ := wf_mem _ hwf x (List.mem_cons_self _ _)
      obtain ⟨hN1, hN2⟩ := run_length_facts c x xs
      generalize hN : (((x :: xs).map (fun ch => ch.1)).takeWhile
        (fun r => decide (r = c))).length = N at hN1 hN2
      have hm : matchDup [] c (x :: xs) = if 2 ≤ N then some N else none := by
        rw [← hN]; simp [matchDup]
      obtain ⟨b0, t0, hb0⟩ := List.exists_cons_of_ne_nil hx0
      by_cases h2 : 2 ≤ N
      · -- a run of two or more starts here
        have hxc1 : x.1 = c := hN1 (by omega)
        have hdrop : xs.drop (N - 1) = (x :: xs).drop N := by
          obtain ⟨m, rfl⟩ : ∃ m, N = m + 1 := ⟨N - 1, by omega⟩
          rfl
        have hlen : (xs.drop (N - 1)).length < n := by
          rw [← hn, List.length_drop, List.length_cons]; omega
        obtain ⟨OC, hb, hw, hch, hhd, -⟩ := ih _ hlen _ rfl (wf_drop (N - 1) xs hxs)
        have hhead : ∀ y ∈ OC.head?, y.1 ≠ c := by
          intro y hy
          have h3 : OC.head?.map (fun ch => ch.1) = some y.1 := by
            rw [Option.mem_def.1 hy]; rfl
          rw [hhd, hdrop, ← List.head?_map, List.map_drop, ← hN,
            drop_length_takeWhile] at h3
          have h4 := List.head?_dropWhile_not (fun r => decide (r = c))
            ((x :: xs).map (fun ch => ch.1))
          rw [h3] at h4
          simpa using h4
        refine ⟨(c, encodeRune c) :: OC, ?_, ?_, ?_, ?_, ?_⟩
        · rw [replaceDupFrom, hm, if_pos h2]
          simp only [expand_encodeRune, replaceDupFrom_skip d [] c _ (N - 1) xs, hb,
            List.flatMap_cons]
        · rw [List.flatMap_cons, runes_encodeRune c hv, hw]
        · rw [List.chain'_cons']
          exact ⟨fun y hy h => hhead y hy h.2, hch⟩
        · simp [hxc1]
        · intro hP
          have hcne : c ≠ RuneError := by
            rcases hP with h | h
            · exact h
            · exact absurd (by simp [hxc1]) h
          have hx2 : x.2 = encodeRune c := by
            have := (hxv (by rw [hxc1]; exact hcne)).2
            rw [this, hxc1]
          refine ⟨[], (x :: xs).flatMap (fun ch => ch.2),
            ((c, encodeRune c) :: OC).flatMap (fun ch => ch.2), rfl, rfl, by simp, ?_, ?_⟩
          · rw [List.flatMap_cons, hx2]
            exact isCont_head_encodeRune_append c _
          · rw [List.flatMap_cons]
            exact isCont_head_encodeRune_append c _
      · -- no run starts here: the rune is kept
        have hlen : xs.length < n := by rw [← hn, List.length_cons]; omega
        obtain ⟨OC, hb, hw, hch, hhd, hJ⟩ := ih _ hlen _ rfl hxs
        have hnotrun : x.1 = c → xs.head?.map (fun ch => ch.1) ≠ some c :=
          fun h1 h3 => h2 (hN2 h1 h3)
        have hwfx : runes (x.2 ++ OC.flatMap (fun ch => ch.2)) = x :: OC := by
          by_cases hxr : x.1 = RuneError
          · have hP : c ≠ RuneError ∨ xs.head?.map (fun ch => ch.1) ≠ some c := by
              by_cases hc : c = RuneError
              · exact Or.inr (hnotrun (hxr.trans hc.symm))
              · exact Or.inl hc
            obtain ⟨kb, s, s', e1, e2, -, hs, hs'⟩ := hJ hP
            have hA : runes (x.2 ++ kb) = x :: runes kb := by
              have h3 := hwf
              rw [List.flatMap_cons, e1, ← List.append_assoc, runes_append _ s hs] at h3
              have h4 := hxs
              rw [e1, runes_append kb s hs] at h4
              rw [← h4, ← List.cons_append] at h3
              exact List.append_cancel_right h3
            rw [e2, ← List.append_assoc, runes_append _ s' hs', hA, List.cons_append,
              ← runes_append kb s' hs', ← e2, hw]
          · rw [runes_chunk_append x hxr hxv, hw]
        refine ⟨x :: OC, ?_, ?_, ?_, rfl, ?_⟩
        · rw [replaceDupFrom, hm, if_neg h2]
          simp only [hb, List.flatMap_cons]
        · rw [List.flatMap_cons]; exact hwfx
        · rw [List.chain'_cons']
          refine ⟨fun y hy h => hnotrun h.1 ?_, hch⟩
          rw [← hhd, Option.mem_def.1 hy]
          simp [h.2]
        · intro hP
          by_cases hcont : isCont b0 = true
          · obtain ⟨hxr, hx2⟩ := hxc b0 (by rw [hb0]; rfl) hcont
            have hcne : c ≠ RuneError := by
              rcases hP with h | h
              · exact h
              · intro hc
                apply h
                simp [hxr, hc]
            obtain ⟨kb, s, s', e1, e2, hkb, hs, hs'⟩ := hJ (Or.inl hcne)
            refine ⟨b0 :: kb, s, s', ?_, ?_, ?_, hs, hs'⟩
            · rw [List.flatMap_cons, hx2, e1]; rfl
            · rw [List.flatMap_cons, hx2, e2]; rfl
            · intro b hb1
              rcases List.mem_cons.1 hb1 with rfl | hb1
              · exact hcont
              · exact hkb b hb1
          · refine ⟨[], (x :: xs).flatMap (fun ch => ch.2),
              (x :: OC).flatMap (fun ch => ch.2), rfl, rfl, by simp, ?_, ?_⟩
            · intro y hy
              rw [List.flatMap_cons, hb0] at hy
              simp only [List.cons_append, List.head?_cons, Option.some.injEq] at hy
              subst hy
              simpa using hcont
            · intro y hy
              rw [List.flatMap_cons, hb0] at hy
              simp only [List.cons_append, List.head?_cons, Option.some.injEq] at hy
              subst hy
              simpa using hcont


/-- After the duplicate-separator pass for a separator that is one character `c`, the text
nowhere holds two adjacent copies of `c`. -/
theorem replaceDup_no_double (d : Deps) (c : Nat) (hv : validRune c = true) (T : GoString) :
    ¬ encodeRune c ++ encodeRune c
        <:+: replaceDupFrom d [] c (encodeRune c) 0 (runes T) := by
  obtain ⟨OC, hb, hw, hch, -, -⟩ :=
    replaceDup_chunks d c hv _ (runes T) rfl (by rw [runes_flatMap])
  intro h
  rw [hb] at h
  obtain ⟨A, B, hAB⟩ := runes_of_double c hv _ h
  rw [hw] at hAB
  rw [hAB] at hch
  have h1 := (List.chain'_cons.1 hch.right_of_append).1
  exact h1 ⟨rfl, rfl⟩

theorem encodeRune_invalid (r : Nat) (hr : ¬ validRune r = true) :
    encodeRune r = encodeRune RuneError := by
  simp only [validRune, Bool.or_eq_true, Bool.and_eq_true, decide_eq_true_eq, not_or,
    not_and, not_lt, not_le] at hr
  have h1 : encodeRune RuneError = [0xEF, 0xBF, 0xBD] := by decide
  rw [h1]
  unfold encodeRune
  rw [if_neg (by omega), if_neg (by omega), if_pos]
  by_cases h : 0x10FFFF < r
  · exact Or.inl h
  · exact Or.inr ⟨hr.1, by have := hr.2; omega⟩

theorem runes_encodeRune_any (r : Nat) (t : GoString) :
    ∃ r', runes (encodeRune r ++ t) = (r', encodeRune r) :: runes t := by
  by_cases hv : validRune r = true
  · exact ⟨r, runes_encodeRune r hv t⟩
  · rw [encodeRune_invalid r hv]
    exact ⟨RuneError, runes_encodeRune RuneError (by decide) t⟩

theorem encodeRune_inj (r c : Nat) (hv : validRune c = true) (hc : c ≠ RuneError)
    (h : encodeRune r = encodeRune c) : r = c := by
  have h2 := decodeRune_encodeRune c hv []
  by_cases hr : validRune r = true
  · have h1 := decodeRune_encodeRune r hr []
    rw [h, h2] at h1
    exact ((Prod.mk.inj h1).1).symm
  · rw [encodeRune_invalid r hr] at h
    have h1 := decodeRune_encodeRune RuneError (by decide) []
    rw [h, h2] at h1
    exact absurd (Prod.mk.inj h1).1 hc

theorem runes_ToLower_snd (d : Deps) (L : List Chunk) :
    (runes (L.flatMap (fun ch => encodeRune (runeToLower d ch.1)))).map (fun ch => ch.2)
      = L.map (fun ch => encodeRune (runeToLower d ch.1)) := by
  induction L with
  | nil => rfl
  | cons x xs ih =>
    obtain ⟨r', hr'⟩ := runes_encodeRune_any (runeToLower d x.1)
      (xs.flatMap (fun ch => encodeRune (runeToLower d ch.1)))
    rw [List.flatMap_cons, hr', List.map_cons, List.map_cons, ih]

/-- When nothing but `c` is lowercased to the character `c`, two adjacent copies of `c`
in the lower case of a text stand at the same place in the text. -/
theorem ToLower_double_rune (d : Deps) (c : Nat) (hv : validRune c = true)
    (hc : c ≠ RuneError) (H : ∀ r, runeToLower d r = c → r = c) (s : GoString)
    (h : encodeRune c ++ encodeRune c <:+: ToLower d s) :
    encodeRune c ++ encodeRune c <:+: s := by
  obtain ⟨A, B, hAB⟩ := runes_of_double c hv _ h
  have h1 := runes_ToLower_snd d (runes s)
  unfold ToLower at hAB
  rw [hAB] at h1
  simp only [List.map_append, List.map_cons] at h1
  obtain ⟨L1, L2, hL, -, hL2⟩ := List.map_eq_append_iff.1 h1.symm
  obtain ⟨ch1, L3, hL3, hch1, hL4⟩ := List.map_eq_cons_iff.1 hL2
  obtain ⟨ch2, L5, hL5, hch2, -⟩ := List.map_eq_cons_iff.1 hL4
  have hr1 : ch1.1 = c := H _ (encodeRune_inj _ c hv hc hch1)
  have hr2 : ch2.1 = c := H _ (encodeRune_inj _ c hv hc hch2)
  have hm1 : ch1 ∈ runes s := by rw [hL, hL3]; simp
  have hm2 : ch2 ∈ runes s := by rw [hL, hL3, hL5]; simp
  have hb1 : ch1.2 = encodeRune c := by
    have := ((runes_chunk s ch1 hm1).2.1 (by rw [hr1]; exact hc)).2
    rw [this, hr1]
  have hb2 : ch2.2 = encodeRune c := by
    have := ((runes_chunk s ch2 hm2).2.1 (by rw [hr2]; exact hc)).2
    rw [this, hr2]
  have hs := runes_flatMap s
  rw [hL, hL3, hL5] at hs
  simp only [List.flatMap_append, List.flatMap_cons, hb1, hb2] at hs
  exact ⟨L1.flatMap (fun ch => ch.2), L5.flatMap (fun ch => ch.2), by
    rw [← hs]; simp only [List.append_assoc]⟩

theorem flatMap_keep (f : Nat → GoString) (l : GoString) (h : ∀ y ∈ l, f y = [y]) :
    l.flatMap f = l := by
  induction l with
  | nil => rfl
  | cons a l ih =>
    rw [List.flatMap_cons, h a (List.mem_cons_self _ _),
      ih (fun y hy => h y (List.mem_cons_of_mem _ hy))]
    rfl

theorem encodeRune_length_high (c : Nat) (hc : 0x80 ≤ c) : 2 ≤ (encodeRune c).length := by
  unfold encodeRune
  split_ifs <;> simp
  omega

theorem compileDup_high (c : Nat) (hv : validRune c = true) (hc : 0x80 ≤ c) :
    compileDup (encodeRune c) = some (some (Regexp.dup [] c)) := by
  have hsp : ∀ y ∈ encodeRune c, isSpecial y = false := by
    intro y hy
    have h80 : 0x80 ≤ y := by
      rcases encodeRune_bytes c y hy with ⟨h1, _⟩ | h1 <;> omega
    simp only [isSpecial, Bool.or_eq_false_iff, decide_eq_false_iff_not]
    omega
  have hq : QuoteMeta (encodeRune c) = encodeRune c := by
    unfold QuoteMeta
    exact flatMap_keep _ _ (fun y hy => by simp [hsp y hy])
  have hne : encodeRune c ≠ [] := encodeRune_ne_nil c
  have hr : runes (encodeRune c ++ [0x7B, 0x32, 0x2C, 0x7D])
      = [(c, encodeRune c), (0x7B, [0x7B]), (0x32, [0x32]), (0x2C, [0x2C]), (0x7D, [0x7D])] := by
    rw [runes_encodeRune c hv]; rfl
  have hlen := encodeRune_length_high c hc
  have hval : validUTF8 (encodeRune c ++ [0x7B, 0x32, 0x2C, 0x7D]) = true := by
    rw [validUTF8, hr]
    simp only [List.all_cons, List.all_nil, Bool.and_true, Bool.and_eq_true, Bool.not_eq_true',
      Bool.and_eq_false_iff, decide_eq_false_iff_not]
    refine ⟨Or.inr (by omega), ?_, ?_, ?_, ?_⟩ <;> exact Or.inl (by decide)
  have h1 : c ≠ 0x5B := by omega
  have h2 : c ≠ 0x5C := by omega
  have h3 : c ≠ 0x7B := by omega
  have h4 : isSpecial c = false := by
    simp only [isSpecial, Bool.or_eq_false_iff, decide_eq_false_iff_not]
    omega
  have hM : MustCompile (encodeRune c ++ [0x7B, 0x32, 0x2C, 0x7D])
      = some (Regexp.dup [] c) := by
    unfold MustCompile
    rw [hval, hr]
    simp [parsePattern, parseLits, h1, h2, h3, h4]
  unfold compileDup
  rw [hq, if_pos hne, sprintf_dup, Option.some_bind, hM]
  rfl

theorem compileDup_rune (c : Nat) (hv : validRune c = true) :
    compileDup (encodeRune c) = some (some (Regexp.dup [] c)) := by
  by_cases hc : c < 0x80
  · have : encodeRune c = [c] := (encodeRune_eq_singleton c c).2 ⟨rfl, hc⟩
    rw [this]
    exact compileDup_single c hc
  · exact compileDup_high c hv (by omega)


theorem fold_only_self_ascii (d : Deps) (c : Nat) (hc : c < 0x80) (hl : isLower c = false)
    (htab : ∀ r, 0x80 ≤ r → 0x80 ≤ d.toLower r ∨ isLower (d.toLower r) = true) :
    ∀ r, runeToLower d r = c → r = c := by
  intro r hr
  unfold runeToLower at hr
  by_cases h : r < 0x80
  · rw [if_pos h] at hr
    split_ifs at hr with hu
    · exfalso
      subst hr
      simp only [isUpper, isLower, Bool.and_eq_true, decide_eq_true_eq, Bool.and_eq_false_iff,
        decide_eq_false_iff_not] at hu hl
      omega
    · exact hr
  · rw [if_neg h] at hr
    rcases htab r (by omega) with h1 | h1
    · omega
    · rw [hr, hl] at h1; simp at h1

/-! ## C3: runs of the separator -/

/-- C3 (as stated, refuted): with the one-character separator `a` and case folding the
input `xAax` comes out as `xaax`, the letter `A` being lowercased to the separator after
the duplicate-separator pass; with the separator U+FFFD, the replacement `Ã` and case
folding the input `! a` comes out as two U+FFFD and `a`, the lower case of a byte that
trimming cut off the replacement being written as U+FFFD; with the two-character separator
`ab` the input `abab` comes out as `abab`, two consecutive separators (the duplicate
pattern of C15). -/
theorem separator_run_counterexample :
    ((NewSlugifier.WordSeparator (B "a")).Slugify asciiDeps (B "xAax")).1 = some (B "xaax")
    ∧ B "a" ++ B "a" <:+: B "xaax"
    ∧ (((NewSlugifier.WordSeparator (encodeRune RuneError)).InvalidChar (B "Ã")).Slugify
        asciiDeps (B "! a")).1 = some (encodeRune RuneError ++ encodeRune RuneError ++ B "a")
    ∧ encodeRune RuneError ++ encodeRune RuneError
        <:+: encodeRune RuneError ++ encodeRune RuneError ++ B "a"
    ∧ ((NewSlugifier.WordSeparator (B "ab")).Slugify asciiDeps (B "abab")).1 = some (B "abab")
    ∧ B "ab" ++ B "ab" <:+: B "abab" :=
  ⟨by decide, ⟨B "x", B "x", rfl⟩, by decide, List.infix_append' [] _ _, by decide,
    List.infix_refl _⟩

/-- C3 (amended): for every configuration reached by calls on a zero value for which
`Slugify` returns, if the separator is one character `c`, ASCII or not, and either case
folding is disabled, or `c` is not U+FFFD and `unicode.ToLower` maps no other character
to `c`, the result never contains `cc`. -/
theorem no_separator_runs (d : Deps) (calls : List Call) (x out : GoString) (c : Nat)
    (hv : validRune c = true)
    (hsep : (({} : Slugifier).run d calls).wordSeparator.getD defaultWordSeparator
      = encodeRune c)
    (hfold : (({} : Slugifier).run d calls).skipToLower = true
      ∨ (c ≠ RuneError ∧ ∀ r, runeToLower d r = c → r = c))
    (hout : ((({} : Slugifier).run d calls).Slugify d x).1 = some out) :
    ¬ encodeRune c ++ encodeRune c <:+: out := by
  rw [slugify_eq_slugOf d _ (ready_run d calls _ ready_zero)] at hout
  generalize ({} : Slugifier).run d calls = s at hsep hfold hout
  rw [hsep] at hout
  unfold slugOf at hout
  rw [compileDup_rune c hv] at hout
  split at hout
  case h_2 => exact absurd hout (by simp)
  next re re2 _ hre2 =>
  cases Option.some.inj hre2
  simp only [passes, Option.some.injEq, Regexp.ReplaceAllString] at hout
  have htrim : ∀ (p : Nat → Bool) (l : GoString),
      encodeRune c ++ encodeRune c <:+: (l.dropWhile p).rdropWhile p →
        encodeRune c ++ encodeRune c <:+: l := fun p l h =>
    (h.trans (List.rdropWhile_prefix p _).isInfix).trans (List.dropWhile_suffix p).isInfix
  intro hin
  cases hsk : s.skipToLower
  · rw [hsk] at hout
    simp only [Bool.not_false, if_true] at hout
    subst hout
    rcases hfold with h | ⟨hne, H⟩
    · rw [hsk] at h; simp at h
    · exact replaceDup_no_double d c hv _ (htrim _ _ (ToLower_double_rune d c hv hne H _ hin))
  · rw [hsk] at hout
    simp only [Bool.not_true, Bool.false_eq_true, if_false] at hout
    subst hout
    exact replaceDup_no_double d c hv _ (htrim _ _ hin)

/-- C3 (amended) at work: separator and replacement `é` with case folding disabled on the
input `a!!!b  c`; separator `_` with case folding on the input `a __ b  _  c`. -/
theorem no_separator_runs_witness :
    (validRune 0xE9 = true
      ∧ (({} : Slugifier).run asciiDeps [Call.WordSeparator (B "é"), Call.InvalidChar (B "é"),
          Call.ToLower false]).wordSeparator.getD defaultWordSeparator = encodeRune 0xE9
      ∧ (({} : Slugifier).run asciiDeps [Call.WordSeparator (B "é"), Call.InvalidChar (B "é"),
          Call.ToLower false]).skipToLower = true
      ∧ ((({} : Slugifier).run asciiDeps [Call.WordSeparator (B "é"),
          Call.InvalidChar (B "é"), Call.ToLower false]).Slugify asciiDeps
            (B "a!!!b  c")).1 = some (B "aébéc")
      ∧ ¬ encodeRune 0xE9 ++ encodeRune 0xE9 <:+: B "aébéc")
    ∧ (validRune 0x5F = true
      ∧ (({} : Slugifier).run asciiDeps [Call.WordSeparator (B "_")]).wordSeparator.getD
          defaultWordSeparator = encodeRune 0x5F
      ∧ (0x5F ≠ RuneError ∧ ∀ r, runeToLower asciiDeps r = 0x5F → r = 0x5F)
      ∧ ((({} : Slugifier).run asciiDeps [Call.WordSeparator (B "_")]).Slugify asciiDeps
          (B "a __ b  _  c")).1 = some (B "a_b_c")
      ∧ ¬ encodeRune 0x5F ++ encodeRune 0x5F <:+: B "a_b_c") :=
  have hself : ∀ r, runeToLower asciiDeps r = 0x5F → r = 0x5F :=
    fold_only_self_ascii asciiDeps 0x5F (by decide) (by decide) asciiDeps_lower
  ⟨⟨by decide, by decide, by decide, by decide,
    no_separator_runs asciiDeps [Call.WordSeparator (B "é"), Call.InvalidChar (B "é"),
      Call.ToLower false] (B "a!!!b  c") (B "aébéc") 0xE9 (by decide) (by decide)
      (Or.inl (by decide)) (by decide)⟩,
   ⟨by decide, by decide, ⟨by decide, hself⟩, by decide,
    no_separator_runs asciiDeps [Call.WordSeparator (B "_")] (B "a __ b  _  c") (B "a_b_c")
      0x5F (by decide) (by decide) (Or.inr ⟨by decide, hself⟩) (by decide)⟩⟩

/-! ## Fields, Join and the invalid-character pass on ASCII text -/

theorem fieldsLoop_mem (p : Nat → Bool) (cs : List Chunk) (cur : GoString) :
    ∀ f ∈ fieldsLoop p cs cur, ∀ b ∈ f,
      b ∈ cur ∨ ∃ c ∈ cs, p c.1 = false ∧ b ∈ c.2 := by
  induction cs generalizing cur with
  | nil =>
    intro f hf b hb
    simp only [fieldsLoop] at hf
    split_ifs at hf
    · simp at hf
    · simp only [List.mem_singleton] at hf
      subst hf
      exact Or.inl hb
  | cons c cs ih =>
    intro f hf b hb
    simp only [fieldsLoop] at hf
    split_ifs at hf with h1 h2
    · rcases ih [] f hf b hb with h | ⟨c', hc', h⟩
      · simp at h
      · exact Or.inr ⟨c', List.mem_cons_of_mem _ hc', h⟩
    · rcases List.mem_cons.1 hf with rfl | hf
      · exact Or.inl hb
      · rcases ih [] f hf b hb with h | ⟨c', hc', h⟩
        · simp at h
        · exact Or.inr ⟨c', List.mem_cons_of_mem _ hc', h⟩
    · rcases ih (cur ++ c.2) f hf b hb with h | ⟨c', hc', h⟩
      · rcases List.mem_append.1 h with h | h
        · exact Or.inl h
        · exact Or.inr ⟨c, List.mem_cons_self _ _, by simpa using h1, h⟩
      · exact Or.inr ⟨c', List.mem_cons_of_mem _ hc', h⟩

theorem Fields_mem_ascii (s : GoString) (hs : ∀ b ∈ s, b < 0x80) :
    ∀ f ∈ Fields s, ∀ b ∈ f, b ∈ s ∧ isSpace b = false := by
  intro f hf b hb
  rcases fieldsLoop_mem isSpace (runes s) [] f hf b hb with h | ⟨c, hc, h1, h2⟩
  · simp at h
  · rw [runes_ascii s hs] at hc
    obtain ⟨b', hb', rfl⟩ := List.mem_map.1 hc
    simp only [List.mem_singleton] at h2
    subst h2
    exact ⟨hb', h1⟩

theorem mem_intercalate (sep : GoString) (fs : List GoString) (b : Nat)
    (h : b ∈ sep.intercalate fs) : b ∈ sep ∨ ∃ f ∈ fs, b ∈ f := by
  simp only [List.intercalate, List.mem_flatten] at h
  obtain ⟨l, hl, hb⟩ := h
  induction fs using List.intersperse.induct sep with
  | case1 => simp at hl
  | case2 x => simp at hl; subst hl; exact Or.inr ⟨_, List.mem_singleton_self _, hb⟩
  | case3 x y l' ih =>
    simp only [List.intersperse, List.mem_cons] at hl
    rcases hl with rfl | rfl | hl
    · exact Or.inr ⟨_, List.mem_cons_self _ _, hb⟩
    · exact Or.inl hb
    · rcases ih hl with h | ⟨f, hf, h⟩
      · exact Or.inl h
      · exact Or.inr ⟨f, List.mem_cons_of_mem _ hf, h⟩

theorem replaceInvalid_ascii (d : Deps) (items : List ClassItem) (s repl : GoString)
    (hs : ∀ b ∈ s, b < 0x80) :
    (Regexp.notIn items).ReplaceAllString d s repl
      = s.flatMap (fun b =>
          if items.any (fun i => i.contains b) then [b] else expand d repl [b]) := by
  simp only [Regexp.ReplaceAllString, runes_ascii s hs, List.flatMap_map]

theorem collapseRuns_subset (c : Nat) (s : GoString) : ∀ b ∈ collapseRuns c s, b ∈ s := by
  induction s using collapseRuns.induct c with
  | case1 => simp [collapseRuns]
  | case2 a => simp [collapseRuns]
  | case3 a b t h ih =>
    rw [collapseRuns, if_pos h]
    exact fun x hx => List.mem_cons_of_mem _ (ih x hx)
  | case4 a b t h ih =>
    rw [collapseRuns, if_neg h]
    intro x hx
    rcases List.mem_cons.1 hx with rfl | hx
    · exact List.mem_cons_self _ _
    · exact List.mem_cons_of_mem _ (ih x hx)

theorem compileDup_nil : compileDup [] = some none := rfl

theorem short_cases (k : GoString) (h1 : k.length ≤ 1) : k = [] ∨ ∃ c, k = [c] := by
  match k, h1 with
  | [], _ => exact Or.inl rfl
  | [c], _ => exact Or.inr ⟨c, rfl⟩
  | _ :: _ :: _, h => simp at h

theorem replaceAll_dup_single (d : Deps) (c : Nat) (hc : c < 0x80) (s : GoString) :
    (Regexp.dup [] c).ReplaceAllString d s [c] = collapseRuns c s :=
  replaceDup_single d c hc s

/-! ## C7: input of white space and invalid characters only -/

/-- C7 (code against its documentation): under the default allowed set the input `!` is
one invalid character, yet with the replacement `[?]` it comes out as `[?]` and with the
replacement `é` as `é`; the input `! !` comes out as `ab` when the separator is `ab`.
The trimming loops compare one byte of the text with the whole replacement or separator,
which the comment above them and the docstrings of `InvalidChar` and `WordSeparator` say are
trimmed. -/
theorem only_invalid_counterexample :
    compileInvalid (B "-") (B "a-zA-Z0-9")
      = some (Regexp.notIn [.range 45 45, .range 97 122, .range 65 90, .range 48 57])
    ∧ (∀ b ∈ B "!", isSpace b = true ∨
        [ClassItem.range 45 45, .range 97 122, .range 65 90, .range 48 57].any
          (fun i => i.contains b) = false)
    ∧ ((NewSlugifier.InvalidChar (B "[?]")).Slugify asciiDeps (B "!")).1 = some (B "[?]")
    ∧ ((NewSlugifier.InvalidChar (B "é")).Slugify asciiDeps (B "!")).1 = some (B "é")
    ∧ B "[?]" ≠ [] ∧ B "é" ≠ []
    ∧ compileInvalid (B "ab") (B "a-zA-Z0-9")
      = some (Regexp.notIn [.range 97 97, .range 98 98, .range 97 122, .range 65 90,
          .range 48 57])
    ∧ (∀ b ∈ B "! !", isSpace b = true ∨
        [ClassItem.range 97 97, .range 98 98, .range 97 122, .range 65 90, .range 48 57].any
          (fun i => i.contains b) = false)
    ∧ ((NewSlugifier.WordSeparator (B "ab")).Slugify asciiDeps (B "! !")).1 = some (B "ab")
    ∧ B "ab" ≠ [] := by
  refine ⟨by decide, by decide, by decide, by decide, by decide, by decide, by decide,
    by decide, by decide, by decide⟩

/-- Where the trimming loops do what their comment says: for every configuration reached
by calls on a zero value for which `Slugify` returns, if the separator and the replacement
are each empty or one ASCII character, and the transliterated input is ASCII text made
only of white space and of characters the invalid-character matcher matches, the result is
the empty string. -/
theorem only_invalid_gives_empty (d : Deps) (calls : List Call) (x out : GoString)
    (items : List ClassItem)
    (hws : ((({} : Slugifier).run d calls).wordSeparator.getD defaultWordSeparator).length ≤ 1)
    (hwa : ∀ b ∈ (({} : Slugifier).run d calls).wordSeparator.getD defaultWordSeparator,
      b < 0x80)
    (hrs : ((({} : Slugifier).run d calls).invalidCharReplacement.getD
      defaultInvalidCharReplacement).length ≤ 1)
    (hra : ∀ b ∈ (({} : Slugifier).run d calls).invalidCharReplacement.getD
      defaultInvalidCharReplacement, b < 0x80)
    (hre : compileInvalid ((({} : Slugifier).run d calls).wordSeparator.getD defaultWordSeparator)
      ((({} : Slugifier).run d calls).allowedSet.getD defaultAllowedSet)
        = some (Regexp.notIn items))
    (hT : ∀ b ∈ d.unidecode x, b < 0x80)
    (hinv : ∀ b ∈ d.unidecode x,
      isSpace b = true ∨ items.any (fun i => i.contains b) = false)
    (hout : ((({} : Slugifier).run d calls).Slugify d x).1 = some out) : out = [] := by
  rw [slugify_eq_slugOf d _ (ready_run d calls _ ready_zero)] at hout
  generalize ({} : Slugifier).run d calls = s at hws hwa hrs hra hre hout
  generalize s.wordSeparator.getD defaultWordSeparator = ws at hws hwa hre hout
  generalize s.invalidCharReplacement.getD defaultInvalidCharReplacement = icr
    at hrs hra hout
  unfold slugOf at hout
  rw [hre] at hout
  -- the text after the white-space pass
  have h2 : ∀ b ∈ Join (Fields (d.unidecode x)) ws,
      b < 0x80 ∧ (b ∈ ws ∨ items.any (fun i => i.contains b) = false) := by
    intro b hb
    rcases mem_intercalate ws _ b hb with h | ⟨f, hf, h⟩
    · exact ⟨hwa b h, Or.inl h⟩
    · obtain ⟨hbT, hsp⟩ := Fields_mem_ascii _ hT f hf b h
      refine ⟨hT b hbT, Or.inr ?_⟩
      rcases hinv b hbT with h1 | h1
      · rw [hsp] at h1; simp at h1
      · exact h1
  -- the text after the invalid-character pass
  have hexp : ∀ m, ∀ b ∈ expand d icr m, b ∈ icr := by
    intro m b hb
    rcases short_cases icr hrs with rfl | ⟨c, rfl⟩
    · simp [expand_nil] at hb
    · rw [expand_single] at hb; exact hb
  have h3 : ∀ b ∈ (Regexp.notIn items).ReplaceAllString d
      (Join (Fields (d.unidecode x)) ws) icr, b ∈ ws ∨ b ∈ icr := by
    intro b hb
    rw [replaceInvalid_ascii d items _ icr (fun b hb => (h2 b hb).1), List.mem_flatMap] at hb
    obtain ⟨a, ha, hb⟩ := hb
    split_ifs at hb with hin
    · simp only [List.mem_singleton] at hb
      subst hb
      rcases (h2 b ha).2 with h | h
      · exact Or.inl h
      · rw [h] at hin; simp at hin
    · exact Or.inr (hexp _ b hb)
  have hdrop : ∀ l : GoString, (∀ b ∈ l, b ∈ ws ∨ b ∈ icr) →
      l.dropWhile (fun b => decide (encodeRune b = ws) || decide (encodeRune b = icr)) = [] := by
    intro l hl
    rw [List.dropWhile_eq_nil_iff]
    intro b hb
    have hcase : ∀ k : GoString, k.length ≤ 1 → (∀ y ∈ k, y < 0x80) → b ∈ k →
        encodeRune b = k := by
      intro k hk1 hk2 hbk
      rcases short_cases k hk1 with rfl | ⟨c, rfl⟩
      · simp at hbk
      · simp only [List.mem_singleton] at hbk
        subst hbk
        exact (encodeRune_eq_singleton b b).2 ⟨rfl, hk2 b (by simp)⟩
    rcases hl b hb with h | h
    · simp [hcase ws hws hwa h]
    · simp [hcase icr hrs hra h]
  rcases short_cases ws hws with rfl | ⟨c, rfl⟩
  · rw [compileDup_nil] at hout
    simp only [passes, Option.some.injEq] at hout
    rw [hdrop _ h3] at hout
    simp only [List.rdropWhile_nil, ToLower_nil, ite_self] at hout
    exact hout.symm
  · rw [compileDup_single c (hwa c (by simp))] at hout
    simp only [passes, Option.some.injEq,
      replaceAll_dup_single d c (hwa c (by simp))] at hout
    rw [hdrop _ (fun b hb => h3 b (collapseRuns_subset c _ b hb))] at hout
    simp only [List.rdropWhile_nil, ToLower_nil, ite_self] at hout
    exact hout.symm

/-- The zero value on an input of white space and punctuation. -/
theorem only_invalid_gives_empty_witness :
    ((({} : Slugifier).run asciiDeps []).wordSeparator.getD defaultWordSeparator).length ≤ 1
    ∧ ((({} : Slugifier).run asciiDeps []).invalidCharReplacement.getD
        defaultInvalidCharReplacement).length ≤ 1
    ∧ compileInvalid ((({} : Slugifier).run asciiDeps []).wordSeparator.getD
          defaultWordSeparator)
        ((({} : Slugifier).run asciiDeps []).allowedSet.getD defaultAllowedSet)
        = some (Regexp.notIn [.range 45 45, .range 97 122, .range 65 90, .range 48 57])
    ∧ (∀ b ∈ asciiDeps.unidecode (B " ?! \t (#) "), isSpace b = true ∨
        [ClassItem.range 45 45, .range 97 122, .range 65 90, .range 48 57].any
          (fun i => i.contains b) = false)
    ∧ ((({} : Slugifier).run asciiDeps []).Slugify asciiDeps (B " ?! \t (#) ")).1 = some []
    ∧ ([] : GoString) = [] :=
  ⟨by decide, by decide, by decide, by decide, by decide,
    only_invalid_gives_empty asciiDeps [] (B " ?! \t (#) ") []
      [.range 45 45, .range 97 122, .range 65 90, .range 48 57]
      (by decide) (by decide) (by decide) (by decide) (by decide) (by decide) (by decide)
      (by decide)⟩

/-! ## Runs of letters and digits -/

theorem alnumRunsFrom_cons_other (b : Nat) (t acc : GoString) (hb : isAlnum b = false) :
    alnumRunsFrom (b :: t) acc = (if acc = [] then [] else [acc]) ++ alnumRunsFrom t [] := by
  simp only [alnumRunsFrom, hb, Bool.false_eq_true, if_false]
  split_ifs <;> rfl

theorem alnumRunsFrom_other (ds t acc : GoString) (hne : ds ≠ [])
    (hds : ∀ b ∈ ds, isAlnum b = false) :
    alnumRunsFrom (ds ++ t) acc = (if acc = [] then [] else [acc]) ++ alnumRunsFrom t [] := by
  induction ds generalizing acc with
  | nil => exact absurd rfl hne
  | cons b ds ih =>
    rw [List.cons_append, alnumRunsFrom_cons_other b _ acc (hds b (List.mem_cons_self _ _))]
    by_cases h0 : ds = []
    · subst h0; rfl
    · rw [ih [] h0 (fun x hx => hds x (List.mem_cons_of_mem _ hx))]
      simp

theorem alnumRunsFrom_cons_alnum (b : Nat) (t acc : GoString) (hb : isAlnum b = true) :
    alnumRunsFrom (b :: t) acc = alnumRunsFrom t (acc ++ [b]) := by
  rw [alnumRunsFrom, if_pos hb]

theorem alnumRunsFrom_congr (X Y : GoString)
    (h : ∀ acc, alnumRunsFrom X acc = alnumRunsFrom Y acc) (cur acc : GoString) :
    alnumRunsFrom (cur ++ X) acc = alnumRunsFrom (cur ++ Y) acc := by
  induction cur generalizing acc with
  | nil => exact h acc
  | cons b cur ih =>
    rw [List.cons_append, List.cons_append]
    by_cases hb : isAlnum b = true
    · rw [alnumRunsFrom_cons_alnum b _ acc hb, alnumRunsFrom_cons_alnum b _ acc hb]
      exact ih _
    · simp only [Bool.not_eq_true] at hb
      rw [alnumRunsFrom_cons_other b _ acc hb, alnumRunsFrom_cons_other b _ acc hb, ih []]

theorem alnumRunsFrom_alnum (w t acc : GoString) (hw : ∀ b ∈ w, isAlnum b = true) :
    alnumRunsFrom (w ++ t) acc = alnumRunsFrom t (acc ++ w) := by
  induction w generalizing acc with
  | nil => simp
  | cons b w ih =>
    rw [List.cons_append, alnumRunsFrom_cons_alnum b _ acc (hw b (List.mem_cons_self _ _)),
      ih _ (fun x hx => hw x (List.mem_cons_of_mem _ hx))]
    simp

theorem Join_nil (sep : GoString) : Join [] sep = [] := rfl

theorem Join_cons (x : GoString) (F : List GoString) (sep : GoString) :
    Join (x :: F) sep = x ++ (if F = [] then [] else sep ++ Join F sep) := by
  cases F with
  | nil => simp [Join, List.intercalate, List.intersperse]
  | cons y F => simp [Join, List.intercalate, List.intersperse]

theorem isSpace_not_alnum (b : Nat) (h : isSpace b = true) : isAlnum b = false := by
  simp only [isSpace, Bool.or_eq_true, Bool.and_eq_true, decide_eq_true_eq] at h
  simp only [isAlnum, isDigit, isUpper, isLower, Bool.or_eq_false_iff, Bool.and_eq_false_iff,
    decide_eq_false_iff_not]
  omega

theorem high_not_alnum (b : Nat) (h : 0x80 ≤ b) : isAlnum b = false := by
  simp only [isAlnum, isDigit, isUpper, isLower, Bool.or_eq_false_iff, Bool.and_eq_false_iff,
    decide_eq_false_iff_not]
  omega

/-- The white-space pass with the separator `-` keeps the runs of letters and digits. -/
theorem alnumRuns_fields (t : GoString) :
    ∀ cur, alnumRunsFrom (Join (fieldsLoop isSpace (runes t) cur) (B "-")) []
      = alnumRunsFrom (cur ++ t) [] := by
  have hdash : ∀ b ∈ B "-", isAlnum b = false := by decide
  have key : ∀ (r : Nat) (bs rest : GoString), bs ≠ [] → (∀ b ∈ bs, isAlnum b = false) →
      (∀ cur, alnumRunsFrom (Join (fieldsLoop isSpace (runes rest) cur) (B "-")) []
        = alnumRunsFrom (cur ++ rest) []) →
      ∀ cur, alnumRunsFrom (Join (if cur = [] then fieldsLoop isSpace (runes rest) []
          else cur :: fieldsLoop isSpace (runes rest) []) (B "-")) []
        = alnumRunsFrom (cur ++ (bs ++ rest)) [] := by
    intro r bs rest hne hbs ih cur
    have ih0 := ih []
    rw [List.nil_append] at ih0
    by_cases hcur : cur = []
    · subst hcur
      rw [if_pos rfl, ih0, List.nil_append, alnumRunsFrom_other bs rest [] hne hbs]
      rfl
    · rw [if_neg hcur, Join_cons]
      apply alnumRunsFrom_congr
      intro acc
      rw [alnumRunsFrom_other bs rest acc hne hbs]
      by_cases hF : fieldsLoop isSpace (runes rest) [] = []
      · rw [if_pos hF, ← ih0, hF, Join_nil]
        simp only [alnumRunsFrom]
        split_ifs <;> rfl
      · rw [if_neg hF, alnumRunsFrom_other (B "-") _ acc (by decide) hdash, ih0]
  induction t using runes_induction with
  | hnil =>
    intro cur
    simp only [runes_nil, fieldsLoop, List.append_nil]
    split_ifs with h
    · subst h; rfl
    · rw [Join_cons]; simp
  | hascii b t hb ih =>
    intro cur
    rw [runes_cons_ascii b t hb, fieldsLoop]
    by_cases hsp : isSpace b = true
    · simp only [hsp, if_true]
      have := key b [b] t (by simp) (by simpa using isSpace_not_alnum b hsp) ih cur
      simpa using this
    · simp only [hsp, Bool.false_eq_true, if_false]
      rw [ih (cur ++ [b])]
      simp
  | hhigh r bs rest hr hne hbs hrunes ih =>
    intro cur
    rw [hrunes, fieldsLoop]
    by_cases hsp : isSpace r = true
    · simp only [hsp, if_true]
      exact key r bs rest hne (fun b hb => high_not_alnum b (hbs b hb)) ih cur
    · simp only [hsp, Bool.false_eq_true, if_false]
      rw [ih (cur ++ bs)]
      simp

/-! ## The invalid-character pass under the default configuration -/

theorem compileInvalid_default :
    compileInvalid (B "-") (B "a-zA-Z0-9") = some (Regexp.notIn defaultClass) := by
  decide

theorem defaultClass_contains (r : Nat) :
    defaultClass.any (fun i => i.contains r) = (isAlnum r || decide (r = 0x2D)) := by
  simp only [defaultClass, List.any_cons, List.any_nil, ClassItem.contains, isAlnum, isDigit,
    isUpper, isLower, Bool.or_false]
  by_cases h1 : r = 0x2D
  · subst h1; rfl
  · have : (decide (0x2D ≤ r) && decide (r ≤ 0x2D)) = false := by
      simp only [Bool.and_eq_false_iff, decide_eq_false_iff_not]; omega
    rw [this]
    simp only [h1, decide_False, Bool.or_false, Bool.false_or]
    cases (decide (0x61 ≤ r) && decide (r ≤ 0x7A)) <;>
      cases (decide (0x41 ≤ r) && decide (r ≤ 0x5A)) <;>
      cases (decide (0x30 ≤ r) && decide (r ≤ 0x39)) <;> rfl

theorem replaceInvalid_cons_ascii (d : Deps) (items : List ClassItem) (b : Nat)
    (t repl : GoString) (hb : b < 0x80) :
    (Regexp.notIn items).ReplaceAllString d (b :: t) repl
      = (if items.any (fun i => i.contains b) then [b] else expand d repl [b])
        ++ (Regexp.notIn items).ReplaceAllString d t repl := by
  simp only [Regexp.ReplaceAllString, runes_cons_ascii b t hb, List.flatMap_cons]

theorem replaceInvalid_high (d : Deps) (items : List ClassItem) (r : Nat)
    (bs rest repl : GoString) (hrunes : runes (bs ++ rest) = (r, bs) :: runes rest) :
    (Regexp.notIn items).ReplaceAllString d (bs ++ rest) repl
      = (if items.any (fun i => i.contains r) then bs else expand d repl bs)
        ++ (Regexp.notIn items).ReplaceAllString d rest repl := by
  simp only [Regexp.ReplaceAllString, hrunes, List.flatMap_cons]

/-- Under the default configuration the invalid-character pass keeps the runs of letters
and digits and leaves only letters, digits and `-`. -/
theorem replaceInvalid_default (d : Deps) (s : GoString) :
    (∀ acc, alnumRunsFrom ((Regexp.notIn defaultClass).ReplaceAllString d s (B "-")) acc
        = alnumRunsFrom s acc)
    ∧ ∀ b ∈ (Regexp.notIn defaultClass).ReplaceAllString d s (B "-"),
        isAlnum b = true ∨ b = 0x2D := by
  have hexp : ∀ m, expand d (B "-") m = [0x2D] := fun m => expand_single d 0x2D m
  have hdash : isAlnum 0x2D = false := by decide
  induction s using runes_induction with
  | hnil =>
    refine ⟨fun acc => rfl, fun b hb => ?_⟩
    simp [Regexp.ReplaceAllString, runes_nil] at hb
  | hascii b t hb ih =>
    rw [replaceInvalid_cons_ascii d _ b t _ hb, defaultClass_contains, hexp]
    by_cases hal : isAlnum b = true
    · simp only [hal, Bool.true_or, if_true, List.singleton_append]
      refine ⟨fun acc => ?_, fun x hx => ?_⟩
      · rw [alnumRunsFrom_cons_alnum b _ acc hal, alnumRunsFrom_cons_alnum b _ acc hal, ih.1]
      · rcases List.mem_cons.1 hx with rfl | hx
        · exact Or.inl hal
        · exact ih.2 x hx
    · simp only [Bool.not_eq_true] at hal
      refine ⟨fun acc => ?_, fun x hx => ?_⟩
      · rw [alnumRunsFrom_cons_other b t acc hal]
        by_cases hin : (isAlnum b || decide (b = 0x2D)) = true
        · rw [if_pos hin, List.singleton_append, alnumRunsFrom_cons_other b _ acc hal, ih.1]
        · rw [if_neg hin, List.singleton_append, alnumRunsFrom_cons_other _ _ acc hdash, ih.1]
      · rcases List.mem_append.1 hx with hx | hx
        · right
          split_ifs at hx with h1
          · simp only [hal, Bool.false_or, decide_eq_true_eq] at h1
            simpa [h1] using hx
          · simpa using hx
        · exact ih.2 x hx
  | hhigh r bs rest hr hne hbs hrunes ih =>
    rw [replaceInvalid_high d _ r bs rest _ hrunes, defaultClass_contains, hexp]
    have h1 : (isAlnum r || decide (r = 0x2D)) = false := by
      rw [high_not_alnum r hr]
      simp only [Bool.false_or, decide_eq_false_iff_not]
      omega
    simp only [h1, Bool.false_eq_true, if_false, List.singleton_append]
    refine ⟨fun acc => ?_, fun x hx => ?_⟩
    · rw [alnumRunsFrom_cons_other _ _ acc hdash,
        alnumRunsFrom_other bs rest acc hne (fun b hb => high_not_alnum b (hbs b hb)), ih.1]
    · rcases List.mem_cons.1 hx with rfl | hx
      · exact Or.inr rfl
      · exact ih.2 x hx

/-! ## Collapsing and trimming text of letters, digits and `-` -/

theorem rdropWhile_append (p : Nat → Bool) (l r : GoString) :
    (l ++ r).rdropWhile p
      = if r.rdropWhile p = [] then l.rdropWhile p else l ++ r.rdropWhile p := by
  simp only [List.rdropWhile, List.reverse_append, List.dropWhile_append, List.reverse_eq_nil_iff,
    List.isEmpty_eq_true]
  split_ifs <;> simp

theorem trim_of_none (p : Nat → Bool) (l : GoString) (h : ∀ b ∈ l, p b = false) :
    l.dropWhile p = l ∧ l.rdropWhile p = l := by
  constructor
  · cases l with
    | nil => rfl
    | cons a l => rw [List.dropWhile_cons_of_neg]; simp [h a (List.mem_cons_self _ _)]
  · rw [List.rdropWhile_eq_self_iff]
    intro hl
    simp [h _ (List.getLast_mem hl)]

theorem collapseRuns_cons_self (c : Nat) (t : GoString) :
    collapseRuns c (c :: t)
      = c :: (collapseRuns c t).dropWhile (fun b => decide (b = c)) := by
  induction t with
  | nil => rfl
  | cons b t ih =>
    by_cases hb : b = c
    · subst hb
      rw [collapseRuns, if_pos ⟨rfl, rfl⟩, ih, List.dropWhile_cons_of_pos (by simp),
        List.dropWhile_idempotent]
    · rw [collapseRuns, if_neg (fun h => hb h.2), collapseRuns_cons_ne c b t hb,
        List.dropWhile_cons_of_neg (by simpa using hb)]

theorem alnumRunsFrom_ne_nil (s : GoString) : ∀ acc, ∀ w ∈ alnumRunsFrom s acc, w ≠ [] := by
  induction s with
  | nil =>
    intro acc w hw
    simp only [alnumRunsFrom] at hw
    split_ifs at hw with h
    · simp at hw
    · simp only [List.mem_singleton] at hw; subst hw; exact h
  | cons b t ih =>
    intro acc w hw
    by_cases hb : isAlnum b = true
    · rw [alnumRunsFrom_cons_alnum b t acc hb] at hw
      exact ih _ w hw
    · simp only [Bool.not_eq_true] at hb
      rw [alnumRunsFrom_cons_other b t acc hb] at hw
      rcases List.mem_append.1 hw with hw | hw
      · split_ifs at hw with h
        · simp at hw
        · simp only [List.mem_singleton] at hw; subst hw; exact h
      · exact ih _ w hw

theorem alnumRunsFrom_alnum_words (s : GoString) :
    ∀ acc, (∀ b ∈ acc, isAlnum b = true) →
      ∀ w ∈ alnumRunsFrom s acc, ∀ b ∈ w, isAlnum b = true := by
  induction s with
  | nil =>
    intro acc hacc w hw
    simp only [alnumRunsFrom] at hw
    split_ifs at hw with h
    · simp at hw
    · simp only [List.mem_singleton] at hw; subst hw; exact hacc
  | cons b t ih =>
    intro acc hacc w hw
    by_cases hb : isAlnum b = true
    · rw [alnumRunsFrom_cons_alnum b t acc hb] at hw
      refine ih _ (fun x hx => ?_) w hw
      rcases List.mem_append.1 hx with hx | hx
      · exact hacc x hx
      · simp only [List.mem_singleton] at hx; subst hx; exact hb
    · simp only [Bool.not_eq_true] at hb
      rw [alnumRunsFrom_cons_other b t acc hb] at hw
      rcases List.mem_append.1 hw with hw | hw
      · split_ifs at hw with h
        · simp at hw
        · simp only [List.mem_singleton] at hw; subst hw; exact hacc
      · exact ih [] (by simp) w hw

theorem Join_eq_nil (W : List GoString) (sep : GoString) (hW : ∀ w ∈ W, w ≠ [])
    (h : Join W sep = []) : W = [] := by
  cases W with
  | nil => rfl
  | cons w W =>
    rw [Join_cons] at h
    exact absurd (List.append_eq_nil.1 h).1 (hW w (List.mem_cons_self _ _))

/-- Text of letters, digits and `-`: collapsing the runs of `-` and trimming `-` at both
ends leaves the runs of letters and digits joined by one `-`. -/
theorem trim_collapse (s : GoString) :
    ∀ acc, (∀ b ∈ acc, isAlnum b = true) → (∀ b ∈ s, isAlnum b = true ∨ b = 0x2D) →
      ((acc ++ collapseRuns 0x2D s).dropWhile (fun b => decide (b = 0x2D))).rdropWhile
          (fun b => decide (b = 0x2D))
        = Join (alnumRunsFrom s acc) (B "-") := by
  have hp : ∀ acc : GoString, (∀ b ∈ acc, isAlnum b = true) →
      ∀ b ∈ acc, (fun b => decide (b = 0x2D)) b = false := by
    intro acc hacc b hb
    have := hacc b hb
    simp only [decide_eq_false_iff_not]
    rintro rfl
    simp [isAlnum, isDigit, isUpper, isLower] at this
  induction s with
  | nil =>
    intro acc hacc _
    obtain ⟨h1, h2⟩ := trim_of_none _ acc (hp acc hacc)
    rw [collapseRuns, List.append_nil, h1, h2, alnumRunsFrom]
    split_ifs with h
    · subst h; rfl
    · rw [Join_cons]; simp
  | cons b t ih =>
    intro acc hacc hs
    have hs' : ∀ x ∈ t, isAlnum x = true ∨ x = 0x2D := fun x hx =>
      hs x (List.mem_cons_of_mem _ hx)
    rcases hs b (List.mem_cons_self _ _) with hal | rfl
    · have hne : b ≠ 0x2D := by
        rintro rfl; simp [isAlnum, isDigit, isUpper, isLower] at hal
      rw [collapseRuns_cons_ne _ b t hne, alnumRunsFrom_cons_alnum b t acc hal,
        ← ih (acc ++ [b]) _ hs']
      · simp
      · intro x hx
        rcases List.mem_append.1 hx with hx | hx
        · exact hacc x hx
        · simp only [List.mem_singleton] at hx; subst hx; exact hal
    · have ih0 := ih [] (by simp) hs'
      rw [List.nil_append] at ih0
      rw [collapseRuns_cons_self, alnumRunsFrom_cons_other _ t acc (by decide)]
      cases acc with
      | nil =>
        rw [List.nil_append, List.dropWhile_cons_of_pos (by simp), List.dropWhile_idempotent,
          ih0]
        rfl
      | cons a acc =>
        have ha : (fun b => decide (b = 0x2D)) a = false :=
          hp _ hacc a (List.mem_cons_self _ _)
        have hacc2 := (trim_of_none _ (a :: acc) (hp _ hacc)).2
        rw [List.cons_append, List.dropWhile_cons_of_neg (by simpa using ha),
          ← List.cons_append, rdropWhile_append, ← List.singleton_append, rdropWhile_append,
          ih0]
        simp only [if_neg (List.cons_ne_nil a acc), List.singleton_append, List.cons_append,
          List.nil_append]
        by_cases hJ : Join (alnumRunsFrom t []) (B "-") = []
        · have hW := Join_eq_nil _ _ (alnumRunsFrom_ne_nil t []) hJ
          rw [hJ, hW]
          simp only [if_true, List.rdropWhile_singleton, decide_True]
          rw [hacc2, Join_cons]
          simp
        · have hW : alnumRunsFrom t [] ≠ [] := by
            intro h0; rw [h0] at hJ; exact hJ rfl
          rw [if_neg hJ, if_neg (by simp), Join_cons, if_neg hW]
          rfl

/-! ## C1: the default configuration against the reference definition -/

theorem runeToLower_eq_lowerByte (d : Deps) (b : Nat) (hb : b < 0x80) :
    runeToLower d b = lowerByte b := by
  simp only [runeToLower, lowerByte, hb, if_true]

theorem ToLower_ascii (d : Deps) (s : GoString) (hs : ∀ b ∈ s, b < 0x80) :
    ToLower d s = s.map lowerByte := by
  induction s with
  | nil => rfl
  | cons b t ih =>
    have hb := hs b (List.mem_cons_self _ _)
    rw [ToLower_cons_ascii d b t hb, runeToLower_eq_lowerByte d b hb,
      ih (fun x hx => hs x (List.mem_cons_of_mem _ hx))]
    rfl

theorem map_Join (f : Nat → Nat) (W : List GoString) (sep : GoString) :
    (Join W sep).map f = Join (W.map (List.map f)) (sep.map f) := by
  induction W with
  | nil => rfl
  | cons w W ih =>
    rw [Join_cons, List.map_cons, Join_cons, List.map_append]
    by_cases h : W = []
    · subst h; simp
    · have h' : W.map (List.map f) ≠ [] := by simpa using h
      rw [if_neg h, if_neg h', List.map_append, ih]

theorem alnum_lt (b : Nat) (h : isAlnum b = true) : b < 0x80 := by
  by_contra hb
  rw [high_not_alnum b (by omega)] at h
  simp at h

theorem Join_alnum_mem (W : List GoString) (hW : ∀ w ∈ W, ∀ b ∈ w, isAlnum b = true) :
    ∀ b ∈ Join W (B "-"), isAlnum b = true ∨ b = 0x2D := by
  intro b hb
  rcases mem_intercalate _ _ b hb with h | ⟨w, hw, h⟩
  · right; simpa [B, encodeRune] using h
  · exact Or.inl (hW w hw b h)

theorem trim_pred_default :
    (fun b => decide (encodeRune b = B "-") || decide (encodeRune b = B "-"))
      = fun b => decide (b = 0x2D) := by
  funext b
  have h : B "-" = [0x2D] := rfl
  rw [h, Bool.or_self]
  by_cases hb : b = 0x2D
  · subst hb; rfl
  · have : ¬ encodeRune b = [0x2D] := fun h0 => hb ((encodeRune_eq_singleton b 0x2D).1 h0).1
    simp [hb, this]

/-- What `Slugify` returns under the default knob values is the reference slug of the
transliterated text. -/
theorem slugOf_default (d : Deps) (x : GoString) :
    slugOf d false (B "-") (B "-") (B "a-zA-Z0-9") x = some (referenceSlug (d.unidecode x)) := by
  have hdup : compileDup (B "-") = some (some (Regexp.dup [] 0x2D)) :=
    compileDup_single 0x2D (by decide)
  have hB : B "-" = [0x2D] := rfl
  unfold slugOf
  rw [compileInvalid_default, hdup]
  simp only [passes, Bool.not_false, if_true]
  rw [trim_pred_default]
  refine congrArg some ?_
  have hcol : ∀ s, (Regexp.dup [] 0x2D).ReplaceAllString d s (B "-") = collapseRuns 0x2D s :=
    fun s => replaceAll_dup_single d 0x2D (by decide) s
  rw [hcol]
  obtain ⟨h1, h2⟩ := replaceInvalid_default d (Join (Fields (d.unidecode x)) (B "-"))
  have h3 := trim_collapse _ [] (by simp) h2
  have hA : alnumRunsFrom (Join (Fields (d.unidecode x)) (B "-")) []
      = alnumRunsFrom (d.unidecode x) [] := alnumRuns_fields (d.unidecode x) []
  rw [List.nil_append, h1 [], hA] at h3
  rw [h3, referenceSlug, alnumRuns]
  have hwords := alnumRunsFrom_alnum_words (d.unidecode x) [] (by simp)
  rw [ToLower_ascii d _ (fun b hb => ?_), map_Join]
  · rfl
  · rcases Join_alnum_mem _ hwords b hb with h | h
    · exact alnum_lt b h
    · omega

theorem ready_new : NewSlugifier.Ready := by
  intro h
  simp [NewSlugifier, Slugifier.WordSeparator, Slugifier.InvalidChar] at h

/-- C1: under the default configuration `Slugify(x)` is the reference slug of the
transliterated text: its maximal runs of ASCII letters and digits, in lower case, joined
by one `-` (empty when there is no run); with the two examples of the tests. -/
theorem slugify_default_eq_reference :
    (∀ (d : Deps) (x : GoString),
      (NewSlugifier.Slugify d x).1 = some (referenceSlug (d.unidecode x)))
    ∧ (NewSlugifier.Slugify asciiDeps (B "This -- is a ## test ---")).1
        = some (B "this-is-a-test")
    ∧ (NewSlugifier.Slugify asciiDeps (B "___This is a test___")).1
        = some (B "this-is-a-test") := by
  refine ⟨fun d x => ?_, by decide, by decide⟩
  rw [slugify_eq_slugOf d _ ready_new]
  exact slugOf_default d x

/-! ## C4: idempotence under the default configuration -/

theorem alnumRunsFrom_Join (W : List GoString) (hne : ∀ w ∈ W, w ≠ [])
    (hal : ∀ w ∈ W, ∀ b ∈ w, isAlnum b = true) :
    alnumRunsFrom (Join W (B "-")) [] = W := by
  induction W with
  | nil => rfl
  | cons w W ih =>
    have hw := hne w (List.mem_cons_self _ _)
    rw [Join_cons, alnumRunsFrom_alnum w _ [] (hal w (List.mem_cons_self _ _)), List.nil_append]
    by_cases h : W = []
    · subst h
      rw [if_pos rfl, alnumRunsFrom, if_neg hw]
    · rw [if_neg h, alnumRunsFrom_other (B "-") _ w (by decide) (by decide), if_neg hw,
        ih (fun x hx => hne x (List.mem_cons_of_mem _ hx))
          (fun x hx => hal x (List.mem_cons_of_mem _ hx))]
      rfl

theorem lowerByte_alnum (b : Nat) (h : isAlnum b = true) : isAlnum (lowerByte b) = true := by
  simp only [lowerByte]
  split_ifs with hu
  · simp only [isAlnum, isDigit, isUpper, isLower, Bool.or_eq_true, Bool.and_eq_true,
      decide_eq_true_eq] at *
    omega
  · exact h

theorem lowerByte_idem (b : Nat) : lowerByte (lowerByte b) = lowerByte b := by
  simp only [lowerByte]
  split_ifs with h1 h2
  · simp only [isUpper, Bool.and_eq_true, decide_eq_true_eq] at *
    omega
  · rfl
  · rfl

/-- The reference slug of a reference slug is that slug; a reference slug is ASCII. -/
theorem referenceSlug_idem (t : GoString) :
    referenceSlug (referenceSlug t) = referenceSlug t
      ∧ ∀ b ∈ referenceSlug t, b < 0x80 := by
  have hne : ∀ w ∈ (alnumRuns t).map (fun w => w.map lowerByte), w ≠ [] := by
    intro w hw
    obtain ⟨v, hv, rfl⟩ := List.mem_map.1 hw
    simpa using alnumRunsFrom_ne_nil t [] v hv
  have hal : ∀ w ∈ (alnumRuns t).map (fun w => w.map lowerByte),
      ∀ b ∈ w, isAlnum b = true := by
    intro w hw b hb
    obtain ⟨v, hv, rfl⟩ := List.mem_map.1 hw
    obtain ⟨a, ha, rfl⟩ := List.mem_map.1 hb
    exact lowerByte_alnum a (alnumRunsFrom_alnum_words t [] (by simp) v hv a ha)
  constructor
  · conv_lhs => rw [referenceSlug, alnumRuns]
    rw [referenceSlug, alnumRunsFrom_Join _ hne hal, List.map_map]
    congr 1
    apply List.map_congr_left
    intro w _
    simp only [Function.comp, List.map_map]
    apply List.map_congr_left
    intro b _
    exact lowerByte_idem b
  · intro b hb
    rcases Join_alnum_mem _ hal b hb with h | h
    · exact alnum_lt b h
    · omega

/-- C4: under the default configuration, the transliterator returning ASCII text
unchanged, `Slugify` applied to its own result returns that result, on the same
Slugifier as well as on a new one. -/
theorem slugify_idempotent (d : Deps) (x : GoString)
    (hU : ∀ t : GoString, (∀ b ∈ t, b < 0x80) → d.unidecode t = t) :
    ∃ out, (NewSlugifier.Slugify d x).1 = some out
      ∧ ((NewSlugifier.Slugify d x).2.Slugify d out).1 = some out
      ∧ (NewSlugifier.Slugify d out).1 = some out := by
  obtain ⟨hid, hasc⟩ := referenceSlug_idem (d.unidecode x)
  have hfix : slugOf d false (B "-") (B "-") (B "a-zA-Z0-9") (referenceSlug (d.unidecode x))
      = some (referenceSlug (d.unidecode x)) := by
    rw [slugOf_default, hU _ hasc, hid]
  refine ⟨referenceSlug (d.unidecode x), ?_, ?_, ?_⟩
  · rw [slugify_eq_slugOf d _ ready_new]; exact slugOf_default d x
  · have hready : (NewSlugifier.step d (Call.Slugify x)).Ready := ready_step d _ _ ready_new
    obtain ⟨h1, h2, h3, h4⟩ := step_knobs d NewSlugifier (Call.Slugify x) (some true)
      (some (B "-")) (some (B "-")) none rfl rfl rfl rfl
    have h1' : (NewSlugifier.step d (Call.Slugify x)).skipToLower = false := by
      simpa [lastToLower] using h1
    change ((NewSlugifier.step d (Call.Slugify x)).Slugify d _).1 = _
    rw [slugify_eq_slugOf d _ hready, ← h2, ← h3, ← h4, h1']
    exact hfix
  · rw [slugify_eq_slugOf d _ ready_new]; exact hfix

/-- C4 at work: the transliterator of the examples, input `  A -- b!`. -/
theorem slugify_idempotent_witness :
    (∀ t : GoString, (∀ b ∈ t, b < 0x80) → asciiDeps.unidecode t = t)
    ∧ ∃ out, (NewSlugifier.Slugify asciiDeps (B "  A -- b!")).1 = some out
      ∧ ((NewSlugifier.Slugify asciiDeps (B "  A -- b!")).2.Slugify asciiDeps out).1 = some out
      ∧ (NewSlugifier.Slugify asciiDeps out).1 = some out :=
  have h : ∀ t : GoString, (∀ b ∈ t, b < 0x80) → asciiDeps.unidecode t = t := by
    intro t ht
    simp only [asciiDeps, List.filter_eq_self, decide_eq_true_eq]
    exact ht
  ⟨h, slugify_idempotent asciiDeps (B "  A -- b!") h⟩

/-! ## C10: separator `*`, replacement `#` -/

theorem fieldsLoop_no_space (s : GoString) (hs : ∀ y ∈ s, isSpace y = false) :
    ∀ cur, fieldsLoop isSpace (s.map (fun b => (b, [b]))) cur
      = if cur ++ s = [] then [] else [cur ++ s] := by
  induction s with
  | nil => intro cur; simp [fieldsLoop]
  | cons b t ih =>
    intro cur
    rw [List.map_cons, fieldsLoop, if_neg (by simp [hs b (List.mem_cons_self _ _)]),
      ih (fun y hy => hs y (List.mem_cons_of_mem _ hy))]
    simp

theorem Fields_no_space (s : GoString) (hs : ∀ y ∈ s, y < 0x80 ∧ isSpace y = false)
    (hne : s ≠ []) : Fields s = [s] := by
  rw [Fields, runes_ascii s (fun y hy => (hs y hy).1),
    fieldsLoop_no_space s (fun y hy => (hs y hy).2) [], List.nil_append, if_neg hne]

theorem compileInvalid_star :
    compileInvalid (B "*") (B "a-zA-Z0-9")
      = some (Regexp.notIn [.range 0x2A 0x2A, .range 0x61 0x7A, .range 0x41 0x5A,
          .range 0x30 0x39]) := by
  decide

theorem starClass_contains (r : Nat) :
    [ClassItem.range 0x2A 0x2A, .range 0x61 0x7A, .range 0x41 0x5A, .range 0x30 0x39].any
      (fun i => i.contains r) = (isAlnum r || decide (r = 0x2A)) := by
  simp only [List.any_cons, List.any_nil, ClassItem.contains, isAlnum, isDigit,
    isUpper, isLower, Bool.or_false]
  by_cases h1 : r = 0x2A
  · subst h1; rfl
  · have : (decide (0x2A ≤ r) && decide (r ≤ 0x2A)) = false := by
      simp only [Bool.and_eq_false_iff, decide_eq_false_iff_not]; omega
    rw [this]
    simp only [h1, decide_False, Bool.or_false, Bool.false_or]
    cases (decide (0x61 ≤ r) && decide (r ≤ 0x7A)) <;>
      cases (decide (0x41 ≤ r) && decide (r ≤ 0x5A)) <;>
      cases (decide (0x30 ≤ r) && decide (r ≤ 0x39)) <;> rfl

theorem trim_pred_star :
    (fun b => decide (encodeRune b = B "*") || decide (encodeRune b = B "#"))
      = fun b => decide (b = 0x2A) || decide (b = 0x23) := by
  funext b
  have h1 : B "*" = [0x2A] := rfl
  have h2 : B "#" = [0x23] := rfl
  rw [h1, h2]
  congr 1
  · simp only [encodeRune_eq_singleton, decide_eq_decide]
    constructor
    · exact fun h => h.1
    · exact fun h => ⟨h, by omega⟩
  · simp only [encodeRune_eq_singleton, decide_eq_decide]
    constructor
    · exact fun h => h.1
    · exact fun h => ⟨h, by omega⟩

/-- With separator `*` and replacement `#`: an ASCII text without white space goes
through the passes as follows, when what is left starts and ends with a letter or digit
and holds no uppercase letter. -/
theorem slugOf_star (d : Deps) (sk : Bool) (x R : GoString) (h l : Nat)
    (hU : d.unidecode x = x)
    (hx : ∀ y ∈ x, y < 0x80 ∧ isSpace y = false) (hne : x ≠ [])
    (hR : collapseRuns 0x2A
        (x.flatMap (fun y => if (isAlnum y || decide (y = 0x2A)) then [y] else [0x23])) = R)
    (hhead : R.head? = some h) (hh : isAlnum h = true)
    (hlast : R.getLast? = some l) (hl : isAlnum l = true)
    (hlow : ∀ y ∈ R, y < 0x80 ∧ isUpper y = false) :
    slugOf d sk (B "*") (B "#") (B "a-zA-Z0-9") x = some R := by
  have hdup : compileDup (B "*") = some (some (Regexp.dup [] 0x2A)) :=
    compileDup_single 0x2A (by decide)
  have hexp : ∀ m, expand d (B "#") m = [0x23] := fun m => expand_single d 0x23 m
  have hcol : ∀ s, (Regexp.dup [] 0x2A).ReplaceAllString d s (B "*") = collapseRuns 0x2A s :=
    fun s => replaceAll_dup_single d 0x2A (by decide) s
  have hnot : ∀ y, isAlnum y = true → (decide (y = 0x2A) || decide (y = 0x23)) = false := by
    intro y hy
    simp only [isAlnum, isDigit, isUpper, isLower, Bool.or_eq_true, Bool.and_eq_true,
      decide_eq_true_eq] at hy
    simp only [Bool.or_eq_false_iff, decide_eq_false_iff_not]
    omega
  unfold slugOf
  rw [compileInvalid_star, hdup]
  simp only [passes]
  rw [trim_pred_star, hU, Fields_no_space x hx hne]
  have hJ : Join [x] (B "*") = x := by rw [Join_cons]; simp
  rw [hJ, hcol, replaceInvalid_ascii d _ x _ (fun y hy => (hx y hy).1)]
  simp only [starClass_contains, hexp]
  rw [hR]
  have hRne : R ≠ [] := by intro h0; rw [h0] at hhead; simp at hhead
  have h1 : R.dropWhile (fun b => decide (b = 0x2A) || decide (b = 0x23)) = R := by
    obtain ⟨r0, rs, rfl⟩ := List.exists_cons_of_ne_nil hRne
    simp only [List.head?_cons, Option.some.injEq] at hhead
    subst hhead
    rw [List.dropWhile_cons_of_neg (by simp only [hnot _ hh]; simp)]
  have h2 : R.rdropWhile (fun b => decide (b = 0x2A) || decide (b = 0x23)) = R := by
    rw [List.rdropWhile_eq_self_iff]
    intro hl0
    rw [List.getLast?_eq_getLast _ hl0, Option.some.injEq] at hlast
    rw [hlast]
    simp only [hnot _ hl]
    simp
  rw [h1, h2]
  refine congrArg some ?_
  cases sk
  · simp only [Bool.not_false, if_true]
    rw [ToLower_ascii d R (fun y hy => (hlow y hy).1)]
    conv_rhs => rw [← List.map_id R]
    apply List.map_congr_left
    intro y hy
    simp [lowerByte, (hlow y hy).2]
  · simp

theorem lowdig_facts (y : Nat) (h : isLower y = true ∨ isDigit y = true) :
    isAlnum y = true ∧ y < 0x80 ∧ isUpper y = false ∧ isSpace y = false ∧ y ≠ 0x2A := by
  have hal : isAlnum y = true := by
    rcases h with h | h <;> simp [isAlnum, h]
  refine ⟨hal, alnum_lt y hal, ?_, ?_, ?_⟩
  · simp only [isLower, isDigit, isUpper, Bool.and_eq_true, decide_eq_true_eq,
      Bool.and_eq_false_iff, decide_eq_false_iff_not] at *
    omega
  · cases hs : isSpace y
    · rfl
    · rw [isSpace_not_alnum y hs] at hal; simp at hal
  · rintro rfl
    simp [isAlnum, isDigit, isUpper, isLower] at hal

theorem flatMap_replicate_single (f : Nat → GoString) (k c z : Nat) (h : f c = [z]) :
    (List.replicate k c).flatMap f = List.replicate k z := by
  induction k with
  | zero => rfl
  | succ k ih => rw [List.replicate_succ, List.flatMap_cons, h, ih]; rfl

theorem collapseRuns_not_mem (c : Nat) (l : GoString) (h : c ∉ l) : collapseRuns c l = l := by
  have := collapseRuns_append_not_mem c l [] h
  simpa [collapseRuns] using this

theorem lowdig_lt (y : Nat) (h : isLower y = true ∨ isDigit y = true) : y < 0x7F := by
  simp only [isLower, isDigit, Bool.and_eq_true, decide_eq_true_eq] at h
  omega

/-- C10 (as stated, refuted): DEL (U+007F) is an ASCII character, no white space, no
letter or digit and not `*`, and the transliterator drops it: between the words `ab` and
`c9` three DEL give no `#` at all. -/
theorem replacement_runs_counterexample :
    (0x7F < 0x80 ∧ isSpace 0x7F = false ∧ isAlnum 0x7F = false ∧ 0x7F ≠ 0x2A)
    ∧ libDeps.unidecode (B "ab" ++ List.replicate 3 0x7F ++ B "c9") = B "abc9"
    ∧ (((NewSlugifier.InvalidChar (B "#")).WordSeparator (B "*")).Slugify libDeps
        (B "ab" ++ List.replicate 3 0x7F ++ B "c9")).1 = some (B "abc9")
    ∧ B "abc9" ≠ B "ab" ++ List.replicate 3 0x23 ++ B "c9" := by
  refine ⟨⟨by decide, by decide, by decide, by decide⟩, by decide, by decide, by decide⟩

/-- C10 (amended): with separator `*` and replacement `#` (default allowed set, either
case-fold flag), the transliterator returning text of characters below U+007F unchanged:
between two non-empty words of lowercase letters and digits, `k` copies of an invalid
character below U+007F give `k` copies of `#`, and `k` copies of `*` give one `*`; with the
example of the tests. -/
theorem replacement_runs_kept (d : Deps) (fold : Bool) (a b : GoString) (k c : Nat)
    (hU : ∀ t : GoString, (∀ y ∈ t, y < 0x7F) → d.unidecode t = t)
    (ha : a ≠ []) (hb : b ≠ [])
    (hal : ∀ y ∈ a, isLower y = true ∨ isDigit y = true)
    (hbl : ∀ y ∈ b, isLower y = true ∨ isDigit y = true)
    (hk : 1 ≤ k) (hc : c < 0x7F) (hsp : isSpace c = false) (hna : isAlnum c = false)
    (hstar : c ≠ 0x2A) :
    ((((NewSlugifier.InvalidChar (B "#")).WordSeparator (B "*")).ToLower fold).Slugify d
        (a ++ List.replicate k c ++ b)).1 = some (a ++ List.replicate k 0x23 ++ b)
    ∧ ((((NewSlugifier.InvalidChar (B "#")).WordSeparator (B "*")).ToLower fold).Slugify d
        (a ++ List.replicate k 0x2A ++ b)).1 = some (a ++ B "*" ++ b)
    ∧ (((NewSlugifier.InvalidChar (B "#")).WordSeparator (B "*")).Slugify libDeps
        (B "**##x**##**x##**")).1 = some (B "x*##*x") := by
  have hready : (((NewSlugifier.InvalidChar (B "#")).WordSeparator (B "*")).ToLower
      fold).Ready := by
    intro h
    simp [NewSlugifier, Slugifier.WordSeparator, Slugifier.InvalidChar, Slugifier.ToLower] at h
  have hknobs : ∀ x, ((((NewSlugifier.InvalidChar (B "#")).WordSeparator (B "*")).ToLower
      fold).Slugify d x).1 = slugOf d (!fold) (B "*") (B "#") (B "a-zA-Z0-9") x := by
    intro x
    rw [slugify_eq_slugOf d _ hready]
    rfl
  have hUin : ∀ z, z < 0x7F → d.unidecode (a ++ List.replicate k z ++ b)
      = a ++ List.replicate k z ++ b := by
    intro z hz
    apply hU
    intro y hy
    simp only [List.mem_append, List.mem_replicate] at hy
    rcases hy with (hy | ⟨-, rfl⟩) | hy
    · exact lowdig_lt y (hal y hy)
    · exact hz
    · exact lowdig_lt y (hbl y hy)
  obtain ⟨a0, as, rfl⟩ := List.exists_cons_of_ne_nil ha
  obtain ⟨bl, hbl0⟩ : ∃ bl, b.getLast? = some bl :=
    ⟨b.getLast hb, List.getLast?_eq_getLast b hb⟩
  have hblm : bl ∈ b := List.mem_of_getLast?_eq_some hbl0
  have hf : ∀ y, isAlnum y = true →
      (fun y => if (isAlnum y || decide (y = 0x2A)) then [y] else [0x23]) y = [y] := by
    intro y hy; simp [hy]
  have hfa := flatMap_keep _ (a0 :: as) (fun y hy => hf y (lowdig_facts y (hal y hy)).1)
  have hfb := flatMap_keep _ b (fun y hy => hf y (lowdig_facts y (hbl y hy)).1)
  have hhead : ∀ m : GoString, ((a0 :: as) ++ m ++ b).head? = some a0 := fun m => rfl
  have hlast : ∀ m : GoString, ((a0 :: as) ++ m ++ b).getLast? = some bl := by
    intro m
    rw [List.getLast?_append_of_ne_nil _ hb, hbl0]
  have ha0 := (lowdig_facts a0 (hal a0 (List.mem_cons_self _ _))).1
  have hbl1 := (lowdig_facts bl (hbl bl hblm)).1
  have hnota : (0x2A : Nat) ∉ a0 :: as := fun h => (lowdig_facts _ (hal _ h)).2.2.2.2 rfl
  have hnotb : (0x2A : Nat) ∉ b := fun h => (lowdig_facts _ (hbl _ h)).2.2.2.2 rfl
  refine ⟨?_, ?_, by decide⟩
  · rw [hknobs]
    refine slugOf_star d _ _ _ a0 bl (hUin c hc) ?hx (by simp) ?hR (hhead _) ha0 (hlast _) hbl1
      ?hlow
    case hx =>
      intro y hy
      simp only [List.mem_append, List.mem_replicate] at hy
      rcases hy with (hy | ⟨-, rfl⟩) | hy
      · exact ⟨(lowdig_facts y (hal y hy)).2.1, (lowdig_facts y (hal y hy)).2.2.2.1⟩
      · exact ⟨by omega, hsp⟩
      · exact ⟨(lowdig_facts y (hbl y hy)).2.1, (lowdig_facts y (hbl y hy)).2.2.2.1⟩
    case hlow =>
      intro y hy
      simp only [List.mem_append, List.mem_replicate] at hy
      rcases hy with (hy | ⟨-, rfl⟩) | hy
      · exact ⟨(lowdig_facts y (hal y hy)).2.1, (lowdig_facts y (hal y hy)).2.2.1⟩
      · exact ⟨by omega, by decide⟩
      · exact ⟨(lowdig_facts y (hbl y hy)).2.1, (lowdig_facts y (hbl y hy)).2.2.1⟩
    case hR =>
      rw [List.flatMap_append, List.flatMap_append, hfa, hfb,
        flatMap_replicate_single _ k c 0x23 (by simp [hna, hstar])]
      apply collapseRuns_not_mem
      simp only [List.mem_append, List.mem_replicate, not_or]
      exact ⟨⟨hnota, fun h => by omega⟩, hnotb⟩
  · rw [hknobs]
    have hBs : B "*" = [0x2A] := rfl
    rw [hBs]
    refine slugOf_star d _ _ _ a0 bl (hUin 0x2A (by omega)) ?hx (by simp) ?hR (hhead _) ha0
      (hlast _) hbl1 ?hlow
    case hx =>
      intro y hy
      simp only [List.mem_append, List.mem_replicate] at hy
      rcases hy with (hy | ⟨-, rfl⟩) | hy
      · exact ⟨(lowdig_facts y (hal y hy)).2.1, (lowdig_facts y (hal y hy)).2.2.2.1⟩
      · exact ⟨by omega, by decide⟩
      · exact ⟨(lowdig_facts y (hbl y hy)).2.1, (lowdig_facts y (hbl y hy)).2.2.2.1⟩
    case hlow =>
      intro y hy
      simp only [List.mem_append, List.mem_singleton] at hy
      rcases hy with (hy | rfl) | hy
      · exact ⟨(lowdig_facts y (hal y hy)).2.1, (lowdig_facts y (hal y hy)).2.2.1⟩
      · exact ⟨by omega, by decide⟩
      · exact ⟨(lowdig_facts y (hbl y hy)).2.1, (lowdig_facts y (hbl y hy)).2.2.1⟩
    case hR =>
      rw [List.flatMap_append, List.flatMap_append, hfa, hfb,
        flatMap_replicate_single _ k 0x2A 0x2A (by simp)]
      obtain ⟨n, rfl⟩ : ∃ n, k = n + 1 := ⟨k - 1, by omega⟩
      have hbh : b.head? ≠ some 0x2A := by
        intro h
        exact hnotb (List.mem_of_mem_head? h)
      rw [List.append_assoc, collapseRuns_append_not_mem _ _ _ hnota,
        collapseRuns_replicate 0x2A n b hbh, collapseRuns_not_mem _ b hnotb]
      simp

/-- C10 (amended) at work: words `ab` and `c9`, three `!`, case folding disabled. -/
theorem replacement_runs_kept_witness :
    (∀ t : GoString, (∀ y ∈ t, y < 0x7F) → libDeps.unidecode t = t)
    ∧ ((((NewSlugifier.InvalidChar (B "#")).WordSeparator (B "*")).ToLower false).Slugify
        libDeps (B "ab" ++ List.replicate 3 0x21 ++ B "c9")).1
          = some (B "ab" ++ List.replicate 3 0x23 ++ B "c9")
    ∧ ((((NewSlugifier.InvalidChar (B "#")).WordSeparator (B "*")).ToLower false).Slugify
        libDeps (B "ab" ++ List.replicate 3 0x2A ++ B "c9")).1 = some (B "ab" ++ B "*" ++ B "c9")
    ∧ (((NewSlugifier.InvalidChar (B "#")).WordSeparator (B "*")).Slugify libDeps
        (B "**##x**##**x##**")).1 = some (B "x*##*x") :=
  have h : ∀ t : GoString, (∀ b ∈ t, b < 0x7F) → libDeps.unidecode t = t := by
    intro t ht
    simp only [libDeps, List.filter_eq_self, decide_eq_true_eq]
    exact ht
  ⟨h, replacement_runs_kept libDeps false (B "ab") (B "c9") 3 0x21 h (by decide) (by decide)
    (by decide) (by decide) (by decide) (by decide) (by decide) (by decide) (by decide)⟩

/-! ## C13, C14: documentation example and version -/

/-- What `Slugify` returns under the default separator, replacement and allowed set with
case folding disabled: the runs of letters and digits of the transliterated text joined
by one `-`. -/
theorem slugOf_default_keep (d : Deps) (x : GoString) :
    slugOf d true (B "-") (B "-") (B "a-zA-Z0-9") x
      = some (Join (alnumRuns (d.unidecode x)) (B "-")) := by
  have hdup : compileDup (B "-") = some (some (Regexp.dup [] 0x2D)) :=
    compileDup_single 0x2D (by decide)
  unfold slugOf
  rw [compileInvalid_default, hdup]
  simp only [passes, Bool.not_true, Bool.false_eq_true, if_false]
  rw [trim_pred_default]
  refine congrArg some ?_
  have hcol : ∀ s, (Regexp.dup [] 0x2D).ReplaceAllString d s (B "-") = collapseRuns 0x2D s :=
    fun s => replaceAll_dup_single d 0x2D (by decide) s
  rw [hcol]
  obtain ⟨h1, h2⟩ := replaceInvalid_default d (Join (Fields (d.unidecode x)) (B "-"))
  have h3 := trim_collapse _ [] (by simp) h2
  have hA : alnumRunsFrom (Join (Fields (d.unidecode x)) (B "-")) []
      = alnumRunsFrom (d.unidecode x) [] := alnumRuns_fields (d.unidecode x) []
  rw [List.nil_append, h1 [], hA] at h3
  rw [h3, alnumRuns]

/-- C13 (as stated, refuted): with the transliteration the tests fix, the Slugifier of the
package documentation, built with `ToLower(false)`, does not return the documented
`bei-jing-kozuscek-abc` for the documented input. -/
theorem doc_example_counterexample :
    docDeps.unidecode (B "北京kožušček,abc") = B "Bei Jing kozuscek,abc"
    ∧ (((((({} : Slugifier).ToLower false).InvalidChar (B "-")).WordSeparator (B "-")).Slugify
        docDeps (B "北京kožušček,abc")).1 ≠ some (B "bei-jing-kozuscek-abc")) := by
  refine ⟨by decide, by decide⟩

/-- C13 (amended): whenever the transliteration of the documented input is
`Bei Jing kozuscek,abc`, the Slugifier of the package documentation, built with
`ToLower(false)`, returns `Bei-Jing-kozuscek-abc`, the case of the transliteration kept. -/
theorem doc_example_keeps_case (d : Deps)
    (hd : d.unidecode (B "北京kožušček,abc") = B "Bei Jing kozuscek,abc") :
    ((((({} : Slugifier).ToLower false).InvalidChar (B "-")).WordSeparator (B "-")).Slugify
        d (B "北京kožušček,abc")).1 = some (B "Bei-Jing-kozuscek-abc") := by
  rw [slugify_eq_slugOf d _ (fun hi => by simp [Slugifier.WordSeparator] at hi)]
  have h := slugOf_default_keep d (B "北京kožušček,abc")
  rw [hd] at h
  have he : Join (alnumRuns (B "Bei Jing kozuscek,abc")) (B "-") = B "Bei-Jing-kozuscek-abc" := by
    decide
  rw [he] at h
  exact h

theorem doc_example_keeps_case_witness :
    docDeps.unidecode (B "北京kožušček,abc") = B "Bei Jing kozuscek,abc"
    ∧ ((((({} : Slugifier).ToLower false).InvalidChar (B "-")).WordSeparator (B "-")).Slugify
        docDeps (B "北京kožušček,abc")).1 = some (B "Bei-Jing-kozuscek-abc") :=
  ⟨by decide, doc_example_keeps_case docDeps (by decide)⟩

/-- C14 (code against its test): `Version()` returns `1.0.0`, not the `0.2.0` that
`TestVersion` expects. -/
theorem version_value : Version = B "1.0.0" ∧ Version ≠ B "0.2.0" := by
  refine ⟨rfl, by decide⟩

/-! ## C19: what the setters change -/

/-- C19 (as stated, refuted): after a first `Slugify` the Slugifier is initialized, and it
stays initialized, with both matchers in place, after `ToLower` and after `InvalidChar`. -/
theorem setter_invalidation_counterexample :
    (NewSlugifier.Slugify asciiDeps (B "a")).2.initialized = true
    ∧ ((NewSlugifier.Slugify asciiDeps (B "a")).2.ToLower false).initialized = true
    ∧ ((NewSlugifier.Slugify asciiDeps (B "a")).2.InvalidChar (B "_")).initialized = true
    ∧ ((NewSlugifier.Slugify asciiDeps (B "a")).2.ToLower false).reInValidChar
        = (NewSlugifier.Slugify asciiDeps (B "a")).2.reInValidChar
    ∧ ((NewSlugifier.Slugify asciiDeps (B "a")).2.InvalidChar (B "_")).reDupSeparatorChar
        = (NewSlugifier.Slugify asciiDeps (B "a")).2.reDupSeparatorChar
    ∧ (NewSlugifier.Slugify asciiDeps (B "a")).2.reInValidChar ≠ none := by
  refine ⟨by decide, by decide, by decide, by decide, by decide, by decide⟩

/-- C19 (amended): every setter leaves the receiver with its own knob set and the other
three knobs as they were; `WordSeparator` and `AllowedSet` also drop both matchers and
clear `initialized`; `ToLower` and `InvalidChar` leave the matchers and `initialized` as
they were. -/
theorem setters_frame (s : Slugifier) (b : Bool) (v : GoString) :
    ((s.ToLower b).skipToLower = !b
      ∧ (s.ToLower b).wordSeparator = s.wordSeparator
      ∧ (s.ToLower b).invalidCharReplacement = s.invalidCharReplacement
      ∧ (s.ToLower b).allowedSet = s.allowedSet
      ∧ (s.ToLower b).reInValidChar = s.reInValidChar
      ∧ (s.ToLower b).reDupSeparatorChar = s.reDupSeparatorChar
      ∧ (s.ToLower b).initialized = s.initialized)
    ∧ ((s.InvalidChar v).invalidCharReplacement = some v
      ∧ (s.InvalidChar v).skipToLower = s.skipToLower
      ∧ (s.InvalidChar v).wordSeparator = s.wordSeparator
      ∧ (s.InvalidChar v).allowedSet = s.allowedSet
      ∧ (s.InvalidChar v).reInValidChar = s.reInValidChar
      ∧ (s.InvalidChar v).reDupSeparatorChar = s.reDupSeparatorChar
      ∧ (s.InvalidChar v).initialized = s.initialized)
    ∧ ((s.WordSeparator v).wordSeparator = some v
      ∧ (s.WordSeparator v).skipToLower = s.skipToLower
      ∧ (s.WordSeparator v).invalidCharReplacement = s.invalidCharReplacement
      ∧ (s.WordSeparator v).allowedSet = s.allowedSet
      ∧ (s.WordSeparator v).reInValidChar = none
      ∧ (s.WordSeparator v).reDupSeparatorChar = none
      ∧ (s.WordSeparator v).initialized = false)
    ∧ ((s.AllowedSet v).allowedSet = some v
      ∧ (s.AllowedSet v).skipToLower = s.skipToLower
      ∧ (s.AllowedSet v).wordSeparator = s.wordSeparator
      ∧ (s.AllowedSet v).invalidCharReplacement = s.invalidCharReplacement
      ∧ (s.AllowedSet v).reInValidChar = none
      ∧ (s.AllowedSet v).reDupSeparatorChar = none
      ∧ (s.AllowedSet v).initialized = false) := by
  refine ⟨⟨rfl, rfl, rfl, rfl, rfl, rfl, rfl⟩, ⟨rfl, rfl, rfl, rfl, rfl, rfl, rfl⟩,
    ⟨rfl, rfl, rfl, rfl, rfl, rfl, rfl⟩, ⟨rfl, rfl, rfl, rfl, rfl, rfl, rfl⟩⟩

/-! ## C20: case folding is the last pass -/

theorem slugOf_fold (d : Deps) (ws icr as x : GoString) :
    slugOf d false ws icr as x = (slugOf d true ws icr as x).map (ToLower d) := by
  unfold slugOf
  split <;> simp [passes]

/-- C20: for every configuration reached by calls on a zero value, `Slugify` with case
folding enabled returns `strings.ToLower` of what it returns with case folding disabled
(and fails when that fails); with the example of the tests. -/
theorem case_fold_is_last_pass (d : Deps) (calls : List Call) (x : GoString) :
    (((({} : Slugifier).run d calls).ToLower true).Slugify d x).1
      = ((((({} : Slugifier).run d calls).ToLower false).Slugify d x).1).map (ToLower d)
    ∧ ((NewSlugifier.ToLower false).Slugify docDeps (B "北京kožušček")).1
        = some (B "Bei-Jing-kozuscek")
    ∧ (NewSlugifier.Slugify docDeps (B "北京kožušček")).1 = some (B "bei-jing-kozuscek")
    ∧ ToLower docDeps (B "Bei-Jing-kozuscek") = B "bei-jing-kozuscek" := by
  refine ⟨?_, by decide, by decide, by decide⟩
  have hr : (({} : Slugifier).run d calls).Ready := ready_run d calls _ ready_zero
  have h1 : ((({} : Slugifier).run d calls).ToLower true).Ready :=
    ready_step d _ (Call.ToLower true) hr
  have h2 : ((({} : Slugifier).run d calls).ToLower false).Ready :=
    ready_step d _ (Call.ToLower false) hr
  rw [slugify_eq_slugOf d _ h1, slugify_eq_slugOf d _ h2]
  exact slugOf_fold d _ _ _ x

/-! ## C11, C12: when `Slugify` returns -/

theorem slugOf_isSome (d : Deps) (sk : Bool) (ws icr as x : GoString) :
    (slugOf d sk ws icr as x).isSome
      = ((compileInvalid ws as).isSome && (compileDup ws).isSome) := by
  unfold slugOf
  cases compileInvalid ws as <;> cases compileDup ws <;> rfl

theorem trimLeftLoop_eq (ws icr : GoString) (txt : GoString) :
    ∀ n, txt.length < n →
      trimLeftLoop ws icr n txt
        = some (txt.dropWhile (fun b => decide (encodeRune b = ws) || decide (encodeRune b = icr)))
    := by
  induction txt with
  | nil =>
    intro n hn
    obtain ⟨m, rfl⟩ : ∃ m, n = m + 1 := ⟨n - 1, by simp at hn; omega⟩
    simp [trimLeftLoop]
  | cons b t ih =>
    intro n hn
    obtain ⟨m, rfl⟩ : ∃ m, n = m + 1 := ⟨n - 1, by simp at hn; omega⟩
    have hm : t.length < m := by simp at hn; omega
    by_cases hp : encodeRune b = ws ∨ encodeRune b = icr
    · have hp' : (decide (encodeRune b = ws) || decide (encodeRune b = icr)) = true := by
        simpa using hp
      simp only [trimLeftLoop, List.length_cons, Nat.zero_lt_succ, if_true,
        List.getElem?_cons_zero, hp, List.drop_succ_cons, List.drop_zero, ih m hm,
        List.dropWhile_cons, hp']
    · have hp' : (decide (encodeRune b = ws) || decide (encodeRune b = icr)) = false := by
        simpa using hp
      simp only [trimLeftLoop, List.length_cons, Nat.zero_lt_succ, if_true,
        List.getElem?_cons_zero, hp, if_false, List.dropWhile_cons, hp', Bool.false_eq_true]

theorem trimRightLoop_eq (ws icr : GoString) (txt : GoString) :
    ∀ n, txt.length < n →
      trimRightLoop ws icr n txt
        = some (txt.rdropWhile
            (fun b => decide (encodeRune b = ws) || decide (encodeRune b = icr))) := by
  induction txt using List.reverseRecOn with
  | nil =>
    intro n hn
    obtain ⟨m, rfl⟩ : ∃ m, n = m + 1 := ⟨n - 1, by simp at hn; omega⟩
    simp [trimRightLoop]
  | append_singleton l b ih =>
    intro n hn
    obtain ⟨m, rfl⟩ : ∃ m, n = m + 1 := ⟨n - 1, by simp at hn; omega⟩
    have hm : l.length < m := by simp at hn; omega
    have hlen : (l ++ [b]).length - 1 = l.length := by simp
    have hget : (l ++ [b])[(l ++ [b]).length - 1]? = some b := by
      rw [hlen]; simp
    have htake : (l ++ [b]).take ((l ++ [b]).length - 1) = l := by
      rw [hlen]; simp
    have hpos : 0 < (l ++ [b]).length := by simp
    rw [trimRightLoop, if_pos hpos, hget]
    by_cases hp : encodeRune b = ws ∨ encodeRune b = icr
    · have hp' : (fun b => decide (encodeRune b = ws) || decide (encodeRune b = icr)) b
          = true := by simpa using hp
      simp only [hp, if_true, htake, ih m hm]
      rw [List.rdropWhile_concat_pos
        (fun b => decide (encodeRune b = ws) || decide (encodeRune b = icr)) l b hp']
    · have hp' : ¬ (fun b => decide (encodeRune b = ws) || decide (encodeRune b = icr)) b
          = true := by simpa using hp
      simp only [hp, if_false]
      rw [List.rdropWhile_concat_neg
        (fun b => decide (encodeRune b = ws) || decide (encodeRune b = icr)) l b hp']

/-- C11: for every configuration reached by calls on a zero value whose two patterns
compile, `Slugify` returns a string for every input; and the two trimming loops, run on
any text with any separator and replacement, end within one more test of their condition
than the text has bytes, never read `txt[0]` or `txt[len(txt)-1]` out of range, and leave
what `Slugify` goes on with. -/
theorem slugify_total (d : Deps) (calls : List Call) (x : GoString)
    (hre : (compileInvalid
      ((({} : Slugifier).run d calls).wordSeparator.getD defaultWordSeparator)
      ((({} : Slugifier).run d calls).allowedSet.getD defaultAllowedSet)).isSome = true)
    (hdup : (compileDup
      ((({} : Slugifier).run d calls).wordSeparator.getD defaultWordSeparator)).isSome = true) :
    (∃ out, ((({} : Slugifier).run d calls).Slugify d x).1 = some out)
    ∧ ∀ ws icr txt : GoString,
        trimLeftLoop ws icr (txt.length + 1) txt
          = some (txt.dropWhile
              (fun b => decide (encodeRune b = ws) || decide (encodeRune b = icr)))
        ∧ trimRightLoop ws icr (txt.length + 1) txt
          = some (txt.rdropWhile
              (fun b => decide (encodeRune b = ws) || decide (encodeRune b = icr))) := by
  refine ⟨?_, fun ws icr txt =>
    ⟨trimLeftLoop_eq ws icr txt _ (Nat.lt_succ_self _),
      trimRightLoop_eq ws icr txt _ (Nat.lt_succ_self _)⟩⟩
  rw [slugify_eq_slugOf d _ (ready_run d calls _ ready_zero), ← Option.isSome_iff_exists,
    slugOf_isSome, hre, hdup]
  rfl

/-- C11 at work: separator `ab`, empty replacement, and an input that trimming empties
under the default configuration. -/
theorem slugify_total_witness :
    (compileInvalid
      ((({} : Slugifier).run asciiDeps [Call.WordSeparator (B "ab"),
        Call.InvalidChar (B "")]).wordSeparator.getD defaultWordSeparator)
      ((({} : Slugifier).run asciiDeps [Call.WordSeparator (B "ab"),
        Call.InvalidChar (B "")]).allowedSet.getD defaultAllowedSet)).isSome = true
    ∧ (compileDup
      ((({} : Slugifier).run asciiDeps [Call.WordSeparator (B "ab"),
        Call.InvalidChar (B "")]).wordSeparator.getD defaultWordSeparator)).isSome = true
    ∧ (∃ out, ((({} : Slugifier).run asciiDeps [Call.WordSeparator (B "ab"),
        Call.InvalidChar (B "")]).Slugify asciiDeps (B "- -")).1 = some out)
    ∧ (NewSlugifier.Slugify asciiDeps (B "- -")).1 = some [] :=
  ⟨by decide, by decide,
    (slugify_total asciiDeps [Call.WordSeparator (B "ab"), Call.InvalidChar (B "")] (B "- -")
      (by decide) (by decide)).1,
    by decide⟩

theorem slugify_after_slugify (d : Deps) (s : Slugifier) (hs : s.Ready) (x y : GoString) :
    ((s.Slugify d x).2.Slugify d y).1
      = slugOf d s.skipToLower (s.wordSeparator.getD defaultWordSeparator)
          (s.invalidCharReplacement.getD defaultInvalidCharReplacement)
          (s.allowedSet.getD defaultAllowedSet) y := by
  have hready : (s.step d (Call.Slugify x)).Ready := ready_step d s _ hs
  obtain ⟨h1, h2, h3, h4⟩ := step_knobs d s (Call.Slugify x) (some (!s.skipToLower))
    s.wordSeparator s.invalidCharReplacement s.allowedSet (by simp) rfl rfl rfl
  have h1' : (s.step d (Call.Slugify x)).skipToLower = s.skipToLower := by
    simpa [lastToLower] using h1.symm
  change ((s.step d (Call.Slugify x)).Slugify d y).1 = _
  rw [slugify_eq_slugOf d _ hready, h1', ← h2, ← h3, ← h4]
  rfl

theorem classCharError_none (rs : List Nat) (h : classCharError rs = true) :
    parseClassChar rs = none := by
  unfold classCharError at h
  split at h
  · rfl
  · rfl
  · next c t =>
    simp only [Bool.and_eq_true, Bool.not_eq_true', Bool.and_eq_false_iff,
      Bool.or_eq_false_iff, decide_eq_false_iff_not, Bool.not_eq_false] at h
    obtain ⟨⟨⟨h1, h2⟩, h3⟩, h4⟩ := h
    simp only [parseClassChar]
    rw [if_neg, if_neg h2.1.1.1.1.1, if_neg h2.1.1.1.1.2, if_neg h2.1.1.1.2,
      if_neg h2.1.1.2, if_neg h2.1.2, if_neg h2.2]
    rintro ⟨h5, h6⟩
    rcases h1 with h1 | h1
    · exact h1 h5
    · rw [h1] at h6; simp at h6
  · simp at h

theorem classLoopError_none (n : Nat) :
    ∀ (first : Bool) (rs : List Nat), classLoopError n first rs = true →
      parseClassLoop n first rs = none := by
  induction n with
  | zero => intro first rs h; simp [classLoopError] at h
  | succ n ih =>
    intro first rs h
    cases rs with
    | nil => rfl
    | cons c t1 =>
      rw [classLoopError] at h
      rw [parseClassLoop]
      split_ifs at h ⊢ with h1 h2 h3 h4
      · simp [ih false _ h]
      · cases hp : parseClassChar (c :: t1) with
        | none => rfl
        | some p =>
          obtain ⟨lo, t2⟩ := p
          rw [hp] at h
          simp only at h ⊢
          have hrest : ∀ t, classLoopError n false t = true →
              Option.map (fun r => ClassItem.range lo lo :: r) (parseClassLoop n false t)
                = none := fun t ht => by rw [ih false t ht]; rfl
          by_cases hsh : ∃ c2 t3, t2 = 0x2D :: c2 :: t3
          · obtain ⟨c2, t3, rfl⟩ := hsh
            simp only at h ⊢
            by_cases h5 : c2 = 0x5D
            · simp only [h5, ne_eq, not_true_eq_false, if_false] at h ⊢
              exact hrest _ h
            · simp only [ne_eq, h5, not_false_eq_true, if_true] at h ⊢
              cases hp2 : parseClassChar (c2 :: t3) with
              | none => rfl
              | some p2 =>
                obtain ⟨hi, t4⟩ := p2
                rw [hp2] at h
                simp only at h ⊢
                by_cases h6 : hi < lo
                · simp only [h6, if_true]
                · simp only [h6, if_false] at h ⊢
                  rw [ih false t4 (by simpa using h)]; rfl
          · split at h
            · next c2 t3 => exact absurd ⟨c2, t3, rfl⟩ hsh
            · exact hrest _ h

theorem patternError_none (p : GoString) (h : patternError p = true) :
    MustCompile p = none := by
  unfold patternError at h
  unfold MustCompile
  by_cases hv : validUTF8 p = true
  · rw [hv] at h ⊢
    simp only [Bool.not_true, Bool.false_or, Bool.false_eq_true, if_false] at h ⊢
    split at h
    · next body heq =>
      rw [heq]
      simp only [parsePattern]
      rw [classLoopError_none _ _ _ h]
      rfl
    · simp at h
  · simp [hv]

theorem initError_none (ws as : GoString) (h : initError ws as = true) :
    compileInvalid ws as = none ∨ compileDup ws = none := by
  unfold initError at h
  rcases Bool.or_eq_true_iff.1 h with h1 | h1
  · left
    unfold compileInvalid
    cases hs : Sprintf (B "[^%s" ++ as ++ B "]") (some (QuoteMeta ws)) with
    | none => rfl
    | some p =>
      rw [hs] at h1
      exact patternError_none p h1
  · right
    simp only [Bool.and_eq_true, decide_eq_true_eq] at h1
    unfold compileDup
    rw [if_pos h1.1]
    cases hs : Sprintf (B "%s\x7b2,\x7d") (some (QuoteMeta ws)) with
    | none => rfl
    | some p =>
      have h2 := h1.2
      rw [hs] at h2
      simp only [Option.some_bind, patternError_none p h2]
      rfl


/-- C12: the setters store any value; when the parser rejects one of the two patterns of
the current separator and allowed set (`initError`), `Slugify` panics (result `none`) and
returns no string, as for the allowed set `z-a`; and once `Slugify` has returned on a
Slugifier, it returns again on that Slugifier for every input, and on every Slugifier with
the same separator and allowed set. -/
theorem malformed_policy_fails (d : Deps) (calls : List Call) (x : GoString) :
    (∀ (s : Slugifier) (v : GoString),
      (s.AllowedSet v).allowedSet = some v ∧ (s.WordSeparator v).wordSeparator = some v)
    ∧ (initError
          ((({} : Slugifier).run d calls).wordSeparator.getD defaultWordSeparator)
          ((({} : Slugifier).run d calls).allowedSet.getD defaultAllowedSet) = true →
        ((({} : Slugifier).run d calls).Slugify d x).1 = none)
    ∧ (initError (B "-") (B "z-a") = true
        ∧ (NewSlugifier.AllowedSet (B "z-a")).allowedSet = some (B "z-a")
        ∧ ((NewSlugifier.AllowedSet (B "z-a")).Slugify d x).1 = none)
    ∧ (∀ out, ((({} : Slugifier).run d calls).Slugify d x).1 = some out →
        ∀ y, ∃ out2, (((({} : Slugifier).run d calls).Slugify d x).2.Slugify d y).1 = some out2)
    ∧ (∀ out, ((({} : Slugifier).run d calls).Slugify d x).1 = some out →
        ∀ (calls2 : List Call) (y : GoString),
          (({} : Slugifier).run d calls2).wordSeparator.getD defaultWordSeparator
            = (({} : Slugifier).run d calls).wordSeparator.getD defaultWordSeparator →
          (({} : Slugifier).run d calls2).allowedSet.getD defaultAllowedSet
            = (({} : Slugifier).run d calls).allowedSet.getD defaultAllowedSet →
          ∃ out2, ((({} : Slugifier).run d calls2).Slugify d y).1 = some out2) := by
  have hr : (({} : Slugifier).run d calls).Ready := ready_run d calls _ ready_zero
  refine ⟨fun s v => ⟨rfl, rfl⟩, ?_, ⟨by decide, rfl, ?_⟩, ?_, ?_⟩
  · intro h
    rw [slugify_eq_slugOf d _ hr]
    unfold slugOf
    rcases initError_none _ _ h with h | h
    · rw [h]
    · rw [h]; split <;> simp_all
  · have hready : (NewSlugifier.AllowedSet (B "z-a")).Ready := by
      intro h
      simp [NewSlugifier, Slugifier.WordSeparator, Slugifier.InvalidChar,
        Slugifier.AllowedSet] at h
    rw [slugify_eq_slugOf d _ hready]
    have hc : compileInvalid (B "-") (B "z-a") = none := by decide
    show slugOf d false (B "-") (B "-") (B "z-a") x = none
    unfold slugOf
    rw [hc]
  · intro out hout y
    rw [slugify_eq_slugOf d _ hr] at hout
    rw [slugify_after_slugify d _ hr, ← Option.isSome_iff_exists, slugOf_isSome,
      ← slugOf_isSome d (({} : Slugifier).run d calls).skipToLower _
        ((({} : Slugifier).run d calls).invalidCharReplacement.getD
          defaultInvalidCharReplacement) _ x, hout]
    rfl
  · intro out hout calls2 y hw ha
    rw [slugify_eq_slugOf d _ hr] at hout
    rw [slugify_eq_slugOf d _ (ready_run d calls2 _ ready_zero), ← Option.isSome_iff_exists,
      slugOf_isSome, hw, ha,
      ← slugOf_isSome d (({} : Slugifier).run d calls).skipToLower _
        ((({} : Slugifier).run d calls).invalidCharReplacement.getD
          defaultInvalidCharReplacement) _ x, hout]
    rfl

/-- C12 at work: the allowed set `z-a` is rejected and makes `Slugify` fail; after a
`Slugify` that returned on a zero value the next one returns as well; allowed sets outside
the modelled patterns are not called rejected. -/
theorem malformed_policy_fails_witness :
    initError
        ((({} : Slugifier).run asciiDeps [Call.AllowedSet (B "z-a")]).wordSeparator.getD
          defaultWordSeparator)
        ((({} : Slugifier).run asciiDeps [Call.AllowedSet (B "z-a")]).allowedSet.getD
          defaultAllowedSet) = true
    ∧ ((({} : Slugifier).run asciiDeps [Call.AllowedSet (B "z-a")]).Slugify asciiDeps
        (B "a")).1 = none
    ∧ ((({} : Slugifier).run asciiDeps []).Slugify asciiDeps (B "a")).1 = some (B "a")
    ∧ (∃ out2, (((({} : Slugifier).run asciiDeps []).Slugify asciiDeps (B "a")).2.Slugify
        asciiDeps (B "b c")).1 = some out2)
    ∧ initError (B "-") (B "a-zA-Z0-9") = false
    ∧ initError (B "-") (B "[:alpha:]") = false
    ∧ initError (B "-") (B "a-z%") = false :=
  ⟨by decide,
    (malformed_policy_fails asciiDeps [Call.AllowedSet (B "z-a")] (B "a")).2.1 (by decide),
    by decide,
    (malformed_policy_fails asciiDeps [] (B "a")).2.2.2.1 (B "a") (by decide) (B "b c"),
    by decide, by decide, by decide⟩

/-! ## C15, C16: what the two patterns match -/

/-- For a separator of one ASCII character and the default allowed set the
invalid-character pattern is the separator together with the letters and digits. -/
theorem compileInvalid_single_default (c : Nat) (hc : c < 0x80) :
    compileInvalid [c] (B "a-zA-Z0-9")
      = some (Regexp.notIn [.range c c, .range 0x61 0x7A, .range 0x41 0x5A, .range 0x30 0x39])
    := by
  have hq : QuoteMeta [c] = if isSpecial c then [0x5C, c] else [c] := by
    simp [QuoteMeta]
  have hs : ∀ q : GoString, Sprintf (B "[^%s" ++ B "a-zA-Z0-9" ++ B "]") (some q)
      = some ([0x5B, 0x5E] ++ q ++ [0x61, 0x2D, 0x7A, 0x41, 0x2D, 0x5A, 0x30, 0x2D, 0x39, 0x5D])
    := by
    intro q; rfl
  rw [compileInvalid, hs, Option.some_bind, hq]
  by_cases hsp : isSpecial c = true
  · have hasc : ∀ b ∈ [0x5B, 0x5E, 0x5C, c, 0x61, 0x2D, 0x7A, 0x41, 0x2D, 0x5A, 0x30, 0x2D, 0x39,
        0x5D], b < 0x80 := by
      intro b hb
      simp only [List.mem_cons, List.mem_singleton, List.not_mem_nil, or_false] at hb
      omega
    have hal : isAlnum c = false := by
      simp only [isSpecial, Bool.or_eq_true, decide_eq_true_eq] at hsp
      rcases hsp with ((((((((((((h | h) | h) | h) | h) | h) | h) | h) | h) | h) | h) | h) | h) | h
        <;> subst h <;> rfl
    have hp : c ≠ 0x70 ∧ c ≠ 0x50 ∧ isPerlClassLetter c = false := by
      simp only [isSpecial, Bool.or_eq_true, decide_eq_true_eq] at hsp
      rcases hsp with ((((((((((((h | h) | h) | h) | h) | h) | h) | h) | h) | h) | h) | h) | h) | h
        <;> subst h <;> decide
    rw [if_pos hsp]
    simp only [List.cons_append, List.nil_append]
    rw [MustCompile_ascii _ hasc]
    have hp2 := hp.2.2
    simp only [isPerlClassLetter, Bool.or_eq_false_iff, decide_eq_false_iff_not] at hp2
    simp [parsePattern, parseClassLoop, parseClassChar, hc, hal, hp.1, hp.2.1, hp2,
      isPerlClassLetter]
  · simp only [Bool.not_eq_true] at hsp
    have hasc : ∀ b ∈ [0x5B, 0x5E, c, 0x61, 0x2D, 0x7A, 0x41, 0x2D, 0x5A, 0x30, 0x2D, 0x39,
        0x5D], b < 0x80 := by
      intro b hb
      simp only [List.mem_cons, List.mem_singleton, List.not_mem_nil, or_false] at hb
      omega
    have h1 : c ≠ 0x5B := by rintro rfl; simp [isSpecial] at hsp
    have h2 : c ≠ 0x5C := by rintro rfl; simp [isSpecial] at hsp
    have h3 : c ≠ 0x5D := by rintro rfl; simp [isSpecial] at hsp
    rw [if_neg (by simp [hsp])]
    simp only [List.cons_append, List.nil_append]
    rw [MustCompile_ascii _ hasc]
    simp [parsePattern, parseClassLoop, parseClassChar, h1, h2, h3, isPerlClassLetter]

/-- C15: the duplicate-separator pattern is the escaped separator followed by the quantifier,
and the quantifier binds the last character only. With the separator "ab" the matcher is
a followed by two or more b: the doubled separator in "xababy" is kept, "xabbby", which
holds no two adjacent separators, is rewritten, and Slugify of "x ab y" keeps three adjacent
separators. -/
theorem dup_pass_repeats_last_character :
    compileDup (B "ab") = some (some (Regexp.dup [0x61] 0x62))
    ∧ (Regexp.dup [0x61] 0x62).ReplaceAllString asciiDeps (B "xababy") (B "ab") = B "xababy"
    ∧ (Regexp.dup [0x61] 0x62).ReplaceAllString asciiDeps (B "xabbby") (B "ab") = B "xaby"
    ∧ ((NewSlugifier.WordSeparator (B "ab")).Slugify asciiDeps (B "x ab y")).1
        = some (B "xabababy") := by
  decide

/-- C16: the separator and the allowed set are concatenated inside one bracket expression,
so a dash at their border forms a range. With the default separator and the allowed set
"-a-z" the letters b to y are replaced; with the separator "--" and the default allowed set
the letters b to y are replaced; with the separator "a" and the allowed set "-z" the letter
b, which is in neither, is kept. -/
theorem invalid_matcher_merges_separator_and_set :
    compileInvalid [] (B "-a-z") = some (Regexp.notIn [.range 0x2D 0x2D, .range 0x61 0x7A])
    ∧ compileInvalid (B "-") (B "-a-z")
        = some (Regexp.notIn [.range 0x2D 0x61, .range 0x2D 0x2D, .range 0x7A 0x7A])
    ∧ ((NewSlugifier.AllowedSet (B "-a-z")).Slugify asciiDeps (B "zebra")).1 = some (B "z-a")
    ∧ compileInvalid (B "--") (B "a-zA-Z0-9")
        = some (Regexp.notIn [.range 0x2D 0x61, .range 0x2D 0x2D, .range 0x7A 0x7A,
            .range 0x41 0x5A, .range 0x30 0x39])
    ∧ ((NewSlugifier.WordSeparator (B "--")).Slugify asciiDeps (B "a hello z")).1
        = some (B "a--z")
    ∧ compileInvalid [] (B "-z") = some (Regexp.notIn [.range 0x2D 0x2D, .range 0x7A 0x7A])
    ∧ compileInvalid (B "a") (B "-z") = some (Regexp.notIn [.range 0x61 0x7A])
    ∧ (((NewSlugifier.WordSeparator (B "a")).AllowedSet (B "-z")).Slugify asciiDeps
        (B "b!c")).1 = some (B "b-c") := by
  decide

/-! ## C17, C18: the empty word separator -/

theorem compileInvalid_nil_default :
    compileInvalid (B "") (B "a-zA-Z0-9") = some (Regexp.notIn lettersDigitsClass) := by
  decide

theorem lettersDigitsClass_contains (r : Nat) :
    lettersDigitsClass.any (fun i => i.contains r) = isAlnum r := by
  simp only [lettersDigitsClass, List.any_cons, List.any_nil, ClassItem.contains, isAlnum,
    isDigit, isUpper, isLower, Bool.or_false]
  cases (decide (0x61 ≤ r) && decide (r ≤ 0x7A)) <;>
    cases (decide (0x41 ≤ r) && decide (r ≤ 0x5A)) <;>
    cases (decide (0x30 ≤ r) && decide (r ≤ 0x39)) <;> rfl

/-- Joining the fields of a text with the empty separator removes its white space. -/
theorem Join_fieldsLoop_nil (cs : List Chunk) :
    ∀ cur, Join (fieldsLoop isSpace cs cur) []
      = cur ++ (cs.filter (fun c => !isSpace c.1)).flatMap (fun c => c.2) := by
  induction cs with
  | nil =>
    intro cur
    by_cases h : cur = []
    · simp [fieldsLoop, h, Join_nil]
    · simp [fieldsLoop, h, Join_cons, Join_nil]
  | cons c cs ih =>
    intro cur
    by_cases hsp : isSpace c.1 = true
    · have hf : (c :: cs).filter (fun c => !isSpace c.1) = cs.filter (fun c => !isSpace c.1) := by
        rw [List.filter_cons_of_neg]; simp [hsp]
      rw [hf]
      by_cases h : cur = []
      · simp only [fieldsLoop, hsp, if_true, h]
        exact ih []
      · simp only [fieldsLoop, hsp, if_true, h, if_false]
        rw [Join_cons]
        split_ifs with h0
        · have h1 := ih []
          rw [h0, Join_nil, List.nil_append] at h1
          rw [← h1]
        · rw [ih []]
          simp
    · have hf : (c :: cs).filter (fun c => !isSpace c.1)
          = c :: cs.filter (fun c => !isSpace c.1) := by
        rw [List.filter_cons_of_pos]; simp [hsp]
      rw [hf, fieldsLoop, if_neg hsp, ih, List.flatMap_cons, List.append_assoc]

theorem Join_Fields_nil (t : GoString) : Join (Fields t) [] = removeSpace t := by
  rw [Fields, Join_fieldsLoop_nil, List.nil_append, removeSpace]

theorem replaceInvalid_lettersDigits (d : Deps) (s : GoString) :
    (Regexp.notIn lettersDigitsClass).ReplaceAllString d s (B "-") = dashOthers s := by
  have hexp : ∀ m, expand d (B "-") m = [0x2D] := fun m => expand_single d 0x2D m
  simp only [Regexp.ReplaceAllString, dashOthers, lettersDigitsClass_contains, hexp]

theorem dashOthers_mem (s : GoString) : ∀ b ∈ dashOthers s, isAlnum b = true ∨ b = 0x2D := by
  intro b hb
  simp only [dashOthers, List.mem_flatMap] at hb
  obtain ⟨c, hc, hb⟩ := hb
  by_cases hal : isAlnum c.1 = true
  · rw [if_pos hal] at hb
    rcases (runes_mem s c hc).2 with ⟨_, h2⟩ | ⟨h1, _⟩
    · rw [h2, List.mem_singleton] at hb
      exact Or.inl (hb ▸ hal)
    · rw [high_not_alnum c.1 h1] at hal
      simp at hal
  · rw [if_neg hal, List.mem_singleton] at hb
    exact Or.inr hb

theorem trim_pred_nil_dash :
    (fun b : Nat => decide (encodeRune b = B "") || decide (encodeRune b = B "-"))
      = fun b => decide (b = 0x2D) := by
  funext b
  have h1 : encodeRune b ≠ B "" := encodeRune_ne_nil b
  have h2 : encodeRune b = B "-" ↔ b = 0x2D := by
    rw [show B "-" = [0x2D] from rfl, encodeRune_eq_singleton]
    exact ⟨fun h => h.1, fun h => ⟨h, by decide⟩⟩
  simp only [h1, decide_False, Bool.false_or, h2]

/-- What `Slugify` returns with the empty separator and the other knobs at their defaults. -/
theorem slugOf_nil_separator (d : Deps) (x : GoString) :
    slugOf d false (B "") (B "-") (B "a-zA-Z0-9") x
      = some (referenceNoSeparator (d.unidecode x)) := by
  have hdup : compileDup (B "") = some none := rfl
  unfold slugOf
  rw [compileInvalid_nil_default, hdup]
  simp only [passes, Bool.not_false, if_true]
  rw [trim_pred_nil_dash, show B "" = [] from rfl, Join_Fields_nil,
    replaceInvalid_lettersDigits]
  refine congrArg some ?_
  rw [referenceNoSeparator, stripDashes]
  apply ToLower_ascii
  intro b hb
  have hb1 := (List.rdropWhile_prefix _ _).subset hb
  have hb2 := (List.dropWhile_suffix _).subset hb1
  rcases dashOthers_mem _ b hb2 with h | h
  · exact alnum_lt b h
  · omega

theorem ready_setter (s : Slugifier) (w : GoString) : (s.WordSeparator w).Ready := by
  intro hi; simp [Slugifier.WordSeparator] at hi

/-- C17: with the word separator set to "" and the other knobs left at their defaults,
on a Slugifier from NewSlugifier or on a zero value, `Slugify(x)` is for every input the
lower case of the transliterated text with its white space removed, every other character
than an ASCII letter or digit replaced by one `-`, and the `-` at both ends stripped; with
the example of the tests. -/
theorem empty_separator_slug :
    (∀ (d : Deps) (x : GoString),
      ((NewSlugifier.WordSeparator (B "")).Slugify d x).1
          = some (referenceNoSeparator (d.unidecode x))
        ∧ ((({} : Slugifier).WordSeparator (B "")).Slugify d x).1
          = some (referenceNoSeparator (d.unidecode x)))
    ∧ ((NewSlugifier.WordSeparator (B "")).Slugify asciiDeps
        (B "This -- is \t\t  \r\n a ## test ---")).1 = some (B "this--isa--test")
    ∧ referenceNoSeparator (B "This -- is \t\t  \r\n a ## test ---") = B "this--isa--test"
    ∧ removeSpace (B "This -- is \t\t  \r\n a ## test ---") = B "This--isa##test---"
    ∧ dashOthers (B "This--isa##test---") = B "This--isa--test---" := by
  refine ⟨fun d x => ⟨?_, ?_⟩, by decide, by decide, by decide, by decide⟩
  · rw [slugify_eq_slugOf d _ (ready_setter _ _)]
    exact slugOf_nil_separator d x
  · rw [slugify_eq_slugOf d _ (ready_setter _ _)]
    exact slugOf_nil_separator d x

theorem replaceInvalid_delete (d : Deps) (s : GoString) :
    (Regexp.notIn lettersDigitsClass).ReplaceAllString d s (B "") = s.filter isAlnum := by
  have hexp : ∀ m, expand d (B "") m = [] := fun m => expand_nil d m
  induction s using runes_induction with
  | hnil => simp [Regexp.ReplaceAllString, runes_nil]
  | hascii b t hb ih =>
    rw [replaceInvalid_cons_ascii d _ b t _ hb, lettersDigitsClass_contains, hexp, ih]
    by_cases hal : isAlnum b = true
    · rw [if_pos hal, List.filter_cons_of_pos hal, List.singleton_append]
    · rw [if_neg hal, List.filter_cons_of_neg hal, List.nil_append]
  | hhigh r bs rest hr hne hbs hrunes ih =>
    rw [replaceInvalid_high d _ r bs rest _ hrunes, lettersDigitsClass_contains, hexp, ih,
      high_not_alnum r hr, List.filter_append]
    have h0 : bs.filter isAlnum = [] := by
      rw [List.filter_eq_nil_iff]
      intro b hb
      rw [high_not_alnum b (hbs b hb)]
      simp
    rw [h0]
    simp

/-- White space holds no letter or digit: removing it keeps the letters and digits. -/
theorem removeSpace_filter (t : GoString) :
    (removeSpace t).filter isAlnum = t.filter isAlnum := by
  have key : ∀ cs : List Chunk,
      (∀ c ∈ cs, (c.1 < 0x80 ∧ c.2 = [c.1]) ∨ (0x80 ≤ c.1 ∧ ∀ b ∈ c.2, 0x80 ≤ b)) →
      (((cs.filter (fun c => !isSpace c.1)).flatMap (fun c => c.2)).filter isAlnum
        = (cs.flatMap (fun c => c.2)).filter isAlnum) := by
    intro cs
    induction cs with
    | nil => intro _; rfl
    | cons c cs ih =>
      intro h
      have ih1 := ih (fun x hx => h x (List.mem_cons_of_mem _ hx))
      by_cases hsp : isSpace c.1 = true
      · have hf : (c :: cs).filter (fun c => !isSpace c.1)
            = cs.filter (fun c => !isSpace c.1) := by
          rw [List.filter_cons_of_neg]; simp [hsp]
        have h0 : c.2.filter isAlnum = [] := by
          rw [List.filter_eq_nil_iff]
          intro b hb
          rcases h c (List.mem_cons_self _ _) with ⟨_, h2⟩ | ⟨_, h2⟩
          · rw [h2, List.mem_singleton] at hb
            rw [hb, isSpace_not_alnum c.1 hsp]
            simp
          · rw [high_not_alnum b (h2 b hb)]
            simp
        rw [hf, ih1, List.flatMap_cons, List.filter_append, h0, List.nil_append]
      · have hf : (c :: cs).filter (fun c => !isSpace c.1)
            = c :: cs.filter (fun c => !isSpace c.1) := by
          rw [List.filter_cons_of_pos]; simp [hsp]
        rw [hf, List.flatMap_cons, List.flatMap_cons, List.filter_append, List.filter_append,
          ih1]
  have h := key (runes t) (fun c hc => (runes_mem t c hc).2)
  rw [runes_flatMap] at h
  exact h

theorem trim_pred_nil_nil :
    (fun b : Nat => decide (encodeRune b = B "") || decide (encodeRune b = B ""))
      = fun _ => false := by
  funext b
  have h1 : encodeRune b ≠ B "" := encodeRune_ne_nil b
  simp only [h1, decide_False, Bool.or_self]

/-- What `Slugify` returns with the empty separator, the empty replacement and the other
knobs at their defaults. -/
theorem slugOf_nil_nil (d : Deps) (x : GoString) :
    slugOf d false (B "") (B "") (B "a-zA-Z0-9") x
      = some (referenceLettersDigits (d.unidecode x)) := by
  have hdup : compileDup (B "") = some none := rfl
  unfold slugOf
  rw [compileInvalid_nil_default, hdup]
  simp only [passes, Bool.not_false, if_true]
  rw [trim_pred_nil_nil, replaceInvalid_delete, show B "" = [] from rfl, Join_Fields_nil,
    removeSpace_filter]
  refine congrArg some ?_
  have ht := trim_of_none (fun _ => false) ((d.unidecode x).filter isAlnum) (fun _ _ => rfl)
  rw [ht.1, ht.2, referenceLettersDigits]
  apply ToLower_ascii
  intro b hb
  exact alnum_lt b (List.mem_filter.1 hb).2

/-- C18: with the word separator and the invalid-character replacement both set to "",
in either order, and the other knobs left at their defaults, `Slugify(x)` is for every
input the lower case of the ASCII letters and digits of the transliterated text, in their
order, and the two trimming loops remove nothing; with the example of the tests. -/
theorem empty_separator_and_replacement_slug :
    (∀ (d : Deps) (x : GoString),
      (((NewSlugifier.InvalidChar (B "")).WordSeparator (B "")).Slugify d x).1
          = some (referenceLettersDigits (d.unidecode x))
        ∧ (((NewSlugifier.WordSeparator (B "")).InvalidChar (B "")).Slugify d x).1
          = some (referenceLettersDigits (d.unidecode x)))
    ∧ (∀ txt : GoString,
        (txt.dropWhile (fun b => decide (encodeRune b = B "") || decide (encodeRune b = B "")))
          = txt
        ∧ (txt.rdropWhile
            (fun b => decide (encodeRune b = B "") || decide (encodeRune b = B ""))) = txt)
    ∧ (((NewSlugifier.InvalidChar (B "")).WordSeparator (B "")).Slugify asciiDeps
        (B "This -- is \t\t  \r\n a ## test ---")).1 = some (B "thisisatest")
    ∧ referenceLettersDigits (B "This -- is \t\t  \r\n a ## test ---") = B "thisisatest" := by
  refine ⟨fun d x => ⟨?_, ?_⟩, fun txt => ?_, by decide, by decide⟩
  · rw [slugify_eq_slugOf d _ (ready_setter _ _)]
    exact slugOf_nil_nil d x
  · have hr : ((NewSlugifier.WordSeparator (B "")).InvalidChar (B "")).Ready :=
      ready_step d _ (Call.InvalidChar (B "")) (ready_setter _ _)
    rw [slugify_eq_slugOf d _ hr]
    exact slugOf_nil_nil d x
  · rw [trim_pred_nil_nil]
    exact trim_of_none (fun _ => false) txt (fun _ _ => rfl)

end Slugify
